import Mathlib
/-! The package `paths` of hnakamur/paths: glob matcher and paginated directory walker.

A shallow embedding of `matcher.go` and `reader.go`.

Go strings are modelled as `List Char` (valid UTF-8 text, one `Char` per rune).
All keys of the replacer table and all regular-expression metacharacters are
ASCII, so working on runes instead of bytes does not change any result.
-/

namespace Paths

deriving instance DecidableEq for Except

/-! ## The parts of Go's `strings` package that `matcher.go` uses -/

/-- Go `strings.HasPrefix(s, p)`. -/
def strings.HasPrefix (s p : List Char) : Bool := p.isPrefixOf s

/-- Go `strings.HasSuffix(s, p)`. -/
def strings.HasSuffix (s p : List Char) : Bool := p.isSuffixOf s

/-- Go `strings.Join(elems, sep)`. -/
def strings.Join (elems : List (List Char)) (sep : List Char) : List Char :=
  sep.intercalate elems

/-- Go `strings.Replacer`: the list of (old, new) pairs in argument order.
All `old` keys are assumed non-empty, as they are in `replacer` below. -/
structure strings.Replacer where
  oldnew : List (List Char × List Char)

/-- The pair used at the current position: old strings are compared in argument
order, the first one that is a prefix of the remaining text wins. -/
def strings.Replacer.lookup (r : strings.Replacer) (s : List Char) :
    Option (List Char × List Char) :=
  r.oldnew.find? (fun kv => kv.1.isPrefixOf s)

/-- The scanning loop of `Replace`: `skip` counts the characters of a matched
key that are still to be passed over (replacements do not overlap). -/
def strings.Replacer.replaceFrom (r : strings.Replacer) : Nat → List Char → List Char
  | _, [] => []
  | skip + 1, _ :: rest => strings.Replacer.replaceFrom r skip rest
  | 0, c :: rest =>
    match r.lookup (c :: rest) with
    | some kv => kv.2 ++ strings.Replacer.replaceFrom r (kv.1.length - 1) rest
    | none => c :: strings.Replacer.replaceFrom r 0 rest

/-- Go `(*strings.Replacer).Replace`. -/
def strings.Replacer.Replace (r : strings.Replacer) (s : List Char) : List Char :=
  r.replaceFrom 0 s

/-! ## A model of Go's `regexp` package

Only the syntax that `convertGlobs` can produce is interpreted; any other
construct of the RE2 syntax makes `regexp.Compile` answer `unsupported`.
The parser follows `regexp/syntax.Parse` with the Perl flags: a stack of open
groups, each holding the finished alternatives and the items of the running
concatenation.  Go's literal merging and alternation factoring do not change the
language of the expression and are left out.
-/

/-- Regular expression syntax tree (the operators of `regexp/syntax` in use). -/
inductive Regexp where
  | emptyMatch
  | literal (c : Char)
  | anyCharNotNL
  | notChar (c : Char)
  | beginText
  | endText
  | capture (sub : Regexp)
  | star (sub : Regexp)
  | plus (sub : Regexp)
  | quest (sub : Regexp)
  | concat (a b : Regexp)
  | alternate (a b : Regexp)
  deriving DecidableEq, Repr

/-- Error codes of `regexp/syntax`, plus `unsupported` for syntax outside the model. -/
inductive RegexpError where
  | unexpectedParen
  | missingParen
  | missingRepeatArgument
  | invalidRepeatOp
  | trailingBackslash
  | unsupported
  deriving DecidableEq, Repr

/-- The `collapse` of a run of stack items into one concatenation. -/
def Regexp.concatOf : List Regexp → Regexp
  | [] => Regexp.emptyMatch
  | [r] => r
  | r :: rs => Regexp.concat r (Regexp.concatOf rs)

/-- The `collapse` of the alternatives `r, rs...` into one alternation. -/
def Regexp.alternateOf : Regexp → List Regexp → Regexp
  | r, [] => r
  | r, r2 :: rs => Regexp.alternate r (Regexp.alternateOf r2 rs)

/-- One open group of the parser: the alternatives already closed by `|` and the
items of the concatenation being read. -/
structure Frame where
  alts : List Regexp
  cur : List Regexp
  deriving DecidableEq, Repr

/-- The expression a group stands for when it is closed. -/
def Frame.close (f : Frame) : Regexp :=
  match f.alts ++ [Regexp.concatOf f.cur] with
  | [] => Regexp.emptyMatch
  | r :: rs => Regexp.alternateOf r rs

/-- Where the parser stands between two characters: after an ordinary token,
right after `(`, after a repetition operator (which a `?` may still turn
non-greedy), after a non-greedy repetition operator, after a backslash, or
inside the character class `[^/]` after `[`, `[^` and `[^/`. -/
inductive ParseMode where
  | token
  | opened
  | repeated
  | nonGreedy
  | escape
  | classOpen
  | classNeg
  | classNegSlash
  deriving DecidableEq, Repr

/-- Parser state: the innermost open group, the enclosing ones, and the mode. -/
structure ParseState where
  top : Frame
  below : List Frame
  mode : ParseMode
  deriving DecidableEq, Repr

/-- Push an item on the running concatenation. -/
def ParseState.push (st : ParseState) (r : Regexp) : ParseState :=
  { top := { alts := st.top.alts, cur := st.top.cur ++ [r] }, below := st.below,
    mode := ParseMode.token }

/-- Apply a repetition operator to the last item read: stacked operators are
rejected, and so is an operator with nothing before it in its group.  Greedy and
non-greedy operators accept the same texts, so the non-greedy mark is not kept. -/
def ParseState.repeatOp (st : ParseState) (op : Regexp → Regexp) :
    Except RegexpError ParseState :=
  if st.mode = ParseMode.repeated ∨ st.mode = ParseMode.nonGreedy then
    Except.error RegexpError.invalidRepeatOp
  else
    match st.top.cur.getLast? with
    | none => Except.error RegexpError.missingRepeatArgument
    | some r =>
      Except.ok { top := { alts := st.top.alts, cur := st.top.cur.dropLast ++ [op r] },
                  below := st.below, mode := ParseMode.repeated }

/-- The token `|`. -/
def ParseState.verticalBar (st : ParseState) : ParseState :=
  { top := { alts := st.top.alts ++ [Regexp.concatOf st.top.cur], cur := [] },
    below := st.below, mode := ParseMode.token }

/-- The token `(`. -/
def ParseState.leftParen (st : ParseState) : ParseState :=
  { top := { alts := [], cur := [] }, below := st.top :: st.below, mode := ParseMode.opened }

/-- The token `)`. -/
def ParseState.rightParen (st : ParseState) : Except RegexpError ParseState :=
  match st.below with
  | [] => Except.error RegexpError.unexpectedParen
  | f :: fs =>
    Except.ok { top := { alts := f.alts, cur := f.cur ++ [Regexp.capture st.top.close] },
                below := fs, mode := ParseMode.token }

/-- Characters that a backslash turns into themselves: ASCII and not a letter or digit. -/
def isEscapablePunct (c : Char) : Bool := decide (c.toNat < 128) && !c.isAlphanum

/-- One round of the main loop of `regexp/syntax.Parse`, reading one character. -/
def regexp.parseStep (st : ParseState) (c : Char) : Except RegexpError ParseState :=
  match st.mode with
  | ParseMode.escape =>
    if c = 'A' then Except.ok (st.push Regexp.beginText)
    else if c = 'z' then Except.ok (st.push Regexp.endText)
    else if isEscapablePunct c then Except.ok (st.push (Regexp.literal c))
    else Except.error RegexpError.unsupported
  | ParseMode.classOpen =>
    if c = '^' then Except.ok { top := st.top, below := st.below, mode := ParseMode.classNeg }
    else Except.error RegexpError.unsupported
  | ParseMode.classNeg =>
    if c = '/' then
      Except.ok { top := st.top, below := st.below, mode := ParseMode.classNegSlash }
    else Except.error RegexpError.unsupported
  | ParseMode.classNegSlash =>
    if c = ']' then Except.ok (st.push (Regexp.notChar '/'))
    else Except.error RegexpError.unsupported
  | _ =>
    if c = '(' then Except.ok st.leftParen
    else if c = '|' then Except.ok st.verticalBar
    else if c = ')' then st.rightParen
    else if c = '^' then Except.ok (st.push Regexp.beginText)
    else if c = '$' then Except.ok (st.push Regexp.endText)
    else if c = '.' then Except.ok (st.push Regexp.anyCharNotNL)
    else if c = '[' then
      Except.ok { top := st.top, below := st.below, mode := ParseMode.classOpen }
    else if c = Char.ofNat 92 then
      Except.ok { top := st.top, below := st.below, mode := ParseMode.escape }
    else if c = '\x7b' then Except.error RegexpError.unsupported
    else if c = '?' ∧ st.mode = ParseMode.opened then Except.error RegexpError.unsupported
    else if c = '?' ∧ st.mode = ParseMode.repeated then
      Except.ok { top := st.top, below := st.below, mode := ParseMode.nonGreedy }
    else if c = '*' then st.repeatOp Regexp.star
    else if c = '+' then st.repeatOp Regexp.plus
    else if c = '?' then st.repeatOp Regexp.quest
    else Except.ok (st.push (Regexp.literal c))

/-- The main loop of `regexp/syntax.Parse`. -/
def regexp.parseLoop : List Char → ParseState → Except RegexpError ParseState
  | [], st => Except.ok st
  | c :: t, st =>
    match regexp.parseStep st c with
    | Except.error e => Except.error e
    | Except.ok st2 => regexp.parseLoop t st2

/-- Go `regexp.Compile`: parse the expression; at the end no escape or class may
be unfinished and all groups must be closed. -/
def regexp.Compile (expr : List Char) : Except RegexpError Regexp :=
  match regexp.parseLoop expr
      { top := { alts := [], cur := [] }, below := [], mode := ParseMode.token } with
  | Except.error e => Except.error e
  | Except.ok st =>
    if st.mode = ParseMode.escape then Except.error RegexpError.trailingBackslash
    else if st.mode = ParseMode.classOpen ∨ st.mode = ParseMode.classNeg
        ∨ st.mode = ParseMode.classNegSlash then Except.error RegexpError.unsupported
    else
      match st.below with
      | [] => Except.ok st.top.close
      | _ :: _ => Except.error RegexpError.missingParen

/-- A position in the input text: its index and the text that is left. -/
structure Pos where
  index : Nat
  rest : List Char
  deriving DecidableEq, Repr

/-- Iteration of a star: zero or more rounds of `f`, each round consuming input. -/
def starEnds (f : Pos → List Pos) : Nat → Pos → List Pos
  | 0, p => [p]
  | n + 1, p => p :: ((f p).filter (fun q => decide (q.rest.length < p.rest.length))).flatMap
      (starEnds f n)

/-- All positions at which a match of the expression that starts at `p` can end. -/
def Regexp.ends : Regexp → Pos → List Pos
  | Regexp.emptyMatch, p => [p]
  | Regexp.literal c, p =>
    match p.rest with
    | x :: xs => if x = c then [{ index := p.index + 1, rest := xs }] else []
    | [] => []
  | Regexp.anyCharNotNL, p =>
    match p.rest with
    | x :: xs => if x = '\n' then [] else [{ index := p.index + 1, rest := xs }]
    | [] => []
  | Regexp.notChar c, p =>
    match p.rest with
    | x :: xs => if x = c then [] else [{ index := p.index + 1, rest := xs }]
    | [] => []
  | Regexp.beginText, p => if p.index = 0 then [p] else []
  | Regexp.endText, p => if p.rest = [] then [p] else []
  | Regexp.capture r, p => Regexp.ends r p
  | Regexp.star r, p => starEnds (Regexp.ends r) p.rest.length p
  | Regexp.plus r, p => (Regexp.ends r p).flatMap (fun q => starEnds (Regexp.ends r) q.rest.length q)
  | Regexp.quest r, p => p :: Regexp.ends r p
  | Regexp.concat a b, p => (Regexp.ends a p).flatMap (Regexp.ends b)
  | Regexp.alternate a b, p => Regexp.ends a p ++ Regexp.ends b p

/-- The positions of a text, from the start to the end. -/
def positions : Nat → List Char → List Pos
  | i, [] => [{ index := i, rest := [] }]
  | i, c :: cs => { index := i, rest := c :: cs } :: positions (i + 1) cs

/-- Go `(*regexp.Regexp).MatchString`: the text contains a match of the expression. -/
def Regexp.MatchString (re : Regexp) (s : List Char) : Bool :=
  (positions 0 s).any (fun p => !(re.ends p).isEmpty)

/-! ## matcher.go -/

/-- The compiled matcher; a nil `*regexp.Regexp` is `none`. -/
structure matcherRegexp where
  includeRe : Option Regexp
  excludeRe : Option Regexp
  deriving DecidableEq, Repr

/-- The package variable `replacer`. -/
def replacer : strings.Replacer :=
  { oldnew := [
      ("/**/".toList, "/(.+/)?".toList),
      ("*".toList, "[^/]*".toList),
      ("?".toList, "[^/]".toList),
      (".".toList, "\\.".toList),
      ("|".toList, "\\|".toList),
      ("+".toList, "\\+".toList),
      ("[".toList, "\\[".toList),
      ("(".toList, "\\(".toList),
      ("\x7b".toList, "\\\x7b".toList),
      ("^".toList, "\\^".toList),
      ("$".toList, "\\$".toList),
      ("\\".toList, "\\\\".toList)] }

/-- The body of the loop of `convertGlobs`: the expression for one pattern. -/
def globExpr (pattern : List Char) : List Char :=
  let pre := if strings.HasPrefix pattern "**/".toList then "(.+/)?".toList else []
  let pattern1 := if strings.HasPrefix pattern "**/".toList then pattern.drop 3 else pattern
  let suf :=
    if strings.HasSuffix pattern1 "/".toList then "(/.+)?".toList
    else if strings.HasSuffix pattern1 "/**".toList then "(/.+)?".toList
    else []
  let pattern2 :=
    if strings.HasSuffix pattern1 "/".toList then pattern1.take (pattern1.length - 1)
    else if strings.HasSuffix pattern1 "/**".toList then pattern1.take (pattern1.length - 3)
    else pattern1
  pre ++ replacer.Replace pattern2 ++ suf

/-- The function `convertGlobs`: no patterns give a nil expression. -/
def convertGlobs (patterns : List (List Char)) : Except RegexpError (Option Regexp) :=
  if patterns.length = 0 then Except.ok none
  else
    match regexp.Compile ("\\A(".toList ++ strings.Join (patterns.map globExpr) "|".toList
        ++ ")\\z".toList) with
    | Except.error e => Except.error e
    | Except.ok re => Except.ok (some re)

/-- The function `NewMatcher`. -/
def NewMatcher (includes excludes : List (List Char)) : Except RegexpError matcherRegexp :=
  match convertGlobs includes with
  | Except.error e => Except.error e
  | Except.ok inc =>
    match convertGlobs excludes with
    | Except.error e => Except.error e
    | Except.ok exc => Except.ok { includeRe := inc, excludeRe := exc }

/-- The method `(*matcherRegexp).Match`. -/
def matcherRegexp.Match (m : matcherRegexp) (path : List Char) : Bool :=
  (match m.includeRe with
   | none => true
   | some re => re.MatchString path) &&
  (match m.excludeRe with
   | none => true
   | some re => !re.MatchString path)

/-- The path is matched by the single-pattern matcher of the pattern: the matcher
built from that one include pattern and no exclude pattern. -/
def MatchesPattern (pattern path : List Char) : Prop :=
  ∃ m : matcherRegexp, NewMatcher [pattern] [] = Except.ok m ∧ m.Match path = true

/-- A matcher with two include patterns and one exclude pattern. -/
def exampleMatcher : matcherRegexp :=
  match NewMatcher ["*.md".toList, "src/".toList] ["**/*.o".toList] with
  | Except.ok m => m
  | Except.error _ => { includeRe := none, excludeRe := none }

/-- The package variable `DefaultExcludes`. -/
def DefaultExcludes : List (List Char) :=
  ["**/*~", "**/#*#", "**/.#*", "**/%*%", "**/._*", "**/CVS/**", "**/.cvsignore",
   "**/SCCS/**", "**/vssver.scc", "**/.svn/**", "**/.DS_Store", "**/.git/**",
   "**/.gitattributes", "**/.gitignore", "**/.gitmodules", "**/.hg/**", "**/.hgignore",
   "**/.hgsub", "**/.hgsubstate", "**/.hgtags", "**/.bzr/**", "**/.bzrignore"].map String.toList

end Paths

namespace Paths

/-! ## The parts of Go's `path` package that `reader.go` uses

`path.Clean` is modelled on the elements of the path (the pieces between
slashes) instead of on byte indices: empty elements and `.` are dropped, `..`
removes the element before it, or is kept at the front of a relative path, or is
dropped at the root.
-/

/-- The elements of a path: the pieces between its slashes (`cur` is the piece
being read). -/
def path.elements : List Char → List Char → List (List Char)
  | [], cur => [cur]
  | c :: t, cur => if c = '/' then cur :: path.elements t [] else path.elements t (cur ++ [c])

/-- The output of `Clean` while it is built: the number of leading `..` elements
and the elements after them. -/
structure path.CleanState where
  ups : Nat
  elems : List (List Char)
  deriving DecidableEq, Repr

/-- One element of the path is processed by `Clean`. -/
def path.cleanStep (rooted : Bool) (st : path.CleanState) (e : List Char) : path.CleanState :=
  if e = [] ∨ e = ['.'] then st
  else if e = ['.', '.'] then
    (if st.elems ≠ [] then { ups := st.ups, elems := st.elems.dropLast }
     else if rooted then st
     else { ups := st.ups + 1, elems := [] })
  else { ups := st.ups, elems := st.elems ++ [e] }

/-- The text of the output of `Clean`. -/
def path.render (rooted : Bool) (st : path.CleanState) : List Char :=
  if rooted then '/' :: strings.Join st.elems ['/']
  else if st.ups = 0 ∧ st.elems = [] then ['.']
  else strings.Join (List.replicate st.ups ['.', '.'] ++ st.elems) ['/']

/-- Go `path.Clean`. -/
def path.Clean (p : List Char) : List Char :=
  if p = [] then ['.']
  else
    let rooted := decide (p.head? = some '/')
    path.render rooted ((path.elements p []).foldl (path.cleanStep rooted) { ups := 0, elems := [] })

/-- Go `path.Join`: empty elements are ignored, the rest is joined by slashes and cleaned. -/
def path.Join (elem : List (List Char)) : List Char :=
  if elem.filter (fun e => decide (e ≠ [])) = [] then []
  else path.Clean (strings.Join (elem.filter (fun e => decide (e ≠ []))) ['/'])

/-- Go `path.Split`: the path up to and including its last slash, and what follows. -/
def path.Split (p : List Char) : List Char × List Char :=
  ((p.reverse.dropWhile (fun c => decide (c ≠ '/'))).reverse,
   (p.reverse.takeWhile (fun c => decide (c ≠ '/'))).reverse)

/-- Go `path.Dir`. -/
def path.Dir (p : List Char) : List Char := path.Clean (path.Split p).1

/-- Go `path.Base`. -/
def path.Base (p : List Char) : List Char :=
  if p = [] then ['.']
  else
    let stripped := p.reverse.dropWhile (fun c => decide (c = '/'))
    let last := (stripped.takeWhile (fun c => decide (c ≠ '/'))).reverse
    if last = [] then ['/'] else last

/-! ## reader.go -/

/-- An `error` value returned by the directory-listing function. -/
structure OSError where
  code : Nat
  deriving DecidableEq, Repr

/-- Go `os.ModeDir`. -/
def os.ModeDir : Nat := 2 ^ 31

/-- Go `(os.FileMode).IsDir`. -/
def os.FileMode.IsDir (m : Nat) : Bool := m &&& os.ModeDir != 0

/-- A value of the interface `os.FileInfo`, as a listing returns it: the results
of its six methods. -/
structure FileInfo where
  name : List Char
  size : Int
  mode : Nat
  modTime : Int
  isDir : Bool
  sys : Option Nat
  deriving DecidableEq, Repr

/-- The struct `dirEntry`. -/
structure dirEntry where
  name : List Char
  size : Int
  mode : Nat
  modTime : Int
  sys : Option Nat
  deriving DecidableEq, Repr

/-- The method `(*dirEntry).Name`. -/
def dirEntry.Name (e : dirEntry) : List Char := e.name

/-- The method `(*dirEntry).Size`. -/
def dirEntry.Size (e : dirEntry) : Int := e.size

/-- The method `(*dirEntry).Mode`. -/
def dirEntry.Mode (e : dirEntry) : Nat := e.mode

/-- The method `(*dirEntry).ModTime`. -/
def dirEntry.ModTime (e : dirEntry) : Int := e.modTime

/-- The method `(*dirEntry).IsDir`. -/
def dirEntry.IsDir (e : dirEntry) : Bool := os.FileMode.IsDir e.Mode

/-- The method `(*dirEntry).Sys`. -/
def dirEntry.Sys (e : dirEntry) : Option Nat := e.sys

/-- The struct `recurDirReader`; a nil `Matcher` is `none`. -/
structure recurDirReader where
  dir : List Char
  matcher : Option (List Char → Bool)
  marker : List Char
  maxEntries : Int
  readDirFunc : List Char → Except OSError (List FileInfo)

/-- How a call ends: it returns the pair `(entries, err)`, or it stops on a
run-time panic (an index or slice bound out of range), or the fuel of the model
runs out. -/
inductive WalkResult where
  | returned (entries : List dirEntry) (err : Option OSError)
  | panic
  | outOfFuel
  deriving DecidableEq, Repr

/-- The method `(*recurDirReader).hasReachedLimit`. -/
def recurDirReader.hasReachedLimit (r : recurDirReader) (entries : List dirEntry) : Bool :=
  decide (r.maxEntries > 0) && decide ((entries.length : Int) ≥ r.maxEntries)

/-- The statement `if err != nil || r.hasReachedLimit(entries) { return entries, err }`
after a call, followed by the rest of the function. -/
def WalkResult.andThen (res : WalkResult) (r : recurDirReader)
    (rest : List dirEntry → WalkResult) : WalkResult :=
  match res with
  | WalkResult.returned entries err =>
    if err.isSome || r.hasReachedLimit entries then WalkResult.returned entries err
    else rest entries
  | WalkResult.panic => WalkResult.panic
  | WalkResult.outOfFuel => WalkResult.outOfFuel

/-- The function `indexOfName`. -/
def indexOfName : List FileInfo → List Char → Nat
  | [], _ => 0
  | info :: infos, name => if info.name = name then 0 else indexOfName infos name + 1

/-- The loop of `processFileInfos`; `appendReadDir` is the function called on a
subdirectory. -/
def recurDirReader.processFileInfosWith (r : recurDirReader)
    (appendReadDir : List Char → List dirEntry → WalkResult) (dirname : List Char) :
    List FileInfo → List dirEntry → WalkResult
  | [], entries => WalkResult.returned entries none
  | info :: infos, entries =>
    let entryPath := path.Join [dirname, info.name]
    let matched :=
      match r.matcher with
      | none => true
      | some m => m entryPath
    let entries1 :=
      if matched then
        entries ++ [{ name := entryPath, size := info.size, mode := info.mode,
                      modTime := info.modTime, sys := info.sys }]
      else entries
    if matched && r.hasReachedLimit entries1 then WalkResult.returned entries1 none
    else if info.isDir then
      (appendReadDir (path.Join [dirname, info.name]) entries1).andThen r
        (fun entries2 => recurDirReader.processFileInfosWith r appendReadDir dirname infos entries2)
    else recurDirReader.processFileInfosWith r appendReadDir dirname infos entries1

/-- The method `(*recurDirReader).appendReadDir`; `fuel` bounds the depth of the recursion. -/
def recurDirReader.appendReadDir (r : recurDirReader) :
    Nat → List Char → List dirEntry → WalkResult
  | 0, _, _ => WalkResult.outOfFuel
  | fuel + 1, dirname, entries =>
    match r.readDirFunc dirname with
    | Except.error e => WalkResult.returned entries (some e)
    | Except.ok infos =>
      r.processFileInfosWith (recurDirReader.appendReadDir r fuel) dirname infos entries

/-- The method `(*recurDirReader).processFileInfos`. -/
def recurDirReader.processFileInfos (r : recurDirReader) (fuel : Nat) (dirname : List Char)
    (infos : List FileInfo) (entries : List dirEntry) : WalkResult :=
  r.processFileInfosWith (r.appendReadDir fuel) dirname infos entries

/-- The `for` loop at the end of `appendReadDirAfterMarker`; `afterMarker` is the
recursive call and the first argument bounds the number of rounds. -/
def recurDirReader.climbWith (r : recurDirReader)
    (afterMarker : List Char → List dirEntry → WalkResult) :
    Nat → List Char → List dirEntry → WalkResult
  | 0, markerDir, entries =>
    if markerDir = r.dir then WalkResult.returned entries none else WalkResult.outOfFuel
  | n + 1, markerDir, entries =>
    if markerDir = r.dir then WalkResult.returned entries none
    else (afterMarker markerDir entries).andThen r
      (fun entries2 => recurDirReader.climbWith r afterMarker n (path.Dir markerDir) entries2)

/-- The method `(*recurDirReader).appendReadDirAfterMarker`; `fuel` bounds the depth of the
recursion.  `infos[i]` and `infos[i+1:]` panic when the index is out of range. -/
def recurDirReader.appendReadDirAfterMarker (r : recurDirReader) :
    Nat → List Char → List dirEntry → WalkResult
  | 0, _, _ => WalkResult.outOfFuel
  | fuel + 1, marker, entries =>
    let markerBase := path.Base marker
    let markerDir := path.Dir marker
    match r.readDirFunc markerDir with
    | Except.error e => WalkResult.returned entries (some e)
    | Except.ok infos =>
      let i := indexOfName infos markerBase
      let siblings : List dirEntry → WalkResult := fun entries1 =>
        if i + 1 > infos.length then WalkResult.panic
        else (r.processFileInfos fuel markerDir (infos.drop (i + 1)) entries1).andThen r
          (fun entries2 =>
            r.climbWith (recurDirReader.appendReadDirAfterMarker r fuel) fuel markerDir entries2)
      if marker = r.marker then
        match infos.get? i with
        | none => WalkResult.panic
        | some info =>
          if info.isDir then
            match r.readDirFunc marker with
            | Except.error e => WalkResult.returned entries (some e)
            | Except.ok subinfos =>
              (r.processFileInfos fuel marker subinfos entries).andThen r siblings
          else siblings entries
      else siblings entries

/-- The method `(*recurDirReader).recurReadDir`. -/
def recurDirReader.recurReadDir (r : recurDirReader) (fuel : Nat) : WalkResult :=
  if r.marker ≠ [] then r.appendReadDirAfterMarker fuel r.marker []
  else r.appendReadDir fuel r.dir []

/-- The function `RecurReadDir`; the file system (`ioutil.ReadDir`) is the argument `readDir`. -/
def RecurReadDir (readDir : List Char → Except OSError (List FileInfo)) (dir : List Char)
    (matcher : Option (List Char → Bool)) (marker : List Char) (maxEntries : Int)
    (fuel : Nat) : WalkResult :=
  recurDirReader.recurReadDir
    { dir := dir, matcher := matcher, marker := marker, maxEntries := maxEntries,
      readDirFunc := readDir } fuel

/-! ## Finite directory trees

The claims about the walker speak of a finite tree and of the listings of its
directories.  A forest is the content of one directory: its first node with the
content of that node, followed by the remaining nodes of the directory.
-/

/-- The content of a directory: nothing; or a node whose own listing succeeds (or
that is not a directory), with its content `sub`, followed by its siblings; or a
directory whose listing fails with `err`, followed by its siblings. -/
inductive Forest where
  | nil
  | node (info : FileInfo) (sub : Forest) (rest : Forest)
  | broken (info : FileInfo) (err : OSError) (rest : Forest)
  deriving DecidableEq, Repr

/-- The listing of the directory: its nodes in order. -/
def Forest.infos : Forest → List FileInfo
  | Forest.nil => []
  | Forest.node info _ rest => info :: rest.infos
  | Forest.broken info _ rest => info :: rest.infos

/-- The forest without its first `n` nodes. -/
def Forest.dropNodes : Nat → Forest → Forest
  | 0, f => f
  | _ + 1, Forest.nil => Forest.nil
  | n + 1, Forest.node _ _ rest => Forest.dropNodes n rest
  | n + 1, Forest.broken _ _ rest => Forest.dropNodes n rest

/-- No listing inside the forest fails. -/
def Forest.allListed : Forest → Bool
  | Forest.nil => true
  | Forest.node info sub rest => (!info.isDir || sub.allListed) && rest.allListed
  | Forest.broken info _ rest => !info.isDir && rest.allListed

/-- The number of nested directories inside the forest. -/
def Forest.height : Forest → Nat
  | Forest.nil => 0
  | Forest.node info sub rest => max (if info.isDir then sub.height + 1 else 0) rest.height
  | Forest.broken info _ rest => max (if info.isDir then 1 else 0) rest.height

/-- The number of nodes of the forest (what lies under a non-directory does not count). -/
def Forest.size : Forest → Nat
  | Forest.nil => 0
  | Forest.node info sub rest => 1 + (if info.isDir then sub.size else 0) + rest.size
  | Forest.broken _ _ rest => 1 + rest.size

/-- The directory-listing function lists, for every directory node of the forest
`f` that lies in directory `d`, the content of that node (or fails with its error). -/
def Forest.listedBelow (readDir : List Char → Except OSError (List FileInfo)) :
    List Char → Forest → Bool
  | _, Forest.nil => true
  | d, Forest.node info sub rest =>
    (!info.isDir ||
      (decide (readDir (path.Join [d, info.name]) = Except.ok sub.infos)
        && Forest.listedBelow readDir (path.Join [d, info.name]) sub))
    && Forest.listedBelow readDir d rest
  | d, Forest.broken info err rest =>
    (!info.isDir || decide (readDir (path.Join [d, info.name]) = Except.error err))
    && Forest.listedBelow readDir d rest

/-- The directory `d` is listed as the forest `f`, and so is everything below. -/
def Forest.listedAt (readDir : List Char → Except OSError (List FileInfo)) (d : List Char)
    (f : Forest) : Bool :=
  decide (readDir d = Except.ok f.infos) && f.listedBelow readDir d

/-- A node met by the pre-order traversal: the directory it lies in, its listing
entry, and the error of its own listing when it is a directory that cannot be listed. -/
structure Visit where
  dir : List Char
  info : FileInfo
  failure : Option OSError
  deriving DecidableEq, Repr

/-- Pre-order traversal: each node, then all of its descendants (children in
listing order), then its next sibling. -/
def Forest.preorder : List Char → Forest → List Visit
  | _, Forest.nil => []
  | d, Forest.node info sub rest =>
    { dir := d, info := info, failure := none }
      :: ((if info.isDir then Forest.preorder (path.Join [d, info.name]) sub else [])
          ++ Forest.preorder d rest)
  | d, Forest.broken info err rest =>
    { dir := d, info := info, failure := if info.isDir then some err else none }
      :: Forest.preorder d rest

/-- The entry the walker builds for a visited node. -/
def Visit.entry (v : Visit) : dirEntry :=
  { name := path.Join [v.dir, v.info.name], size := v.info.size, mode := v.info.mode,
    modTime := v.info.modTime, sys := v.info.sys }

/-- The visits up to and including the first directory that cannot be listed. -/
def upToFailure : List Visit → List Visit
  | [] => []
  | v :: vs => if v.failure.isSome then [v] else v :: upToFailure vs

/-- The error of the first visited directory that cannot be listed. -/
def firstFailure : List Visit → Option OSError
  | [] => none
  | v :: vs =>
    match v.failure with
    | some e => some e
    | none => firstFailure vs

/-- The paths of the nodes of the forest `f` found in directory `d`, in pre-order. -/
def Forest.nodeNames (d : List Char) (f : Forest) : List (List Char) :=
  (f.preorder d).map (fun v => v.entry.Name)

/-- The entry is kept by the matcher of the reader (always, when there is none). -/
def keptBy (matcher : Option (List Char → Bool)) (e : dirEntry) : Bool :=
  match matcher with
  | none => true
  | some m => m e.name

/-- A name a directory listing can contain: not empty, without slash, not `.` or `..`. -/
def validName (n : List Char) : Bool :=
  decide (n ≠ []) && decide ('/' ∉ n) && decide (n ≠ ['.']) && decide (n ≠ ['.', '.'])

/-- Every name in the forest is a valid name. -/
def Forest.namesValid : Forest → Bool
  | Forest.nil => true
  | Forest.node info sub rest => validName info.name && sub.namesValid && rest.namesValid
  | Forest.broken info _ rest => validName info.name && rest.namesValid

/-- In the listings of the forest, `IsDir()` agrees with `Mode().IsDir()`, as the
interface `os.FileInfo` documents. -/
def Forest.modesAgree : Forest → Bool
  | Forest.nil => true
  | Forest.node info sub rest =>
    decide (info.isDir = os.FileMode.IsDir info.mode) && sub.modesAgree && rest.modesAgree
  | Forest.broken info _ rest =>
    decide (info.isDir = os.FileMode.IsDir info.mode) && rest.modesAgree

/-! ## A fake file system, as in `reader_test.go` -/

/-- The directories of the forest `f` found in directory `d`, with their listings. -/
def Forest.table : List Char → Forest → List (List Char × Except OSError (List FileInfo))
  | _, Forest.nil => []
  | d, Forest.node info sub rest =>
    (if info.isDir then
      (path.Join [d, info.name], Except.ok sub.infos) :: Forest.table (path.Join [d, info.name]) sub
     else [])
    ++ Forest.table d rest
  | d, Forest.broken info err rest =>
    (if info.isDir then [(path.Join [d, info.name], Except.error err)] else [])
    ++ Forest.table d rest

/-- Go `os.ErrInvalid`, the error of `fakeReaderDirFunc` for an unknown directory. -/
def os.ErrInvalid : OSError := { code := 22 }

/-- The function `fakeReaderDirFunc` for the file system whose directory `root`
holds the forest `f`: only the exact paths of its directories are known.  The
listing of a directory is given in the order of the forest. -/
def fakeReaderDirFunc (root : List Char) (f : Forest) (dirname : List Char) :
    Except OSError (List FileInfo) :=
  match ((root, Except.ok f.infos) :: f.table root).lookup dirname with
  | some listing => listing
  | none => Except.error os.ErrInvalid

/-- A regular file, as `fakeFileInfo` describes it. -/
def fakeFile (name : String) : FileInfo :=
  { name := name.toList, size := 0, mode := 0o644, modTime := 0, isDir := false, sys := none }

/-- A directory, as `fakeFileInfo` describes it. -/
def fakeDir (name : String) : FileInfo :=
  { name := name.toList, size := 0, mode := 0o755 + os.ModeDir, modTime := 0, isDir := true,
    sys := none }

/-- The entry the walker returns for a regular file of the fake file system. -/
def fileEntry (name : String) : dirEntry :=
  { name := name.toList, size := 0, mode := 0o644, modTime := 0, sys := none }

/-- The entry the walker returns for a directory of the fake file system. -/
def dirEntryOf (name : String) : dirEntry :=
  { name := name.toList, size := 0, mode := 0o755 + os.ModeDir, modTime := 0, sys := none }

/-- A small tree: `a/` holding `b/` holding the file `c`, and next to `a/` the file `z`. -/
def smallTree : Forest :=
  Forest.node (fakeDir "a")
    (Forest.node (fakeDir "b")
      (Forest.node (fakeFile "c") Forest.nil Forest.nil)
      Forest.nil)
    (Forest.node (fakeFile "z") Forest.nil Forest.nil)

/-- A tree with a directory that cannot be listed: the file `a`, the directory
`bad/`, and the file `z`. -/
def brokenTree : Forest :=
  Forest.node (fakeFile "a") Forest.nil
    (Forest.broken (fakeDir "bad") { code := 13 }
      (Forest.node (fakeFile "z") Forest.nil Forest.nil))

end Paths

namespace Paths

/-! ## Auxiliary definitions used in the proofs -/

/-- The characters the replacer escapes with a backslash. -/
def escapedChars : List Char := ['.', '|', '+', '[', '(', '\x7b', '^', '$', Char.ofNat 92]

/-- The state after the items `items` were appended to the running concatenation. -/
def ParseState.extend (st : ParseState) (items : List Regexp) (m : ParseMode) : ParseState :=
  { top := { alts := st.top.alts, cur := st.top.cur ++ items }, below := st.below, mode := m }

/-- The parser is between two tokens (not inside an escape or a class). -/
def ParseMode.ready (m : ParseMode) : Prop :=
  m = ParseMode.token ∨ m = ParseMode.opened ∨ m = ParseMode.repeated ∨ m = ParseMode.nonGreedy

/-- The characters with a meaning of their own in the parser. -/
def parserSpecials : List Char :=
  ['(', '|', ')', '^', '$', '.', '[', '*', '+', '?', '\x7b', Char.ofNat 92]

/-- The expression `(.+/)?`: an optional run of directories ending in a slash. -/
def dirsItem : Regexp :=
  Regexp.quest (Regexp.capture (Regexp.concat (Regexp.plus Regexp.anyCharNotNL)
    (Regexp.literal '/')))

/-- The expression `(/.+)?`: an optional slash followed by anything. -/
def belowItem : Regexp :=
  Regexp.quest (Regexp.capture (Regexp.concat (Regexp.literal '/')
    (Regexp.plus Regexp.anyCharNotNL)))

/-- The items the parser reads from `replacer.replaceFrom skip pattern`. -/
def replacedItems : Nat → List Char → List Regexp
  | _, [] => []
  | skip + 1, _ :: t => replacedItems skip t
  | 0, c :: t =>
    if c = '/' ∧ ("**/".toList).isPrefixOf t = true then
      [Regexp.literal '/', dirsItem] ++ replacedItems 3 t
    else if c = '*' then Regexp.star (Regexp.notChar '/') :: replacedItems 0 t
    else if c = '?' then Regexp.notChar '/' :: replacedItems 0 t
    else Regexp.literal c :: replacedItems 0 t

/-- The pattern has the leading `**/`. -/
def globHasDirs (pattern : List Char) : Bool := strings.HasPrefix pattern "**/".toList

/-- The pattern without its leading `**/`. -/
def globTail (pattern : List Char) : List Char :=
  if strings.HasPrefix pattern "**/".toList then pattern.drop 3 else pattern

/-- The pattern, after its leading `**/` is taken off, ends in `/` or `/**`. -/
def globHasBelow (pattern : List Char) : Bool :=
  strings.HasSuffix (globTail pattern) "/".toList
    || strings.HasSuffix (globTail pattern) "/**".toList

/-- The part of the pattern that goes through the replacer. -/
def globCore (pattern : List Char) : List Char :=
  if strings.HasSuffix (globTail pattern) "/".toList then
    (globTail pattern).take ((globTail pattern).length - 1)
  else if strings.HasSuffix (globTail pattern) "/**".toList then
    (globTail pattern).take ((globTail pattern).length - 3)
  else globTail pattern

/-- The items the parser reads from the expression of one pattern. -/
def globItems (pattern : List Char) : List Regexp :=
  (if globHasDirs pattern then [dirsItem] else []) ++ replacedItems 0 (globCore pattern)
    ++ (if globHasBelow pattern then [belowItem] else [])

/-- The open group after the expressions of the patterns, joined by `|`, were read. -/
def joinTop : Frame → List (List Char) → Frame
  | f, [] => f
  | f, [p] => { alts := f.alts, cur := f.cur ++ globItems p }
  | f, p :: q :: rest =>
    joinTop { alts := f.alts ++ [Regexp.concatOf (f.cur ++ globItems p)], cur := [] } (q :: rest)

/-- The expression `\A(x)\z`. -/
def anchored (x : Regexp) : Regexp :=
  Regexp.concat Regexp.beginText (Regexp.concat (Regexp.capture x) Regexp.endText)

/-- The alternation of the expressions of a list of patterns. -/
def globsBody (pats : List (List Char)) : Regexp :=
  (joinTop { alts := [], cur := [] } pats).close

/-- The expression matches the whole text. -/
def Regexp.fullMatch (re : Regexp) (s : List Char) : Bool :=
  (re.ends { index := 0, rest := s }).any (fun q => q.rest.isEmpty)

/-- The text matches the expression of the pattern, from its start to its end. -/
def globMatch (pattern s : List Char) : Bool :=
  (Regexp.concatOf (globItems pattern)).fullMatch s

/-- The same reader without matcher and without limit. -/
def recurDirReader.base (r : recurDirReader) : recurDirReader :=
  { dir := r.dir, matcher := none, marker := r.marker, maxEntries := 0,
    readDirFunc := r.readDirFunc }

/-- What the reader returns when the walk without limit would return `es` and `err`. -/
def recurDirReader.limited (r : recurDirReader) (es : List dirEntry) (err : Option OSError) :
    WalkResult :=
  if r.hasReachedLimit es then WalkResult.returned (es.take r.maxEntries.toNat) none
  else WalkResult.returned es err

/-- The function `fr` does, with the matcher and the limit of `r`, what `f0` does without them. -/
def Refines (r : recurDirReader) (f0 fr : List dirEntry → WalkResult) : Prop :=
  ∀ es0 es1 err, f0 es0 = WalkResult.returned es1 err →
    ∃ delta, es1 = es0 ++ delta ∧
      ∀ es, r.hasReachedLimit es = false →
        fr es = r.limited (es ++ delta.filter (keptBy r.matcher)) err

/-- The entry `processFileInfos` builds for a listing entry of the directory `dirname`. -/
def entryFor (dirname : List Char) (info : FileInfo) : dirEntry :=
  { name := path.Join [dirname, info.name], size := info.size, mode := info.mode,
    modTime := info.modTime, sys := info.sys }

/-- From a marker the walk without matcher and limit returns, without error,
whatever was collected before. -/
def ResumeReturns (r : recurDirReader) (marker : List Char) : Prop :=
  ∃ n, ∀ es, ∃ es2, ∀ fuel, n ≤ fuel →
    r.base.appendReadDirAfterMarker fuel marker es = WalkResult.returned es2 none

/-- From a directory the climbing loop returns, without error. -/
def ClimbReturns (r : recurDirReader) (d : List Char) : Prop :=
  ∃ n, ∀ es, ∃ es2, ∀ fuel k, n ≤ fuel → n ≤ k →
    r.base.climbWith (r.base.appendReadDirAfterMarker fuel) k d es = WalkResult.returned es2 none

end Paths

namespace Paths

/-! ## The words of an expression -/

/-- The expression has no `\A` and no `\z` inside. -/
def Regexp.noAnchors : Regexp → Bool
  | Regexp.emptyMatch => true
  | Regexp.literal _ => true
  | Regexp.anyCharNotNL => true
  | Regexp.notChar _ => true
  | Regexp.beginText => false
  | Regexp.endText => false
  | Regexp.capture r => r.noAnchors
  | Regexp.star r => r.noAnchors
  | Regexp.plus r => r.noAnchors
  | Regexp.quest r => r.noAnchors
  | Regexp.concat a b => a.noAnchors && b.noAnchors
  | Regexp.alternate a b => a.noAnchors && b.noAnchors

/-- The words of an expression without anchors: the texts it matches from their
first to their last character. -/
def Regexp.Accepts : Regexp → List Char → Prop
  | Regexp.emptyMatch, w => w = []
  | Regexp.literal c, w => w = [c]
  | Regexp.anyCharNotNL, w => ∃ x, x ≠ '\n' ∧ w = [x]
  | Regexp.notChar c, w => ∃ x, x ≠ c ∧ w = [x]
  | Regexp.beginText, _ => False
  | Regexp.endText, _ => False
  | Regexp.capture r, w => r.Accepts w
  | Regexp.star r, w => ∃ ws : List (List Char), (∀ x ∈ ws, r.Accepts x) ∧ w = ws.flatten
  | Regexp.plus r, w =>
    ∃ u, ∃ ws : List (List Char), r.Accepts u ∧ (∀ x ∈ ws, r.Accepts x) ∧ w = u ++ ws.flatten
  | Regexp.quest r, w => w = [] ∨ r.Accepts w
  | Regexp.concat a b, w => ∃ u v, a.Accepts u ∧ b.Accepts v ∧ w = u ++ v
  | Regexp.alternate a b, w => a.Accepts w ∨ b.Accepts w

/-- A match of the words `A` leads from the position `p` to the position `q`. -/
def Pos.Reaches (A : List Char → Prop) (p q : Pos) : Prop :=
  ∃ w, A w ∧ p.rest = w ++ q.rest ∧ q.index = p.index + w.length

/-- The words of a run of items: the words of their concatenation. -/
def Words (items : List Regexp) (w : List Char) : Prop :=
  (Regexp.concatOf items).Accepts w

/-- The items the parser reads from a pattern whose leading `**/` was taken off. -/
def tailItems (t : List Char) : List Regexp :=
  replacedItems 0
      (if strings.HasSuffix t "/".toList then t.take (t.length - 1)
       else if strings.HasSuffix t "/**".toList then t.take (t.length - 3)
       else t)
    ++ (if strings.HasSuffix t "/".toList || strings.HasSuffix t "/**".toList then [belowItem]
        else [])

/-! ## Plain strings and names -/

/-- The characters the replacer escapes, which `TestEscapeMeta` tries:
`|`, `+`, `[`, `\x7b`, `(`, `^`, `$` and the backslash. -/
def metaChars : List Char := ['|', '+', '[', '\x7b', '(', '^', '$', Char.ofNat 92]

/-- A letter, a digit, `.`, `_` or `-`. -/
def isNameChar (c : Char) : Bool := c.isAlphanum || c == '.' || c == '_' || c == '-'

/-- A letter, a digit, `.`, `_`, `-` or `/`. -/
def isPlainChar (c : Char) : Bool := isNameChar c || c == '/'

/-- A plain name: letters, digits, `.`, `_` and `-` only. -/
def isPlainName (s : List Char) : Bool := s.all isNameChar

/-- A plain string or path: letters, digits, `.`, `_`, `-` and `/` only. -/
def isPlain (s : List Char) : Bool := s.all isPlainChar

/-! ## Entries and listings -/

/-- The entry is built from one entry of a successful listing of `readDir`. -/
def FromListing (readDir : List Char → Except OSError (List FileInfo)) (e : dirEntry) : Prop :=
  ∃ dirname infos info, readDir dirname = Except.ok infos ∧ info ∈ infos
    ∧ e = entryFor dirname info

/-- Given entries built from listings, the function returns only such entries. -/
def KeepsListed (r : recurDirReader) (f : List dirEntry → WalkResult) : Prop :=
  ∀ es es1 err, f es = WalkResult.returned es1 err →
    (∀ e ∈ es, FromListing r.readDirFunc e) → ∀ e ∈ es1, FromListing r.readDirFunc e

/-- The visits after the first visit of the node whose path is `marker`: the part of
the pre-order walk that follows the marker (`none` when no node has that path). -/
def visitsAfter (marker : List Char) : List Visit → Option (List Visit)
  | [] => none
  | v :: vs => if v.entry.Name = marker then some vs else visitsAfter marker vs

/-- The path `d` lies below the clean path `root`: it is neither `.` nor `/`, and it
is longer than a root other than these two. -/
def Deeper (root d : List Char) : Prop :=
  d ≠ ['.'] ∧ d ≠ ['/'] ∧ (root ≠ ['.'] → root ≠ ['/'] → root.length < d.length)

/-- From the directory `d` the climbing loop of the walk without matcher and limit
appends the entries `L` and returns without error. -/
def ClimbAppends (r : recurDirReader) (d : List Char) (L : List dirEntry) : Prop :=
  ∃ n, ∀ es fuel k, n ≤ fuel → n ≤ k →
    r.base.climbWith (r.base.appendReadDirAfterMarker fuel) k d es
      = WalkResult.returned (es ++ L) none

/-- From the marker the walk without matcher and limit appends the entries `X` and
returns without error. -/
def ResumeAppends (r : recurDirReader) (marker : List Char) (X : List dirEntry) : Prop :=
  ∃ n, ∀ es fuel, n ≤ fuel →
    r.base.appendReadDirAfterMarker fuel marker es = WalkResult.returned (es ++ X) none

/-- A listing function that, like `ioutil.ReadDir`, finds a directory under every
spelling of its path: the fake file system, looked up by the cleaned path. -/
def cleanedReaderDirFunc (root : List Char) (f : Forest) (dirname : List Char) :
    Except OSError (List FileInfo) :=
  fakeReaderDirFunc root f (path.Clean dirname)

/-- The content of a current directory that holds the directory `r` with the small
tree: `r/a/b/c` and `r/z`. -/
def nestedTree : Forest :=
  Forest.node (fakeDir "r") smallTree Forest.nil

/-- The last of the segments of a path that `/` separates. -/
def lastSegment (p : List Char) : List Char :=
  (p.reverse.takeWhile (fun c => c != '/')).reverse

/-- The matcher that `NewMatcher(nil, DefaultExcludes)` returns: no include expression,
and the exclude expression of the default patterns. -/
def defaultMatcher : matcherRegexp :=
  { includeRe := none, excludeRe := some (anchored (globsBody DefaultExcludes)) }

end Paths

namespace Paths

/-! ## The replacer table, equation by equation -/

theorem replaceFrom_skip (k : Nat) (c : Char) (t : List Char) :
    replacer.replaceFrom (k + 1) (c :: t) = replacer.replaceFrom k t := rfl

theorem replaceFrom_dirs (t : List Char) :
    replacer.replaceFrom 0 ('/' :: '*' :: '*' :: '/' :: t)
      = "/(.+/)?".toList ++ replacer.replaceFrom 0 t := by
  simp [strings.Replacer.replaceFrom, strings.Replacer.lookup, replacer, List.find?,
    List.isPrefixOf]

theorem replaceFrom_star (t : List Char) :
    replacer.replaceFrom 0 ('*' :: t) = "[^/]*".toList ++ replacer.replaceFrom 0 t := by
  simp [strings.Replacer.replaceFrom, strings.Replacer.lookup, replacer, List.find?,
    List.isPrefixOf]

theorem replaceFrom_quest (t : List Char) :
    replacer.replaceFrom 0 ('?' :: t) = "[^/]".toList ++ replacer.replaceFrom 0 t := by
  simp [strings.Replacer.replaceFrom, strings.Replacer.lookup, replacer, List.find?,
    List.isPrefixOf]

theorem replaceFrom_escaped (c : Char) (hc : c ∈ escapedChars) (t : List Char) :
    replacer.replaceFrom 0 (c :: t) = Char.ofNat 92 :: c :: replacer.replaceFrom 0 t := by
  simp only [escapedChars, List.mem_cons, List.mem_singleton, List.not_mem_nil, or_false] at hc
  rcases hc with rfl | rfl | rfl | rfl | rfl | rfl | rfl | rfl | rfl <;>
    simp [strings.Replacer.replaceFrom, strings.Replacer.lookup, replacer, List.find?,
      List.isPrefixOf]

theorem isPrefixOf_stars (t : List Char) (h : ("**/".toList).isPrefixOf t = true) :
    ∃ t2, t = '*' :: '*' :: '/' :: t2 := by
  rw [List.isPrefixOf_iff_prefix] at h
  obtain ⟨t2, rfl⟩ := h
  exact ⟨t2, rfl⟩

theorem replaceFrom_slash_dirs (t : List Char) (h : ("**/".toList).isPrefixOf t = true) :
    replacer.replaceFrom 0 ('/' :: t) = "/(.+/)?".toList ++ replacer.replaceFrom 3 t := by
  obtain ⟨t2, rfl⟩ := isPrefixOf_stars t h
  simp [strings.Replacer.replaceFrom, strings.Replacer.lookup, replacer, List.find?,
    List.isPrefixOf]

theorem lookup_none (c : Char) (t : List Char) (h1 : c ≠ '*') (h2 : c ≠ '?')
    (h3 : c ∉ escapedChars) (h4 : c = '/' → ("**/".toList).isPrefixOf t = false) :
    replacer.lookup (c :: t) = none := by
  simp only [escapedChars, List.mem_cons, List.mem_singleton, List.not_mem_nil, or_false,
    not_or] at h3
  obtain ⟨a1, a2, a3, a4, a5, a6, a7, a8, a9⟩ := h3
  have e : ∀ (k : Char), c ≠ k → (k == c) = false := by
    intro k hk
    simp [beq_iff_eq, Ne.symm hk]
  simp only [strings.Replacer.lookup, replacer, String.toList]
  by_cases hs : c = '/'
  · subst hs
    have := h4 rfl
    simp only [String.toList] at this
    simp [List.find?, List.isPrefixOf, this]
  · simp [List.find?, List.isPrefixOf, e _ hs, e _ h1, e _ h2, e _ a1, e _ a2, e _ a3, e _ a4,
      e _ a5, e _ a6, e _ a7, e _ a8, e _ a9]

theorem replaceFrom_plain (c : Char) (t : List Char) (h1 : c ≠ '*') (h2 : c ≠ '?')
    (h3 : c ∉ escapedChars) (h4 : c = '/' → ("**/".toList).isPrefixOf t = false) :
    replacer.replaceFrom 0 (c :: t) = c :: replacer.replaceFrom 0 t := by
  simp only [strings.Replacer.replaceFrom, lookup_none c t h1 h2 h3 h4]

/-! ## The parser, token by token -/

theorem parseLoop_append (a b : List Char) (st : ParseState) :
    regexp.parseLoop (a ++ b) st
      = (match regexp.parseLoop a st with
         | Except.error e => Except.error e
         | Except.ok st2 => regexp.parseLoop b st2) := by
  induction a generalizing st with
  | nil => simp [regexp.parseLoop]
  | cons c t ih =>
    simp only [List.cons_append, regexp.parseLoop]
    cases h : regexp.parseStep st c with
    | error e => simp
    | ok st2 => simp [ih]

theorem parseLoop_append_ok (a b : List Char) (st st2 : ParseState)
    (h : regexp.parseLoop a st = Except.ok st2) :
    regexp.parseLoop (a ++ b) st = regexp.parseLoop b st2 := by
  rw [parseLoop_append, h]

theorem parse_plain (c : Char) (hc : c ∉ parserSpecials) (st : ParseState)
    (hr : st.mode.ready) :
    regexp.parseLoop [c] st = Except.ok (st.extend [Regexp.literal c] ParseMode.token) := by
  simp only [parserSpecials, List.mem_cons, List.mem_singleton, List.not_mem_nil, or_false,
    not_or] at hc
  obtain ⟨a1, a2, a3, a4, a5, a6, a7, a8, a9, a10, a11, a12⟩ := hc
  obtain ⟨top, below, mode⟩ := st
  cases mode <;> simp [ParseMode.ready] at hr <;>
    simp [regexp.parseLoop, regexp.parseStep, a1, a2, a3, a4, a5, a6, a7, a8, a9, a10, a11, a12,
      ParseState.push, ParseState.extend]

theorem parse_escaped (c : Char) (hc : c ∈ escapedChars) (st : ParseState)
    (hr : st.mode.ready) :
    regexp.parseLoop [Char.ofNat 92, c] st
      = Except.ok (st.extend [Regexp.literal c] ParseMode.token) := by
  simp only [escapedChars, List.mem_cons, List.mem_singleton, List.not_mem_nil, or_false] at hc
  obtain ⟨top, below, mode⟩ := st
  cases mode <;> simp [ParseMode.ready] at hr <;>
    rcases hc with rfl | rfl | rfl | rfl | rfl | rfl | rfl | rfl | rfl <;>
    simp [regexp.parseLoop, regexp.parseStep, ParseState.push, ParseState.extend,
      isEscapablePunct, Char.isAlphanum, Char.isAlpha, Char.isDigit, Char.isUpper,
      Char.isLower]

theorem parse_one (st : ParseState) (hr : st.mode.ready) :
    regexp.parseLoop "[^/]".toList st
      = Except.ok (st.extend [Regexp.notChar '/'] ParseMode.token) := by
  obtain ⟨top, below, mode⟩ := st
  cases mode <;> simp [ParseMode.ready] at hr <;>
    simp [regexp.parseLoop, regexp.parseStep, ParseState.push, ParseState.extend]

theorem parse_star (st : ParseState) (hr : st.mode.ready) :
    regexp.parseLoop "[^/]*".toList st
      = Except.ok (st.extend [Regexp.star (Regexp.notChar '/')] ParseMode.repeated) := by
  obtain ⟨top, below, mode⟩ := st
  cases mode <;> simp [ParseMode.ready] at hr <;>
    simp [regexp.parseLoop, regexp.parseStep, ParseState.push, ParseState.extend,
      ParseState.repeatOp]

theorem parse_dirs (st : ParseState) (hr : st.mode.ready) :
    regexp.parseLoop "(.+/)?".toList st
      = Except.ok (st.extend [dirsItem] ParseMode.repeated) := by
  obtain ⟨top, below, mode⟩ := st
  cases mode <;> simp [ParseMode.ready] at hr <;>
    simp [regexp.parseLoop, regexp.parseStep, ParseState.push, ParseState.extend,
      ParseState.repeatOp, ParseState.leftParen, ParseState.rightParen, Frame.close,
      Regexp.concatOf, Regexp.alternateOf, dirsItem]

theorem parse_below (st : ParseState) (hr : st.mode.ready) :
    regexp.parseLoop "(/.+)?".toList st
      = Except.ok (st.extend [belowItem] ParseMode.repeated) := by
  obtain ⟨top, below, mode⟩ := st
  cases mode <;> simp [ParseMode.ready] at hr <;>
    simp [regexp.parseLoop, regexp.parseStep, ParseState.push, ParseState.extend,
      ParseState.repeatOp, ParseState.leftParen, ParseState.rightParen, Frame.close,
      Regexp.concatOf, Regexp.alternateOf, belowItem]

theorem parse_slash_dirs (st : ParseState) (hr : st.mode.ready) :
    regexp.parseLoop "/(.+/)?".toList st
      = Except.ok (st.extend [Regexp.literal '/', dirsItem] ParseMode.repeated) := by
  obtain ⟨top, below, mode⟩ := st
  cases mode <;> simp [ParseMode.ready] at hr <;>
    simp [regexp.parseLoop, regexp.parseStep, ParseState.push, ParseState.extend,
      ParseState.repeatOp, ParseState.leftParen, ParseState.rightParen, Frame.close,
      Regexp.concatOf, Regexp.alternateOf, dirsItem]

theorem parse_verticalBar (st : ParseState) (hr : st.mode.ready) :
    regexp.parseLoop ['|'] st = Except.ok st.verticalBar := by
  obtain ⟨top, below, mode⟩ := st
  cases mode <;> simp [ParseMode.ready] at hr <;>
    simp [regexp.parseLoop, regexp.parseStep]

theorem parse_rightParen (st : ParseState) (hr : st.mode.ready) :
    regexp.parseLoop [')'] st = st.rightParen := by
  obtain ⟨top, below, mode⟩ := st
  cases mode <;> simp [ParseMode.ready] at hr <;>
    simp [regexp.parseLoop, regexp.parseStep] <;>
    cases ParseState.rightParen _ <;> rfl

/-! ## Reading a converted pattern -/

theorem extend_extend (st : ParseState) (a b : List Regexp) (m1 m2 : ParseMode) :
    (st.extend a m1).extend b m2 = st.extend (a ++ b) m2 := by
  simp [ParseState.extend]

theorem extend_nil (st : ParseState) : st.extend [] st.mode = st := by
  simp [ParseState.extend]

theorem ready_repeated : ParseMode.repeated.ready := by simp [ParseMode.ready]

theorem ready_token : ParseMode.token.ready := by simp [ParseMode.ready]

/-- One step of the replacer followed by the parser, for a character other than `)`. -/
theorem parse_replaced_head (c : Char) (t : List Char) (hc : c ≠ ')') (st : ParseState)
    (hr : st.mode.ready) :
    ∃ (k : Nat) (items : List Regexp) (m : ParseMode) (out : List Char), m.ready ∧
      replacer.replaceFrom 0 (c :: t) = out ++ replacer.replaceFrom k t ∧
      replacedItems 0 (c :: t) = items ++ replacedItems k t ∧
      (k = 0 ∨ k = 3 ∧ ∃ t2, t = '*' :: '*' :: '/' :: t2) ∧
      regexp.parseLoop out st = Except.ok (st.extend items m) := by
  by_cases h0 : c = '/' ∧ ("**/".toList).isPrefixOf t = true
  · obtain ⟨rfl, h0⟩ := h0
    exact ⟨3, [Regexp.literal '/', dirsItem], ParseMode.repeated, "/(.+/)?".toList,
      ready_repeated, replaceFrom_slash_dirs t h0, by rw [replacedItems, if_pos ⟨rfl, h0⟩],
      Or.inr ⟨rfl, isPrefixOf_stars t h0⟩, parse_slash_dirs st hr⟩
  · by_cases h1 : c = '*'
    · subst h1
      exact ⟨0, [Regexp.star (Regexp.notChar '/')], ParseMode.repeated, "[^/]*".toList,
        ready_repeated, replaceFrom_star t, by simp [replacedItems], Or.inl rfl,
        parse_star st hr⟩
    · by_cases h2 : c = '?'
      · subst h2
        exact ⟨0, [Regexp.notChar '/'], ParseMode.token, "[^/]".toList,
          ready_token, replaceFrom_quest t, by simp [replacedItems], Or.inl rfl,
          parse_one st hr⟩
      · have hi : replacedItems 0 (c :: t) = [Regexp.literal c] ++ replacedItems 0 t := by
          rw [replacedItems, if_neg h0, if_neg h1, if_neg h2]
          rfl
        by_cases h3 : c ∈ escapedChars
        · exact ⟨0, [Regexp.literal c], ParseMode.token, [Char.ofNat 92, c], ready_token,
            replaceFrom_escaped c h3 t, hi, Or.inl rfl, parse_escaped c h3 st hr⟩
        · have h4 : c = '/' → ("**/".toList).isPrefixOf t = false := by
            intro hc2
            cases hb : ("**/".toList).isPrefixOf t with
            | false => rfl
            | true => exact absurd ⟨hc2, hb⟩ h0
          refine ⟨0, [Regexp.literal c], ParseMode.token, [c], ready_token,
            replaceFrom_plain c t h1 h2 h3 h4, hi, Or.inl rfl, parse_plain c ?_ st hr⟩
          simp only [escapedChars, List.mem_cons, List.mem_singleton, List.not_mem_nil,
            or_false, not_or] at h3
          simp only [parserSpecials, List.mem_cons, List.mem_singleton, List.not_mem_nil,
            or_false, not_or]
          tauto

/-- A pattern without `)` is read as the items `replacedItems`. -/
theorem parse_replaced (p : List Char) : ∀ (k : Nat) (st : ParseState), st.mode.ready →
    ')' ∉ p.drop k → ∃ m : ParseMode, m.ready ∧
      regexp.parseLoop (replacer.replaceFrom k p) st
        = Except.ok (st.extend (replacedItems k p) m) := by
  induction p with
  | nil =>
    intro k st hr _
    refine ⟨st.mode, hr, ?_⟩
    cases k <;> simp [strings.Replacer.replaceFrom, replacedItems, regexp.parseLoop, extend_nil]
  | cons c t ih =>
    intro k st hr hp
    cases k with
    | succ k =>
      simp only [List.drop_succ_cons] at hp
      simpa [strings.Replacer.replaceFrom, replacedItems] using ih k st hr hp
    | zero =>
      simp only [List.drop_zero, List.mem_cons, not_or] at hp
      obtain ⟨k, items, m, out, hm, e1, e2, hk, e3⟩ :=
        parse_replaced_head c t (Ne.symm hp.1) st hr
      have hd : ')' ∉ t.drop k := fun h => hp.2 (List.mem_of_mem_drop h)
      obtain ⟨m2, hm2, e4⟩ := ih k (st.extend items m) hm hd
      refine ⟨m2, hm2, ?_⟩
      rw [e1, e2, parseLoop_append_ok _ _ _ _ e3, e4, extend_extend]

theorem parseLoop_append_error (a b : List Char) (st : ParseState) (e : RegexpError)
    (h : regexp.parseLoop a st = Except.error e) :
    regexp.parseLoop (a ++ b) st = Except.error e := by
  rw [parseLoop_append, h]

/-- Reading a pattern that contains `)` either fails on an unexpected `)` or
closes at least one group more than it opens. -/
theorem parse_replaced_paren (p : List Char) : ∀ (k : Nat) (st : ParseState), st.mode.ready →
    ')' ∈ p.drop k →
      regexp.parseLoop (replacer.replaceFrom k p) st = Except.error RegexpError.unexpectedParen
      ∨ ∃ st2 : ParseState, regexp.parseLoop (replacer.replaceFrom k p) st = Except.ok st2
          ∧ st2.mode.ready ∧ st2.below.length < st.below.length := by
  induction p with
  | nil => intro k st _ hp; simp at hp
  | cons c t ih =>
    intro k st hr hp
    cases k with
    | succ k =>
      simp only [List.drop_succ_cons] at hp
      simpa [strings.Replacer.replaceFrom] using ih k st hr hp
    | zero =>
      simp only [List.drop_zero] at hp
      by_cases hc : c = ')'
      · subst hc
        have e1 : replacer.replaceFrom 0 (')' :: t) = [')'] ++ replacer.replaceFrom 0 t :=
          replaceFrom_plain ')' t (by decide) (by decide) (by decide)
            (fun h => absurd h (by decide))
        rw [e1]
        have e2 := parse_rightParen st hr
        cases hb : st.below with
        | nil =>
          left
          apply parseLoop_append_error
          rw [e2]
          simp [ParseState.rightParen, hb]
        | cons f fs =>
          obtain ⟨st1, e3, hm1, hb1⟩ : ∃ st1 : ParseState,
              regexp.parseLoop [')'] st = Except.ok st1 ∧ st1.mode.ready ∧ st1.below = fs :=
            ⟨{ top := { alts := f.alts, cur := f.cur ++ [Regexp.capture st.top.close] },
               below := fs, mode := ParseMode.token },
             by rw [e2]; simp only [ParseState.rightParen, hb], ready_token, rfl⟩
          rw [parseLoop_append_ok _ _ _ _ e3]
          by_cases ht : ')' ∈ t
          · rcases ih 0 st1 hm1 (by simpa using ht) with h | ⟨st2, h1, h2, h3⟩
            · exact Or.inl h
            · exact Or.inr ⟨st2, h1, h2, by
                rw [hb1] at h3
                simp only [List.length_cons]
                omega⟩
          · obtain ⟨m, hm, h1⟩ := parse_replaced t 0 st1 hm1 (by simpa using ht)
            exact Or.inr ⟨_, h1, hm, by simp [ParseState.extend, hb1]⟩
      · have ht : ')' ∈ t := by
          rcases List.mem_cons.mp hp with h | h
          · exact absurd h.symm hc
          · exact h
        obtain ⟨k, items, m, out, hm, e1, _, hk, e3⟩ := parse_replaced_head c t hc st hr
        have hd : ')' ∈ t.drop k := by
          rcases hk with rfl | ⟨rfl, t2, rfl⟩
          · simpa using ht
          · simpa using ht
        rw [e1, parseLoop_append_ok _ _ _ _ e3]
        rcases ih k (st.extend items m) hm hd with h | ⟨st2, h1, h2, h3⟩
        · exact Or.inl h
        · exact Or.inr ⟨st2, h1, h2, by simpa [ParseState.extend] using h3⟩

/-! ## Reading the expression of one pattern -/

theorem globExpr_eq (pattern : List Char) :
    globExpr pattern
      = (if globHasDirs pattern then "(.+/)?".toList else [])
        ++ replacer.replaceFrom 0 (globCore pattern)
        ++ (if globHasBelow pattern then "(/.+)?".toList else []) := by
  simp only [globExpr, globHasDirs, globHasBelow, globCore, globTail, strings.Replacer.Replace]
  split_ifs <;> simp_all

theorem mem_globTail (pattern : List Char) :
    ')' ∈ globTail pattern ↔ ')' ∈ pattern := by
  unfold globTail
  split_ifs with h
  · simp only [strings.HasPrefix, List.isPrefixOf_iff_prefix] at h
    obtain ⟨t, rfl⟩ := h
    simp
  · rfl

theorem mem_globCore (pattern : List Char) :
    ')' ∈ globCore pattern ↔ ')' ∈ pattern := by
  rw [← mem_globTail pattern]
  unfold globCore
  split_ifs with h1 h2
  · simp only [strings.HasSuffix, List.isSuffixOf_iff_suffix] at h1
    obtain ⟨t, ht⟩ := h1
    rw [← ht]
    simp
  · simp only [strings.HasSuffix, List.isSuffixOf_iff_suffix] at h2
    obtain ⟨t, ht⟩ := h2
    rw [← ht]
    simp
  · rfl

/-- The expression of a pattern without `)` is read as the items `globItems`. -/
theorem parse_globExpr (pattern : List Char) (hp : ')' ∉ pattern) (st : ParseState)
    (hr : st.mode.ready) :
    ∃ m : ParseMode, m.ready ∧
      regexp.parseLoop (globExpr pattern) st = Except.ok (st.extend (globItems pattern) m) := by
  have hc : ')' ∉ (globCore pattern).drop 0 := by
    simpa [mem_globCore] using hp
  rw [globExpr_eq, globItems]
  have key : ∀ (st1 : ParseState), st1.mode.ready → ∃ m : ParseMode, m.ready ∧
      regexp.parseLoop (replacer.replaceFrom 0 (globCore pattern)
        ++ (if globHasBelow pattern then "(/.+)?".toList else [])) st1
      = Except.ok (st1.extend (replacedItems 0 (globCore pattern)
        ++ (if globHasBelow pattern then [belowItem] else [])) m) := by
    intro st1 hr1
    obtain ⟨m, hm, e⟩ := parse_replaced (globCore pattern) 0 st1 hr1 hc
    rw [parseLoop_append_ok _ _ _ _ e]
    cases globHasBelow pattern with
    | false => exact ⟨m, hm, by simp [regexp.parseLoop]⟩
    | true =>
      refine ⟨ParseMode.repeated, ready_repeated, ?_⟩
      simp only [if_true]
      rw [parse_below _ hm, extend_extend]
  cases globHasDirs pattern with
  | false => simpa using key st hr
  | true =>
    simp only [if_true, List.append_assoc]
    rw [parseLoop_append_ok _ _ _ _ (parse_dirs st hr)]
    obtain ⟨m, hm, e⟩ := key (st.extend [dirsItem] ParseMode.repeated) ready_repeated
    exact ⟨m, hm, by rw [e, extend_extend]⟩

/-- Reading the expression of any pattern either fails on an unexpected `)` or
leaves no more groups open than before, and fewer when the pattern contains `)`. -/
theorem parse_globExpr_depth (pattern : List Char) (st : ParseState) (hr : st.mode.ready) :
    regexp.parseLoop (globExpr pattern) st = Except.error RegexpError.unexpectedParen
    ∨ ∃ st2 : ParseState, regexp.parseLoop (globExpr pattern) st = Except.ok st2
        ∧ st2.mode.ready ∧ st2.below.length ≤ st.below.length
        ∧ (')' ∈ pattern → st2.below.length < st.below.length) := by
  by_cases hp : ')' ∈ pattern
  · have hc : ')' ∈ (globCore pattern).drop 0 := by simpa [mem_globCore] using hp
    rw [globExpr_eq]
    have key : ∀ (st1 : ParseState), st1.mode.ready →
        regexp.parseLoop (replacer.replaceFrom 0 (globCore pattern)
          ++ (if globHasBelow pattern then "(/.+)?".toList else [])) st1
          = Except.error RegexpError.unexpectedParen
        ∨ ∃ st2 : ParseState, regexp.parseLoop (replacer.replaceFrom 0 (globCore pattern)
          ++ (if globHasBelow pattern then "(/.+)?".toList else [])) st1 = Except.ok st2
          ∧ st2.mode.ready ∧ st2.below.length < st1.below.length := by
      intro st1 hr1
      rcases parse_replaced_paren (globCore pattern) 0 st1 hr1 hc with h | ⟨st2, h1, h2, h3⟩
      · exact Or.inl (parseLoop_append_error _ _ _ _ h)
      · right
        rw [parseLoop_append_ok _ _ _ _ h1]
        cases globHasBelow pattern with
        | false => exact ⟨st2, by simp [regexp.parseLoop], h2, h3⟩
        | true =>
          exact ⟨_, by simp only [if_true]; exact parse_below st2 h2, ready_repeated,
            by simpa [ParseState.extend] using h3⟩
    cases globHasDirs pattern with
    | false =>
      rcases key st hr with h | ⟨st2, h1, h2, h3⟩
      · exact Or.inl (by simpa using h)
      · exact Or.inr ⟨st2, by simpa using h1, h2, le_of_lt h3, fun _ => h3⟩
    | true =>
      simp only [if_true, List.append_assoc]
      rw [parseLoop_append_ok _ _ _ _ (parse_dirs st hr)]
      rcases key (st.extend [dirsItem] ParseMode.repeated) ready_repeated
        with h | ⟨st2, h1, h2, h3⟩
      · exact Or.inl h
      · have h4 : st2.below.length < st.below.length := by
          simpa [ParseState.extend] using h3
        exact Or.inr ⟨st2, h1, h2, le_of_lt h4, fun _ => h4⟩
  · obtain ⟨m, hm, e⟩ := parse_globExpr pattern hp st hr
    exact Or.inr ⟨_, e, hm, by simp [ParseState.extend], fun h => absurd h hp⟩

/-! ## Reading the alternatives of a pattern list -/

theorem join_singleton (x sep : List Char) : strings.Join [x] sep = x := by
  simp [strings.Join, List.intercalate, List.intersperse]

theorem join_cons_cons (x y : List Char) (ys : List (List Char)) (sep : List Char) :
    strings.Join (x :: y :: ys) sep = x ++ (sep ++ strings.Join (y :: ys) sep) := by
  simp [strings.Join, List.intercalate, List.intersperse]

theorem parse_join (pats : List (List Char)) : ∀ (st : ParseState), st.mode.ready →
    pats ≠ [] → (∀ pat ∈ pats, ')' ∉ pat) → ∃ m : ParseMode, m.ready ∧
      regexp.parseLoop (strings.Join (pats.map globExpr) "|".toList) st
        = Except.ok { top := joinTop st.top pats, below := st.below, mode := m } := by
  induction pats with
  | nil => intro st _ h; exact absurd rfl h
  | cons p ps ih =>
    intro st hr _ hp
    obtain ⟨m, hm, e⟩ := parse_globExpr p (hp p (List.mem_cons_self _ _)) st hr
    cases ps with
    | nil =>
      refine ⟨m, hm, ?_⟩
      simp only [List.map_cons, List.map_nil, join_singleton, e, joinTop]
      rfl
    | cons q rest =>
      obtain ⟨m2, hm2, e2⟩ := ih (st.extend (globItems p) m).verticalBar ready_token
        (List.cons_ne_nil _ _) (fun pat h => hp pat (List.mem_cons_of_mem _ h))
      refine ⟨m2, hm2, ?_⟩
      have e3 : regexp.parseLoop "|".toList (st.extend (globItems p) m)
          = Except.ok (st.extend (globItems p) m).verticalBar := parse_verticalBar _ hm
      simp only [List.map_cons] at e2 ⊢
      rw [join_cons_cons, parseLoop_append_ok _ _ _ _ e, parseLoop_append_ok _ _ _ _ e3, e2]
      rfl

theorem parse_join_depth (pats : List (List Char)) : ∀ (st : ParseState), st.mode.ready →
    pats ≠ [] →
      regexp.parseLoop (strings.Join (pats.map globExpr) "|".toList) st
        = Except.error RegexpError.unexpectedParen
      ∨ ∃ st2 : ParseState,
          regexp.parseLoop (strings.Join (pats.map globExpr) "|".toList) st = Except.ok st2
          ∧ st2.mode.ready ∧ st2.below.length ≤ st.below.length
          ∧ ((∃ pat ∈ pats, ')' ∈ pat) → st2.below.length < st.below.length) := by
  induction pats with
  | nil => intro st _ h; exact absurd rfl h
  | cons p ps ih =>
    intro st hr _
    rcases parse_globExpr_depth p st hr with h | ⟨st1, e1, hm1, hle1, hlt1⟩
    · left
      cases ps with
      | nil => simpa only [List.map_cons, List.map_nil, join_singleton] using h
      | cons q rest =>
        simp only [List.map_cons] at h ⊢
        rw [join_cons_cons]
        exact parseLoop_append_error _ _ _ _ h
    · cases ps with
      | nil =>
        right
        refine ⟨st1, by simpa only [List.map_cons, List.map_nil, join_singleton] using e1,
          hm1, hle1, ?_⟩
        rintro ⟨pat, hmem, hpat⟩
        simp only [List.mem_singleton] at hmem
        exact hlt1 (hmem ▸ hpat)
      | cons q rest =>
        have e3 : regexp.parseLoop "|".toList st1 = Except.ok st1.verticalBar :=
          parse_verticalBar _ hm1
        simp only [List.map_cons] at ih ⊢
        rw [join_cons_cons, parseLoop_append_ok _ _ _ _ e1, parseLoop_append_ok _ _ _ _ e3]
        rcases ih st1.verticalBar ready_token (List.cons_ne_nil _ _)
          with h | ⟨st2, e2, hm2, hle2, hlt2⟩
        · exact Or.inl h
        · right
          have hvb : st1.verticalBar.below = st1.below := rfl
          rw [hvb] at hle2 hlt2
          refine ⟨st2, e2, hm2, le_trans hle2 hle1, ?_⟩
          rintro ⟨pat, hmem, hpat⟩
          rcases List.mem_cons.mp hmem with rfl | hmem
          · exact lt_of_le_of_lt hle2 (hlt1 hpat)
          · exact lt_of_lt_of_le (hlt2 ⟨pat, hmem, hpat⟩) hle1

/-! ## What `convertGlobs` returns -/

theorem parse_opening :
    regexp.parseLoop "\\A(".toList
        { top := { alts := [], cur := [] }, below := [], mode := ParseMode.token }
      = Except.ok { top := { alts := [], cur := [] },
                    below := [{ alts := [], cur := [Regexp.beginText] }],
                    mode := ParseMode.opened } := by
  simp [regexp.parseLoop, regexp.parseStep, ParseState.push, ParseState.leftParen]

theorem parse_closing (st : ParseState) (hr : st.mode.ready) :
    regexp.parseLoop ")\\z".toList st
      = (match st.below with
         | [] => Except.error RegexpError.unexpectedParen
         | f :: fs => Except.ok
            { top := { alts := f.alts,
                       cur := f.cur ++ [Regexp.capture st.top.close, Regexp.endText] },
              below := fs, mode := ParseMode.token }) := by
  obtain ⟨top, below, mode⟩ := st
  cases below <;> cases mode <;> simp [ParseMode.ready] at hr <;>
    simp [regexp.parseLoop, regexp.parseStep, ParseState.push, ParseState.rightParen]

theorem convertGlobs_nil : convertGlobs [] = Except.ok none := rfl

/-- Patterns without `)` compile, to the anchored alternation of their expressions. -/
theorem convertGlobs_ok (pats : List (List Char)) (hne : pats ≠ [])
    (hp : ∀ pat ∈ pats, ')' ∉ pat) :
    convertGlobs pats = Except.ok (some (anchored (globsBody pats))) := by
  have hlen : pats.length ≠ 0 := by simpa using hne
  obtain ⟨m, hm, e⟩ := parse_join pats _ (by simp [ParseMode.ready] :
    (ParseState.mk { alts := [], cur := [] } [{ alts := [], cur := [Regexp.beginText] }]
      ParseMode.opened).mode.ready) hne hp
  simp only [convertGlobs, hlen, if_false, regexp.Compile, List.append_assoc]
  rw [parseLoop_append_ok _ _ _ _ parse_opening, parseLoop_append_ok _ _ _ _ e,
    parse_closing _ hm]
  simp [anchored, globsBody, Frame.close, Regexp.concatOf, Regexp.alternateOf]

/-- A pattern with `)` makes the compilation fail: the replacer does not escape it. -/
theorem convertGlobs_error (pats : List (List Char)) (hp : ∃ pat ∈ pats, ')' ∈ pat) :
    convertGlobs pats = Except.error RegexpError.unexpectedParen := by
  have hne : pats ≠ [] := by
    rintro rfl
    simp at hp
  have hlen : pats.length ≠ 0 := by simpa using hne
  simp only [convertGlobs, hlen, if_false, regexp.Compile, List.append_assoc]
  rw [parseLoop_append_ok _ _ _ _ parse_opening]
  rcases parse_join_depth pats _ (by simp [ParseMode.ready] :
    (ParseState.mk { alts := [], cur := [] } [{ alts := [], cur := [Regexp.beginText] }]
      ParseMode.opened).mode.ready) hne with h | ⟨st2, e2, hm2, _, hlt⟩
  · rw [parseLoop_append_error _ _ _ _ h]
  · have hb : st2.below = [] := by
      have := hlt hp
      simp only [List.length_singleton, Nat.lt_one_iff] at this
      exact List.length_eq_zero.mp this
    rw [parseLoop_append_ok _ _ _ _ e2, parse_closing _ hm2, hb]

/-! ## What the compiled expression accepts -/

theorem positions_index (s : List Char) : ∀ (i : Nat) (p : Pos), p ∈ positions i s →
    i ≤ p.index := by
  induction s with
  | nil =>
    intro i p hp
    simp only [positions, List.mem_singleton] at hp
    simp [hp]
  | cons c cs ih =>
    intro i p hp
    simp only [positions, List.mem_cons] at hp
    rcases hp with rfl | hp
    · exact le_refl _
    · exact le_trans (Nat.le_succ i) (ih (i + 1) p hp)

theorem positions_head (s : List Char) (i : Nat) :
    ∃ tl, positions i s = { index := i, rest := s } :: tl
      ∧ ∀ p ∈ tl, i + 1 ≤ p.index := by
  cases s with
  | nil => exact ⟨[], rfl, by simp⟩
  | cons c cs => exact ⟨positions (i + 1) cs, rfl, fun p hp => positions_index cs (i + 1) p hp⟩

theorem ends_anchored (x : Regexp) (p : Pos) :
    (!((anchored x).ends p).isEmpty)
      = (decide (p.index = 0) && (x.ends p).any (fun q => q.rest.isEmpty)) := by
  by_cases h : p.index = 0
  · simp only [anchored, Regexp.ends, h, if_true, List.flatMap_singleton, decide_True,
      Bool.true_and, List.flatMap_cons, List.flatMap_nil, List.append_nil]
    induction x.ends p with
    | nil => rfl
    | cons q qs ih =>
      cases hq : q.rest with
      | nil => simp [List.flatMap_cons, hq]
      | cons c cs => simpa [List.flatMap_cons, hq] using ih
  · simp [anchored, Regexp.ends, h]

theorem matchString_anchored (x : Regexp) (s : List Char) :
    (anchored x).MatchString s = x.fullMatch s := by
  obtain ⟨tl, e, htl⟩ := positions_head s 0
  have hfalse : tl.any (fun p => !((anchored x).ends p).isEmpty) = false := by
    rw [List.any_eq_false]
    intro p hp
    have := htl p hp
    rw [ends_anchored]
    have hne : p.index ≠ 0 := by omega
    simp [hne]
  simp only [Regexp.MatchString, e, List.any_cons, hfalse, Bool.or_false]
  simp only [ends_anchored, Regexp.fullMatch, decide_True, Bool.true_and]

theorem ends_alternateOf (rs : List Regexp) : ∀ (r : Regexp) (p : Pos),
    (Regexp.alternateOf r rs).ends p = r.ends p ++ rs.flatMap (fun x => x.ends p) := by
  induction rs with
  | nil => intro r p; simp [Regexp.alternateOf]
  | cons r2 rs ih => intro r p; simp [Regexp.alternateOf, Regexp.ends, ih]

theorem ends_close (f : Frame) (p : Pos) :
    f.close.ends p = (f.alts ++ [Regexp.concatOf f.cur]).flatMap (fun x => x.ends p) := by
  unfold Frame.close
  cases h : f.alts ++ [Regexp.concatOf f.cur] with
  | nil => simp at h
  | cons r rs => simp [ends_alternateOf]

theorem ends_joinTop (ps : List (List Char)) : ∀ (f : Frame) (p : List Char) (pos : Pos),
    (joinTop f (p :: ps)).close.ends pos
      = (f.alts ++ [Regexp.concatOf (f.cur ++ globItems p)]
          ++ ps.map (fun q => Regexp.concatOf (globItems q))).flatMap (fun x => x.ends pos) := by
  induction ps with
  | nil => intro f p pos; simp [joinTop, ends_close]
  | cons q rest ih =>
    intro f p pos
    simp only [joinTop]
    rw [ih]
    simp

theorem fullMatch_globsBody (pats : List (List Char)) (hne : pats ≠ []) (s : List Char) :
    (globsBody pats).fullMatch s = pats.any (fun pat => globMatch pat s) := by
  cases pats with
  | nil => exact absurd rfl hne
  | cons p ps =>
    simp only [Regexp.fullMatch, globsBody, ends_joinTop, List.nil_append, List.singleton_append,
      globMatch]
    rw [← List.map_cons (fun q => Regexp.concatOf (globItems q)) p ps]
    generalize p :: ps = l
    induction l with
    | nil => rfl
    | cons a l ih => simp [List.flatMap_cons, List.any_append, ih]

/-- What a successfully compiled pattern list accepts. -/
theorem convertGlobs_spec (pats : List (List Char)) (re : Option Regexp)
    (h : convertGlobs pats = Except.ok re) :
    (∀ pat ∈ pats, ')' ∉ pat) ∧
      (pats = [] → re = none) ∧
      (pats ≠ [] → ∃ r, re = some r ∧
        ∀ s, r.MatchString s = pats.any (fun pat => globMatch pat s)) := by
  have hp : ∀ pat ∈ pats, ')' ∉ pat := by
    intro pat hmem hpat
    rw [convertGlobs_error pats ⟨pat, hmem, hpat⟩] at h
    cases h
  refine ⟨hp, ?_, ?_⟩
  · rintro rfl
    rw [convertGlobs_nil] at h
    cases h
    rfl
  · intro hne
    rw [convertGlobs_ok pats hne hp] at h
    cases h
    exact ⟨_, rfl, fun s => by rw [matchString_anchored, fullMatch_globsBody pats hne]⟩

end Paths

namespace Paths

/-! ## Claims about the matcher -/

theorem matchesPattern_iff (pattern path : List Char) :
    MatchesPattern pattern path ↔ ')' ∉ pattern ∧ globMatch pattern path = true := by
  unfold MatchesPattern
  by_cases hp : ')' ∈ pattern
  · have e : convertGlobs [pattern] = Except.error RegexpError.unexpectedParen :=
      convertGlobs_error [pattern] ⟨pattern, List.mem_singleton_self _, hp⟩
    simp [NewMatcher, e, hp]
  · have e : convertGlobs [pattern] = Except.ok (some (anchored (globsBody [pattern]))) :=
      convertGlobs_ok [pattern] (List.cons_ne_nil _ _) (by simpa using hp)
    simp [NewMatcher, e, convertGlobs_nil, hp, matcherRegexp.Match, matchString_anchored,
      fullMatch_globsBody]

/-- C1: when `NewMatcher` succeeds, `Match` accepts a path exactly when the include
list is empty or some include pattern's single-pattern matcher accepts it, and no
exclude pattern's single-pattern matcher accepts it; with both lists empty every
path is accepted. -/
theorem NewMatcher_match_iff (includes excludes : List (List Char)) (m : matcherRegexp)
    (h : NewMatcher includes excludes = Except.ok m) (path : List Char) :
    (m.Match path = true ↔
      (includes = [] ∨ ∃ pat ∈ includes, MatchesPattern pat path)
        ∧ ∀ pat ∈ excludes, ¬ MatchesPattern pat path)
    ∧ (includes = [] → excludes = [] → m.Match path = true) := by
  unfold NewMatcher at h
  cases hi : convertGlobs includes with
  | error e => simp [hi] at h
  | ok inc =>
    cases he : convertGlobs excludes with
    | error e => simp [hi, he] at h
    | ok exc =>
      simp only [hi, he, Except.ok.injEq] at h
      subst h
      obtain ⟨hpi, hni, hsi⟩ := convertGlobs_spec includes inc hi
      obtain ⟨hpe, hne, hse⟩ := convertGlobs_spec excludes exc he
      refine ⟨?_, ?_⟩
      · simp only [matcherRegexp.Match, Bool.and_eq_true]
        apply and_congr
        · by_cases h0 : includes = []
          · simp [hni h0, h0]
          · obtain ⟨r, rfl, hr⟩ := hsi h0
            simp only [hr, h0, false_or, List.any_eq_true, matchesPattern_iff]
            constructor
            · rintro ⟨pat, hm, hg⟩
              exact ⟨pat, hm, hpi pat hm, hg⟩
            · rintro ⟨pat, hm, _, hg⟩
              exact ⟨pat, hm, hg⟩
        · by_cases h0 : excludes = []
          · simp [hne h0, h0]
          · obtain ⟨r, rfl, hr⟩ := hse h0
            simp only [hr, Bool.not_eq_true', List.any_eq_false, matchesPattern_iff, not_and]
            constructor
            · intro hall pat hm _
              exact hall pat hm
            · intro hall pat hm
              exact hall pat hm (hpe pat hm)
      · intro h1 h2
        simp [matcherRegexp.Match, hni h1, hne h2]

/-- A use of `NewMatcher_match_iff` on the patterns `*.md`, `src/` and `**/*.o`. -/
theorem NewMatcher_match_iff_witness :
    NewMatcher ["*.md".toList, "src/".toList] ["**/*.o".toList] = Except.ok exampleMatcher
    ∧ (exampleMatcher.Match "src/foo.c".toList = true ↔
        (["*.md".toList, "src/".toList] = []
            ∨ ∃ pat ∈ ["*.md".toList, "src/".toList], MatchesPattern pat "src/foo.c".toList)
          ∧ ∀ pat ∈ ["**/*.o".toList], ¬ MatchesPattern pat "src/foo.c".toList) :=
  ⟨by decide,
   (NewMatcher_match_iff ["*.md".toList, "src/".toList] ["**/*.o".toList] exampleMatcher
      (by decide) "src/foo.c".toList).1⟩

/-! ## Patterns without glob syntax -/

theorem replacedItems_literal (p : List Char) (h1 : '*' ∉ p) (h2 : '?' ∉ p) :
    replacedItems 0 p = p.map Regexp.literal := by
  induction p with
  | nil => rfl
  | cons c t ih =>
    simp only [List.mem_cons, not_or] at h1 h2
    have hpre : ¬ (c = '/' ∧ ("**/".toList).isPrefixOf t = true) := by
      rintro ⟨_, h⟩
      obtain ⟨t2, rfl⟩ := isPrefixOf_stars t h
      exact h1.2 (List.mem_cons_self _ _)
    rw [replacedItems, if_neg hpre, if_neg (fun h => h1.1 h.symm), if_neg (fun h => h2.1 h.symm),
      ih h1.2 h2.2]
    rfl

theorem ends_literals (p : List Char) : ∀ (pos : Pos),
    (Regexp.concatOf (p.map Regexp.literal)).ends pos
      = if p.isPrefixOf pos.rest then
          [{ index := pos.index + p.length, rest := pos.rest.drop p.length }]
        else [] := by
  induction p with
  | nil => intro pos; simp [Regexp.concatOf, Regexp.ends]
  | cons c t ih =>
    intro pos
    cases t with
    | nil =>
      obtain ⟨i, rest⟩ := pos
      cases rest with
      | nil => simp [Regexp.concatOf, Regexp.ends]
      | cons x xs =>
        by_cases hx : x = c
        · simp [Regexp.concatOf, Regexp.ends, hx]
        · have hx2 : ¬ c = x := fun h => hx h.symm
          simp [Regexp.concatOf, Regexp.ends, hx, hx2]
    | cons c2 t2 =>
      obtain ⟨i, rest⟩ := pos
      simp only [List.map_cons, Regexp.concatOf, Regexp.ends]
      simp only [List.map_cons] at ih
      cases rest with
      | nil => simp
      | cons x xs =>
        by_cases hx : x = c
        · simp only [hx, if_true, List.flatMap_cons, List.flatMap_nil, List.append_nil, ih]
          simp only [List.isPrefixOf, beq_self_eq_true, Bool.true_and, List.length_cons,
            List.drop_succ_cons]
          split_ifs <;> simp
          omega
        · have hx2 : ¬ c = x := fun h => hx h.symm
          simp [hx, hx2, List.isPrefixOf]

theorem fullMatch_literals (p s : List Char) :
    (Regexp.concatOf (p.map Regexp.literal)).fullMatch s = true ↔ s = p := by
  simp only [Regexp.fullMatch, ends_literals]
  by_cases h : p.isPrefixOf s = true
  · simp only [h, if_true, List.any_cons, List.any_nil, Bool.or_false, List.isEmpty_eq_true,
      List.drop_eq_nil_iff]
    rw [List.isPrefixOf_iff_prefix] at h
    obtain ⟨t, rfl⟩ := h
    constructor
    · intro hl
      simp only [List.length_append] at hl
      have : t = [] := List.length_eq_zero.mp (by omega)
      simp [this]
    · intro he
      have : t = [] := by simpa using he
      simp [this]
  · simp only [h, Bool.false_eq_true, if_false, List.any_nil, false_iff]
    rintro rfl
    exact h (by simp)

/-- A pattern without glob syntax and without `)` is compiled, and its matcher
accepts exactly the path equal to the pattern. -/
theorem literal_pattern_matches (p : List Char) (h1 : '*' ∉ p) (h2 : '?' ∉ p) (h3 : ')' ∉ p)
    (h4 : strings.HasSuffix p "/".toList = false) :
    ∃ m : matcherRegexp, NewMatcher [p] [] = Except.ok m
      ∧ ∀ path : List Char, m.Match path = true ↔ path = p := by
  have hd : strings.HasPrefix p "**/".toList = false := by
    cases h : strings.HasPrefix p "**/".toList with
    | false => rfl
    | true =>
      simp only [strings.HasPrefix, List.isPrefixOf_iff_prefix] at h
      obtain ⟨t, rfl⟩ := h
      exact absurd (by simp) h1
  have hb : strings.HasSuffix p "/**".toList = false := by
    cases h : strings.HasSuffix p "/**".toList with
    | false => rfl
    | true =>
      simp only [strings.HasSuffix, List.isSuffixOf_iff_suffix] at h
      obtain ⟨t, rfl⟩ := h
      exact absurd (by simp) h1
  have hd2 : strings.HasPrefix p ['*', '*', '/'] = false := hd
  have hb2 : strings.HasSuffix p ['/', '*', '*'] = false := hb
  have h42 : strings.HasSuffix p ['/'] = false := h4
  have hitems : globItems p = p.map Regexp.literal := by
    simp [globItems, globHasDirs, globHasBelow, globCore, globTail, hd2, h42, hb2,
      replacedItems_literal p h1 h2]
  have e : convertGlobs [p] = Except.ok (some (anchored (globsBody [p]))) :=
    convertGlobs_ok [p] (List.cons_ne_nil _ _) (by simpa using h3)
  refine ⟨{ includeRe := some (anchored (globsBody [p])), excludeRe := none },
    by simp [NewMatcher, e, convertGlobs_nil], ?_⟩
  intro path
  simp only [matcherRegexp.Match, Bool.and_true, matchString_anchored,
    fullMatch_globsBody [p] (List.cons_ne_nil _ _), List.any_cons, List.any_nil, Bool.or_false,
    globMatch, hitems]
  exact fullMatch_literals p path

end Paths

namespace Paths

/-! ## The walk with a matcher and a limit, from the walk without them -/

theorem base_hasReachedLimit (r : recurDirReader) (es : List dirEntry) :
    r.base.hasReachedLimit es = false := by
  simp [recurDirReader.hasReachedLimit, recurDirReader.base]

theorem hasReachedLimit_iff (r : recurDirReader) (es : List dirEntry) :
    r.hasReachedLimit es = true ↔ 0 < r.maxEntries ∧ r.maxEntries ≤ (es.length : Int) := by
  simp [recurDirReader.hasReachedLimit]

theorem hasReachedLimit_false_iff (r : recurDirReader) (es : List dirEntry) :
    r.hasReachedLimit es = false ↔ (0 < r.maxEntries → (es.length : Int) < r.maxEntries) := by
  rw [← Bool.not_eq_true, hasReachedLimit_iff]
  constructor
  · intro h h0
    by_contra hc
    exact h ⟨h0, not_lt.mp hc⟩
  · rintro h ⟨h0, h1⟩
    exact absurd (h h0) (not_lt.mpr h1)

theorem hasReachedLimit_append (r : recurDirReader) (es xs : List dirEntry)
    (h : r.hasReachedLimit es = true) : r.hasReachedLimit (es ++ xs) = true := by
  rw [hasReachedLimit_iff] at h ⊢
  refine ⟨h.1, ?_⟩
  simp only [List.length_append, Nat.cast_add]
  omega

theorem limited_of_not_reached (r : recurDirReader) (es : List dirEntry) (err : Option OSError)
    (h : r.hasReachedLimit es = false) : r.limited es err = WalkResult.returned es err := by
  simp [recurDirReader.limited, h]

theorem take_limit_append (r : recurDirReader) (es xs : List dirEntry)
    (h : r.hasReachedLimit es = true) :
    (es ++ xs).take r.maxEntries.toNat = es.take r.maxEntries.toNat := by
  rw [hasReachedLimit_iff] at h
  apply List.take_append_of_le_length
  omega

/-- Once the limit is reached, what would follow does not matter. -/
theorem limited_append (r : recurDirReader) (es xs : List dirEntry) (e1 e2 : Option OSError)
    (h : r.hasReachedLimit es = true) : r.limited (es ++ xs) e1 = r.limited es e2 := by
  simp [recurDirReader.limited, h, hasReachedLimit_append r es xs h, take_limit_append r es xs h]

theorem reached_take (r : recurDirReader) (es : List dirEntry)
    (h : r.hasReachedLimit es = true) :
    r.hasReachedLimit (es.take r.maxEntries.toNat) = true := by
  rw [hasReachedLimit_iff] at h ⊢
  refine ⟨h.1, ?_⟩
  simp only [List.length_take]
  omega

theorem refines_return (r : recurDirReader) (e : Option OSError) :
    Refines r (fun es => WalkResult.returned es e) (fun es => WalkResult.returned es e) := by
  intro es0 es1 err h
  simp only [WalkResult.returned.injEq] at h
  refine ⟨[], by simp [h.1], ?_⟩
  intro es hes
  simp [limited_of_not_reached r es err hes, h.2]

theorem refines_panic (r : recurDirReader) (fr : List dirEntry → WalkResult) :
    Refines r (fun _ => WalkResult.panic) fr := by
  intro es0 es1 err h
  cases h

theorem refines_outOfFuel (r : recurDirReader) (fr : List dirEntry → WalkResult) :
    Refines r (fun _ => WalkResult.outOfFuel) fr := by
  intro es0 es1 err h
  cases h

/-- The idiom `entries, err = f(...); if err != nil || limit { return }; rest`. -/
theorem refines_andThen (r : recurDirReader) (x0 xr k0 kr : List dirEntry → WalkResult)
    (hx : Refines r x0 xr) (hk : Refines r k0 kr) :
    Refines r (fun es => (x0 es).andThen r.base k0) (fun es => (xr es).andThen r kr) := by
  intro es0 es1 err h
  simp only at h
  cases hx0 : x0 es0 with
  | panic => simp [hx0, WalkResult.andThen] at h
  | outOfFuel => simp [hx0, WalkResult.andThen] at h
  | returned e1 err1 =>
    obtain ⟨d1, rfl, hxr⟩ := hx es0 e1 err1 hx0
    simp only [hx0, WalkResult.andThen, base_hasReachedLimit, Bool.or_false] at h
    cases err1 with
    | some e =>
      simp only [Option.isSome_some, if_true, WalkResult.returned.injEq] at h
      obtain ⟨rfl, rfl⟩ := h
      refine ⟨d1, rfl, ?_⟩
      intro es hes
      simp only [hxr es hes]
      by_cases hr : r.hasReachedLimit (es ++ d1.filter (keptBy r.matcher)) = true
      · simp [recurDirReader.limited, hr, WalkResult.andThen, reached_take r _ hr]
      · simp [recurDirReader.limited, hr, WalkResult.andThen]
    | none =>
      simp only [Option.isSome_none, Bool.false_eq_true, if_false] at h
      obtain ⟨d2, rfl, hkr⟩ := hk (es0 ++ d1) es1 err h
      refine ⟨d1 ++ d2, by simp, ?_⟩
      intro es hes
      simp only [hxr es hes, List.filter_append]
      by_cases hr : r.hasReachedLimit (es ++ d1.filter (keptBy r.matcher)) = true
      · rw [← List.append_assoc, limited_append r _ _ err none hr]
        simp [recurDirReader.limited, hr, WalkResult.andThen, reached_take r _ hr]
      · simp only [Bool.not_eq_true] at hr
        rw [limited_of_not_reached r _ _ hr]
        simp only [WalkResult.andThen, Option.isSome_none, hr, Bool.or_false,
          Bool.false_eq_true, if_false]
        rw [hkr _ hr, List.append_assoc]

/-- The step of `processFileInfos` that appends the entry when the matcher keeps it. -/
theorem refines_append (r : recurDirReader) (entry : dirEntry)
    (g0 gr : List dirEntry → WalkResult) (hg : Refines r g0 gr) :
    Refines r (fun es => g0 (es ++ [entry]))
      (fun es =>
        if keptBy r.matcher entry then
          (if r.hasReachedLimit (es ++ [entry]) then WalkResult.returned (es ++ [entry]) none
           else gr (es ++ [entry]))
        else gr es) := by
  intro es0 es1 err h
  obtain ⟨d, rfl, hgr⟩ := hg (es0 ++ [entry]) es1 err h
  refine ⟨entry :: d, by simp, ?_⟩
  intro es hes
  by_cases hk : keptBy r.matcher entry = true
  · simp only [hk, if_true, List.filter_cons_of_pos]
    by_cases hr : r.hasReachedLimit (es ++ [entry]) = true
    · have hlen : (es ++ [entry]).take r.maxEntries.toNat = es ++ [entry] := by
        apply List.take_of_length_le
        have h1 := (hasReachedLimit_false_iff r es).mp hes
        have h2 := (hasReachedLimit_iff r _).mp hr
        have h3 := h1 h2.1
        simp only [List.length_append, List.length_singleton]
        omega
      have e : es ++ entry :: d.filter (keptBy r.matcher)
          = (es ++ [entry]) ++ d.filter (keptBy r.matcher) := by simp
      rw [e, limited_append r _ _ err none hr]
      simp [recurDirReader.limited, hr, hlen]
    · simp only [hr, if_false]
      simp only [Bool.not_eq_true] at hr
      rw [hgr _ hr]
      simp
  · simp only [hk, if_false, Bool.false_eq_true]
    rw [List.filter_cons_of_neg (by simpa using hk)]
    exact hgr es hes

theorem processFileInfosWith_cons (r : recurDirReader)
    (sub : List Char → List dirEntry → WalkResult) (dirname : List Char) (info : FileInfo)
    (infos : List FileInfo) (es : List dirEntry) :
    r.processFileInfosWith sub dirname (info :: infos) es
      = if keptBy r.matcher (entryFor dirname info) then
          (if r.hasReachedLimit (es ++ [entryFor dirname info]) then
             WalkResult.returned (es ++ [entryFor dirname info]) none
           else (if info.isDir then
              (fun es2 => (sub (path.Join [dirname, info.name]) es2).andThen r
                (r.processFileInfosWith sub dirname infos))
              else r.processFileInfosWith sub dirname infos) (es ++ [entryFor dirname info]))
        else (if info.isDir then
              (fun es2 => (sub (path.Join [dirname, info.name]) es2).andThen r
                (r.processFileInfosWith sub dirname infos))
              else r.processFileInfosWith sub dirname infos) es := by
  simp only [recurDirReader.processFileInfosWith, keptBy, entryFor]
  cases r.matcher with
  | none =>
    simp only [Bool.true_and, if_true]
    split_ifs <;> simp_all
  | some m =>
    simp only
    by_cases hm : m (path.Join [dirname, info.name]) = true
    · simp only [hm, Bool.true_and, if_true]
      split_ifs <;> simp_all
    · simp only [hm, Bool.false_and, Bool.false_eq_true, if_false]
      cases info.isDir <;> simp

theorem processFileInfosWith_cons_base (r : recurDirReader)
    (sub : List Char → List dirEntry → WalkResult) (dirname : List Char) (info : FileInfo)
    (infos : List FileInfo) (es : List dirEntry) :
    r.base.processFileInfosWith sub dirname (info :: infos) es
      = (if info.isDir then
            (fun es2 => (sub (path.Join [dirname, info.name]) es2).andThen r.base
              (r.base.processFileInfosWith sub dirname infos))
         else r.base.processFileInfosWith sub dirname infos) (es ++ [entryFor dirname info]) := by
  rw [processFileInfosWith_cons, base_hasReachedLimit]
  simp [keptBy, recurDirReader.base]

theorem refines_processFileInfosWith (r : recurDirReader)
    (sub0 subr : List Char → List dirEntry → WalkResult)
    (hsub : ∀ d, Refines r (sub0 d) (subr d)) (dirname : List Char) (infos : List FileInfo) :
    Refines r (r.base.processFileInfosWith sub0 dirname infos)
      (r.processFileInfosWith subr dirname infos) := by
  induction infos with
  | nil =>
    have h := refines_return r none
    exact h
  | cons info infos ih =>
    have hloop := refines_append r (entryFor dirname info)
      (if info.isDir then
         (fun es => (sub0 (path.Join [dirname, info.name]) es).andThen r.base
           (r.base.processFileInfosWith sub0 dirname infos))
       else r.base.processFileInfosWith sub0 dirname infos)
      (if info.isDir then
         (fun es => (subr (path.Join [dirname, info.name]) es).andThen r
           (r.processFileInfosWith subr dirname infos))
       else r.processFileInfosWith subr dirname infos)
      (by
        cases info.isDir with
        | false => simpa using ih
        | true => simpa using refines_andThen r _ _ _ _ (hsub _) ih)
    intro es0 es1 err h
    rw [processFileInfosWith_cons_base] at h
    obtain ⟨delta, hd, hr⟩ := hloop es0 es1 err h
    refine ⟨delta, hd, ?_⟩
    intro es hes
    rw [← hr es hes, processFileInfosWith_cons]

theorem refines_appendReadDir (r : recurDirReader) (fuel : Nat) : ∀ (dirname : List Char),
    Refines r (r.base.appendReadDir fuel dirname) (r.appendReadDir fuel dirname) := by
  induction fuel with
  | zero =>
    intro dirname
    exact refines_outOfFuel r _
  | succ fuel ih =>
    intro dirname
    have e0 : r.base.appendReadDir (fuel + 1) dirname = fun entries =>
        match r.readDirFunc dirname with
        | Except.error e => WalkResult.returned entries (some e)
        | Except.ok infos =>
          r.base.processFileInfosWith (r.base.appendReadDir fuel) dirname infos entries := rfl
    have er : r.appendReadDir (fuel + 1) dirname = fun entries =>
        match r.readDirFunc dirname with
        | Except.error e => WalkResult.returned entries (some e)
        | Except.ok infos =>
          r.processFileInfosWith (r.appendReadDir fuel) dirname infos entries := rfl
    rw [e0, er]
    cases r.readDirFunc dirname with
    | error e => exact refines_return r (some e)
    | ok infos => exact refines_processFileInfosWith r _ _ ih dirname infos

theorem refines_processFileInfos (r : recurDirReader) (fuel : Nat) (dirname : List Char)
    (infos : List FileInfo) :
    Refines r (r.base.processFileInfos fuel dirname infos)
      (r.processFileInfos fuel dirname infos) :=
  refines_processFileInfosWith r _ _ (refines_appendReadDir r fuel) dirname infos

theorem refines_climbWith (r : recurDirReader)
    (sub0 subr : List Char → List dirEntry → WalkResult)
    (hsub : ∀ m, Refines r (sub0 m) (subr m)) (n : Nat) : ∀ (markerDir : List Char),
    Refines r (r.base.climbWith sub0 n markerDir) (r.climbWith subr n markerDir) := by
  induction n with
  | zero =>
    intro markerDir
    have e0 : r.base.climbWith sub0 0 markerDir = fun entries =>
        if markerDir = r.dir then WalkResult.returned entries none
        else WalkResult.outOfFuel := rfl
    have er : r.climbWith subr 0 markerDir = fun entries =>
        if markerDir = r.dir then WalkResult.returned entries none
        else WalkResult.outOfFuel := rfl
    rw [e0, er]
    by_cases h : markerDir = r.dir
    · simpa [h] using refines_return r none
    · simpa [h] using refines_outOfFuel r _
  | succ n ih =>
    intro markerDir
    have e0 : r.base.climbWith sub0 (n + 1) markerDir = fun entries =>
        if markerDir = r.dir then WalkResult.returned entries none
        else (sub0 markerDir entries).andThen r.base
          (r.base.climbWith sub0 n (path.Dir markerDir)) := rfl
    have er : r.climbWith subr (n + 1) markerDir = fun entries =>
        if markerDir = r.dir then WalkResult.returned entries none
        else (subr markerDir entries).andThen r
          (r.climbWith subr n (path.Dir markerDir)) := rfl
    rw [e0, er]
    by_cases h : markerDir = r.dir
    · simpa [h] using refines_return r none
    · simpa [h] using refines_andThen r _ _ _ _ (hsub markerDir) (ih (path.Dir markerDir))

theorem appendReadDirAfterMarker_succ (r : recurDirReader) (fuel : Nat) (marker : List Char) :
    r.appendReadDirAfterMarker (fuel + 1) marker = fun entries =>
      match r.readDirFunc (path.Dir marker) with
      | Except.error e => WalkResult.returned entries (some e)
      | Except.ok infos =>
        if marker = r.marker then
          match infos.get? (indexOfName infos (path.Base marker)) with
          | none => WalkResult.panic
          | some info =>
            if info.isDir then
              match r.readDirFunc marker with
              | Except.error e => WalkResult.returned entries (some e)
              | Except.ok subinfos =>
                (r.processFileInfos fuel marker subinfos entries).andThen r
                  (fun entries1 =>
                    if indexOfName infos (path.Base marker) + 1 > infos.length then
                      WalkResult.panic
                    else (r.processFileInfos fuel (path.Dir marker)
                        (infos.drop (indexOfName infos (path.Base marker) + 1)) entries1).andThen r
                      (r.climbWith (r.appendReadDirAfterMarker fuel) fuel (path.Dir marker)))
            else
              if indexOfName infos (path.Base marker) + 1 > infos.length then WalkResult.panic
              else (r.processFileInfos fuel (path.Dir marker)
                  (infos.drop (indexOfName infos (path.Base marker) + 1)) entries).andThen r
                (r.climbWith (r.appendReadDirAfterMarker fuel) fuel (path.Dir marker))
        else
          if indexOfName infos (path.Base marker) + 1 > infos.length then WalkResult.panic
          else (r.processFileInfos fuel (path.Dir marker)
              (infos.drop (indexOfName infos (path.Base marker) + 1)) entries).andThen r
            (r.climbWith (r.appendReadDirAfterMarker fuel) fuel (path.Dir marker)) := by
  funext entries
  rfl

theorem refines_appendReadDirAfterMarker (r : recurDirReader) (fuel : Nat) :
    ∀ (marker : List Char),
      Refines r (r.base.appendReadDirAfterMarker fuel marker)
        (r.appendReadDirAfterMarker fuel marker) := by
  induction fuel with
  | zero =>
    intro marker
    exact refines_outOfFuel r _
  | succ fuel ih =>
    intro marker
    rw [appendReadDirAfterMarker_succ, appendReadDirAfterMarker_succ]
    have hb1 : r.base.readDirFunc = r.readDirFunc := rfl
    have hb2 : r.base.marker = r.marker := rfl
    rw [hb1, hb2]
    cases r.readDirFunc (path.Dir marker) with
    | error e => exact refines_return r (some e)
    | ok infos =>
      have hsib : Refines r
          (fun entries1 =>
            if indexOfName infos (path.Base marker) + 1 > infos.length then WalkResult.panic
            else (r.base.processFileInfos fuel (path.Dir marker)
                (infos.drop (indexOfName infos (path.Base marker) + 1)) entries1).andThen r.base
              (r.base.climbWith (r.base.appendReadDirAfterMarker fuel) fuel (path.Dir marker)))
          (fun entries1 =>
            if indexOfName infos (path.Base marker) + 1 > infos.length then WalkResult.panic
            else (r.processFileInfos fuel (path.Dir marker)
                (infos.drop (indexOfName infos (path.Base marker) + 1)) entries1).andThen r
              (r.climbWith (r.appendReadDirAfterMarker fuel) fuel (path.Dir marker))) := by
        by_cases hi : indexOfName infos (path.Base marker) + 1 > infos.length
        · simpa [hi] using refines_panic r _
        · simpa [hi] using refines_andThen r _ _ _ _
            (refines_processFileInfos r fuel (path.Dir marker)
              (infos.drop (indexOfName infos (path.Base marker) + 1)))
            (refines_climbWith r _ _ ih fuel (path.Dir marker))
      by_cases hm : marker = r.marker
      · simp only [hm, if_true]
        rw [hm] at hsib
        cases infos.get? (indexOfName infos (path.Base r.marker)) with
        | none => exact refines_panic r _
        | some info =>
          by_cases hd : info.isDir = true
          · simp only [hd, if_true]
            cases r.readDirFunc r.marker with
            | error e => exact refines_return r (some e)
            | ok subinfos =>
              exact refines_andThen r _ _ _ _
                (refines_processFileInfos r fuel r.marker subinfos) hsib
          · simp only [hd, if_false]
            exact hsib
      · simpa [hm] using hsib

/-- The walk of a reader, from the walk of the same reader without matcher and
without limit: the entries the matcher keeps, cut at the limit; an error that
would come after the limit is reached is not seen. -/
theorem recurReadDir_of_base (r : recurDirReader) (fuel : Nat) (es : List dirEntry)
    (err : Option OSError) (h : r.base.recurReadDir fuel = WalkResult.returned es err) :
    r.recurReadDir fuel = r.limited (es.filter (keptBy r.matcher)) err := by
  have hnil : r.hasReachedLimit [] = false := by
    rw [hasReachedLimit_false_iff]
    intro h0
    simpa using h0
  unfold recurDirReader.recurReadDir at h ⊢
  have hb1 : r.base.marker = r.marker := rfl
  have hb2 : r.base.dir = r.dir := rfl
  rw [hb1, hb2] at h
  by_cases hm : r.marker ≠ []
  · rw [if_pos hm] at h ⊢
    obtain ⟨delta, hd, hr⟩ := refines_appendReadDirAfterMarker r fuel r.marker [] es err h
    simp only [List.nil_append] at hd
    subst hd
    simpa using hr [] hnil
  · rw [if_neg hm] at h ⊢
    obtain ⟨delta, hd, hr⟩ := refines_appendReadDir r fuel r.dir [] es err h
    simp only [List.nil_append] at hd
    subst hd
    simpa using hr [] hnil

end Paths

namespace Paths

/-! ## The walk without matcher and limit, on a finite tree -/

theorem upToFailure_append (a b : List Visit) :
    upToFailure (a ++ b)
      = if (firstFailure a).isSome then upToFailure a else a ++ upToFailure b := by
  induction a with
  | nil => simp [upToFailure, firstFailure]
  | cons v vs ih =>
    cases hv : v.failure with
    | some e => simp [upToFailure, firstFailure, hv]
    | none =>
      rw [List.cons_append]
      simp only [upToFailure, firstFailure, hv, Option.isSome_none,
        Bool.false_eq_true, if_false, ih]
      split_ifs <;> rfl

theorem firstFailure_append (a b : List Visit) :
    firstFailure (a ++ b)
      = if (firstFailure a).isSome then firstFailure a else firstFailure b := by
  induction a with
  | nil => simp [firstFailure]
  | cons v vs ih =>
    cases hv : v.failure with
    | some e => simp [firstFailure, hv]
    | none => simp [firstFailure, hv, ih]

theorem upToFailure_of_none (a : List Visit) (h : firstFailure a = none) :
    upToFailure a = a := by
  induction a with
  | nil => rfl
  | cons v vs ih =>
    cases hv : v.failure with
    | some e => simp [firstFailure, hv] at h
    | none =>
      simp only [firstFailure, hv] at h
      simp [upToFailure, hv, ih h]

theorem andThen_returned_none (r : recurDirReader) (es : List dirEntry)
    (k : List dirEntry → WalkResult) :
    (WalkResult.returned es none).andThen r.base k = k es := by
  simp [WalkResult.andThen, base_hasReachedLimit]

theorem andThen_returned_some (r : recurDirReader) (es : List dirEntry) (e : OSError)
    (k : List dirEntry → WalkResult) :
    (WalkResult.returned es (some e)).andThen r k = WalkResult.returned es (some e) := by
  simp [WalkResult.andThen]

/-- The loop of `processFileInfos` over the listing of a forest: the entries of
the pre-order traversal up to the first directory that cannot be listed, and the
error of that directory. -/
theorem base_processFileInfos_forest (r : recurDirReader) (f : Forest) :
    ∀ (fuel : Nat) (d : List Char) (es : List dirEntry),
      f.listedBelow r.readDirFunc d = true → f.height ≤ fuel →
      r.base.processFileInfosWith (r.base.appendReadDir fuel) d f.infos es
        = WalkResult.returned (es ++ (upToFailure (f.preorder d)).map Visit.entry)
            (firstFailure (f.preorder d)) := by
  induction f with
  | nil =>
    intro fuel d es _ _
    simp [Forest.infos, Forest.preorder, upToFailure, firstFailure,
      recurDirReader.processFileInfosWith]
  | node info sub rest ihs ihr =>
    intro fuel d es hl hh
    simp only [Forest.listedBelow, Bool.and_eq_true, Bool.or_eq_true, Bool.not_eq_true',
      decide_eq_true_eq] at hl
    simp only [Forest.height] at hh
    have hrest := ihr fuel d (es ++ [entryFor d info]) hl.2 (le_trans (le_max_right _ _) hh)
    simp only [Forest.infos, processFileInfosWith_cons_base]
    cases hd : info.isDir with
    | false =>
      simp only [Bool.false_eq_true, if_false, hrest, Forest.preorder, hd, List.nil_append,
        upToFailure, Option.isSome_none, firstFailure, List.map_cons, List.append_assoc,
        List.singleton_append]
      rfl
    | true =>
      simp only [hd, if_true] at hh ⊢
      have hfuel : sub.height + 1 ≤ fuel := le_trans (le_max_left _ _) hh
      obtain ⟨fuel2, rfl⟩ : ∃ k, fuel = k + 1 := ⟨fuel - 1, by omega⟩
      rcases hl.1 with h | h
      · rw [hd] at h
        cases h
      obtain ⟨hrd, hsubl⟩ := h
      have hb : r.base.readDirFunc = r.readDirFunc := rfl
      have hsub := ihs fuel2 (path.Join [d, info.name]) (es ++ [entryFor d info]) hsubl
        (by omega)
      have hcall : r.base.appendReadDir (fuel2 + 1) (path.Join [d, info.name])
          (es ++ [entryFor d info])
          = WalkResult.returned
              (es ++ [entryFor d info]
                ++ (upToFailure (sub.preorder (path.Join [d, info.name]))).map Visit.entry)
              (firstFailure (sub.preorder (path.Join [d, info.name]))) := by
        simp only [recurDirReader.appendReadDir, hb, hrd, hsub]
      simp only [hcall, Forest.preorder, hd, if_true]
      have hv : upToFailure ({ dir := d, info := info, failure := none }
            :: (sub.preorder (path.Join [d, info.name]) ++ rest.preorder d))
          = { dir := d, info := info, failure := none }
            :: upToFailure (sub.preorder (path.Join [d, info.name]) ++ rest.preorder d) := by
        simp [upToFailure]
      have hf : firstFailure ({ dir := d, info := info, failure := none }
            :: (sub.preorder (path.Join [d, info.name]) ++ rest.preorder d))
          = firstFailure (sub.preorder (path.Join [d, info.name]) ++ rest.preorder d) := by
        simp [firstFailure]
      rw [hv, hf, upToFailure_append, firstFailure_append]
      cases hff : firstFailure (sub.preorder (path.Join [d, info.name])) with
      | some e =>
        simp only [andThen_returned_some, Option.isSome_some, if_true, List.map_cons,
          List.append_assoc, List.singleton_append]
        rfl
      | none =>
        rw [andThen_returned_none]
        have hall := upToFailure_of_none _ hff
        rw [hall]
        have hrest2 := ihr (fuel2 + 1) d
          (es ++ [entryFor d info]
            ++ (sub.preorder (path.Join [d, info.name])).map Visit.entry) hl.2
          (le_trans (le_max_right _ _) hh)
        rw [hrest2]
        simp only [Option.isSome_none, Bool.false_eq_true, if_false, List.map_cons,
          List.map_append, List.append_assoc, List.singleton_append]
        rfl
  | broken info err rest ihr =>
    intro fuel d es hl hh
    simp only [Forest.listedBelow, Bool.and_eq_true, Bool.or_eq_true, Bool.not_eq_true',
      decide_eq_true_eq] at hl
    simp only [Forest.height] at hh
    have hrest := ihr fuel d (es ++ [entryFor d info]) hl.2 (le_trans (le_max_right _ _) hh)
    simp only [Forest.infos, processFileInfosWith_cons_base]
    cases hd : info.isDir with
    | false =>
      simp only [Bool.false_eq_true, if_false, hrest, Forest.preorder, hd,
        upToFailure, Option.isSome_none, firstFailure, List.map_cons, List.append_assoc,
        List.singleton_append]
      rfl
    | true =>
      simp only [hd, if_true] at hh ⊢
      have hfuel : 1 ≤ fuel := le_trans (le_max_left _ _) hh
      obtain ⟨fuel2, rfl⟩ : ∃ k, fuel = k + 1 := ⟨fuel - 1, by omega⟩
      rcases hl.1 with h | h
      · rw [hd] at h
        cases h
      have hb : r.base.readDirFunc = r.readDirFunc := rfl
      have hcall : r.base.appendReadDir (fuel2 + 1) (path.Join [d, info.name])
          (es ++ [entryFor d info])
          = WalkResult.returned (es ++ [entryFor d info]) (some err) := by
        simp only [recurDirReader.appendReadDir, hb, h]
      simp only [hcall, andThen_returned_some, Forest.preorder, hd, if_true, upToFailure,
        Option.isSome_some, firstFailure, List.map_cons, List.map_nil]
      rfl

/-- The walk of a directory listed as the forest `f`, without matcher and limit. -/
theorem base_appendReadDir_forest (r : recurDirReader) (f : Forest) (fuel : Nat)
    (d : List Char) (es : List dirEntry) (hl : f.listedAt r.readDirFunc d = true)
    (hh : f.height < fuel) :
    r.base.appendReadDir fuel d es
      = WalkResult.returned (es ++ (upToFailure (f.preorder d)).map Visit.entry)
          (firstFailure (f.preorder d)) := by
  simp only [Forest.listedAt, Bool.and_eq_true, decide_eq_true_eq] at hl
  obtain ⟨fuel2, rfl⟩ : ∃ k, fuel = k + 1 := ⟨fuel - 1, by omega⟩
  have hb : r.base.readDirFunc = r.readDirFunc := rfl
  simp only [recurDirReader.appendReadDir, hb, hl.1]
  exact base_processFileInfos_forest r f fuel2 d es hl.2 (by omega)

end Paths

namespace Paths

/-! ## Paths of the nodes of a tree: `Join`, `Dir` and `Base` -/

theorem elements_append_slash (d n : List Char) : ∀ (cur : List Char),
    path.elements (d ++ '/' :: n) cur = path.elements d cur ++ path.elements n [] := by
  induction d with
  | nil => intro cur; simp [path.elements]
  | cons c t ih =>
    intro cur
    by_cases hc : c = '/'
    · simp [path.elements, hc, ih]
    · simp [path.elements, hc, ih]

theorem elements_no_slash (n : List Char) (hn : '/' ∉ n) : ∀ (cur : List Char),
    path.elements n cur = [cur ++ n] := by
  induction n with
  | nil => intro cur; simp [path.elements]
  | cons c t ih =>
    intro cur
    simp only [List.mem_cons, not_or] at hn
    have hc : c ≠ '/' := fun h => hn.1 h.symm
    simp [path.elements, hc, ih hn.2]

theorem validName_iff (n : List Char) :
    validName n = true ↔ n ≠ [] ∧ '/' ∉ n ∧ n ≠ ['.'] ∧ n ≠ ['.', '.'] := by
  simp [validName, and_assoc]

theorem cleanStep_valid (rooted : Bool) (st : path.CleanState) (n : List Char)
    (hn : validName n = true) :
    path.cleanStep rooted st n = { ups := st.ups, elems := st.elems ++ [n] } := by
  obtain ⟨h1, _, h3, h4⟩ := (validName_iff n).mp hn
  simp [path.cleanStep, h1, h3, h4]

theorem join_append_singleton (xs : List (List Char)) (hx : xs ≠ []) (n : List Char) :
    strings.Join (xs ++ [n]) ['/'] = strings.Join xs ['/'] ++ '/' :: n := by
  induction xs with
  | nil => exact absurd rfl hx
  | cons x rest ih =>
    cases rest with
    | nil => simp [join_cons_cons, join_singleton]
    | cons y ys =>
      have := ih (List.cons_ne_nil _ _)
      simp only [List.cons_append] at this ⊢
      rw [join_cons_cons, this, join_cons_cons]
      simp

/-- The text of `Clean` after one more valid element. -/
theorem render_snoc (rooted : Bool) (st : path.CleanState) (n : List Char) :
    (path.render rooted st = ['.'] ∧ rooted = false
        ∧ path.render rooted { ups := st.ups, elems := st.elems ++ [n] } = n)
    ∨ (path.render rooted st = ['/'] ∧ rooted = true
        ∧ path.render rooted { ups := st.ups, elems := st.elems ++ [n] } = '/' :: n)
    ∨ path.render rooted { ups := st.ups, elems := st.elems ++ [n] }
        = path.render rooted st ++ '/' :: n := by
  cases rooted with
  | true =>
    by_cases he : st.elems = []
    · right; left
      simp [path.render, he, strings.Join, List.intercalate, List.intersperse]
    · right; right
      simp [path.render, join_append_singleton _ he]
  | false =>
    by_cases he : st.ups = 0 ∧ st.elems = []
    · left
      simp [path.render, he.1, he.2, join_singleton]
    · right; right
      have hne : List.replicate st.ups ['.', '.'] ++ st.elems ≠ [] := by
        intro h
        simp only [List.append_eq_nil, List.replicate_eq_nil_iff] at h
        exact he h
      have hne2 : ¬ (st.ups = 0 ∧ st.elems ++ [n] = []) := by simp
      simp only [path.render, Bool.false_eq_true, if_false, he, hne2]
      rw [← List.append_assoc, join_append_singleton _ hne]

theorem clean_eq_ne_nil (d : List Char) (hd : path.Clean d = d) : d ≠ [] := by
  rintro rfl
  simp [path.Clean] at hd

/-- Joining a clean directory and a valid name. -/
theorem join_child (d n : List Char) (hd : path.Clean d = d) (hn : validName n = true) :
    path.Join [d, n] = path.Clean (d ++ '/' :: n)
    ∧ ((d = ['.'] ∧ path.Join [d, n] = n) ∨ (d = ['/'] ∧ path.Join [d, n] = '/' :: n)
        ∨ path.Join [d, n] = d ++ '/' :: n) := by
  have hne := clean_eq_ne_nil d hd
  obtain ⟨h1, h2, h3, h4⟩ := (validName_iff n).mp hn
  have hj : path.Join [d, n] = path.Clean (d ++ '/' :: n) := by
    simp [path.Join, hne, h1, join_cons_cons, join_singleton]
  refine ⟨hj, ?_⟩
  rw [hj]
  have hhead : (d ++ '/' :: n).head? = d.head? := by
    cases d with
    | nil => exact absurd rfl hne
    | cons c t => rfl
  have hcl : path.Clean (d ++ '/' :: n)
      = path.render (decide (d.head? = some '/'))
          { ups := ((path.elements d []).foldl (path.cleanStep (decide (d.head? = some '/')))
              { ups := 0, elems := [] }).ups,
            elems := ((path.elements d []).foldl (path.cleanStep (decide (d.head? = some '/')))
              { ups := 0, elems := [] }).elems ++ [n] } := by
    simp only [path.Clean, List.append_eq_nil, hne, false_and, if_false, hhead,
      elements_append_slash, elements_no_slash n h2, List.nil_append, List.foldl_append,
      List.foldl_cons, List.foldl_nil, cleanStep_valid _ _ n hn]
  have hcd : path.render (decide (d.head? = some '/'))
      ((path.elements d []).foldl (path.cleanStep (decide (d.head? = some '/')))
        { ups := 0, elems := [] }) = d := by
    have := hd
    simp only [path.Clean, hne, if_false] at this
    exact this
  rw [hcl]
  rcases render_snoc (decide (d.head? = some '/'))
    ((path.elements d []).foldl (path.cleanStep (decide (d.head? = some '/')))
      { ups := 0, elems := [] }) n with ⟨a, _, c⟩ | ⟨a, _, c⟩ | c
  · rw [hcd] at a
    exact Or.inl ⟨a, c⟩
  · rw [hcd] at a
    exact Or.inr (Or.inl ⟨a, c⟩)
  · rw [hcd] at c
    exact Or.inr (Or.inr c)

theorem takeWhile_reverse_name (n rest : List Char) (hn : '/' ∉ n) :
    (n.reverse ++ '/' :: rest).takeWhile (fun c => decide (c ≠ '/')) = n.reverse := by
  rw [List.takeWhile_append_of_pos]
  · simp
  · intro c hc
    have hc2 : c ∈ n := List.mem_reverse.mp hc
    have : c ≠ '/' := fun h => hn (h ▸ hc2)
    simpa using this

theorem dropWhile_reverse_name (n rest : List Char) (hn : '/' ∉ n) :
    (n.reverse ++ '/' :: rest).dropWhile (fun c => decide (c ≠ '/')) = '/' :: rest := by
  rw [List.dropWhile_append_of_pos]
  · simp
  · intro c hc
    have hc2 : c ∈ n := List.mem_reverse.mp hc
    have : c ≠ '/' := fun h => hn (h ▸ hc2)
    simpa using this

theorem takeWhile_all (n : List Char) (hn : '/' ∉ n) :
    n.takeWhile (fun c => decide (c ≠ '/')) = n := by
  rw [List.takeWhile_eq_self_iff]
  intro c hc
  have : c ≠ '/' := fun h => hn (h ▸ hc)
  simpa using this

theorem dropWhile_all (n : List Char) (hn : '/' ∉ n) :
    n.dropWhile (fun c => decide (c ≠ '/')) = [] := by
  rw [List.dropWhile_eq_nil_iff]
  intro c hc
  have : c ≠ '/' := fun h => hn (h ▸ hc)
  simpa using this

/-- The base name of a path that ends in the valid name `n` after a slash-free cut. -/
theorem base_of_name (pre n : List Char) (hn : validName n = true)
    (hp : pre = [] ∨ ∃ q, pre = q ++ ['/']) : path.Base (pre ++ n) = n := by
  obtain ⟨h1, h2, _, _⟩ := (validName_iff n).mp hn
  have hne : pre ++ n ≠ [] := by simp [h1]
  have hrev : n.reverse ≠ [] := by simpa using h1
  obtain ⟨c, t, hct⟩ : ∃ c t, n.reverse = c :: t := by
    cases hr : n.reverse with
    | nil => exact absurd hr hrev
    | cons c t => exact ⟨c, t, rfl⟩
  have hc : c ≠ '/' := by
    intro h
    have : c ∈ n := List.mem_reverse.mp (by rw [hct]; exact List.mem_cons_self _ _)
    exact h2 (h ▸ this)
  have hstrip : (pre ++ n).reverse.dropWhile (fun c => decide (c = '/')) = (pre ++ n).reverse := by
    rw [List.reverse_append, hct]
    simp [List.dropWhile, hc]
  have e : ((pre ++ n).reverse.takeWhile (fun c => decide (c ≠ '/'))).reverse = n := by
    rcases hp with rfl | ⟨q, rfl⟩
    · rw [List.nil_append, takeWhile_all n.reverse (by simpa using h2), List.reverse_reverse]
    · have : (q ++ ['/'] ++ n).reverse = n.reverse ++ '/' :: q.reverse := by simp
      rw [this, takeWhile_reverse_name _ _ h2, List.reverse_reverse]
  simp only [path.Base, hne, if_false, hstrip, e, h1]

theorem split_of_name (pre n : List Char) (hn : '/' ∉ n)
    (hp : pre = [] ∨ ∃ q, pre = q ++ ['/']) : (path.Split (pre ++ n)).1 = pre := by
  rcases hp with rfl | ⟨q, rfl⟩
  · simp only [path.Split, List.nil_append]
    rw [dropWhile_all n.reverse (by simpa using hn)]
    rfl
  · have : (q ++ ['/'] ++ n).reverse = n.reverse ++ '/' :: q.reverse := by simp
    simp only [path.Split, this, dropWhile_reverse_name _ _ hn]
    simp

theorem clean_trailing_slash (d : List Char) (hd : path.Clean d = d) :
    path.Clean (d ++ ['/']) = d := by
  have hne := clean_eq_ne_nil d hd
  have hhead : (d ++ ['/']).head? = d.head? := by
    cases d with
    | nil => exact absurd rfl hne
    | cons c t => rfl
  have hcd := hd
  simp only [path.Clean, hne, if_false] at hcd
  simp only [path.Clean, List.append_eq_nil, hne, false_and, if_false, hhead,
    elements_append_slash, path.elements, List.foldl_append, List.foldl_cons, List.foldl_nil]
  simpa [path.cleanStep] using hcd

/-- The path of a child of a clean directory is clean, its `Dir` is the directory
and its `Base` is the name of the child. -/
theorem path_child (d n : List Char) (hd : path.Clean d = d) (hn : validName n = true) :
    path.Clean (path.Join [d, n]) = path.Join [d, n]
    ∧ path.Dir (path.Join [d, n]) = d ∧ path.Base (path.Join [d, n]) = n := by
  obtain ⟨h1, h2, h3, h4⟩ := (validName_iff n).mp hn
  obtain ⟨hj, hc⟩ := join_child d n hd hn
  have hclean_n : path.Clean n = n := by
    have hh : n.head? ≠ some '/' := by
      cases n with
      | nil => simp
      | cons c t =>
        simp only [List.mem_cons, not_or] at h2
        simpa using fun h => h2.1 h.symm
    simp [path.Clean, h1, hh, elements_no_slash n h2, cleanStep_valid _ _ n hn, path.render,
      join_singleton]
  have hclean_rn : path.Clean ('/' :: n) = '/' :: n := by
    have e1 : path.cleanStep true { ups := 0, elems := [] } []
        = { ups := 0, elems := [] } := by simp [path.cleanStep]
    simp [path.Clean, path.elements, elements_no_slash n h2, e1,
      cleanStep_valid _ _ n hn, path.render, join_singleton]
  rcases hc with ⟨rfl, e⟩ | ⟨rfl, e⟩ | e
  · rw [e]
    refine ⟨hclean_n, ?_, ?_⟩
    · have := split_of_name [] n h2 (Or.inl rfl)
      simp only [List.nil_append] at this
      simp [path.Dir, this, path.Clean]
    · simpa using base_of_name [] n hn (Or.inl rfl)
  · rw [e]
    refine ⟨hclean_rn, ?_, ?_⟩
    · have := split_of_name ['/'] n h2 (Or.inr ⟨[], rfl⟩)
      simp only [List.singleton_append] at this
      simp only [path.Dir, this]
      exact hd
    · simpa using base_of_name ['/'] n hn (Or.inr ⟨[], rfl⟩)
  · refine ⟨?_, ?_, ?_⟩
    · rw [e, ← hj, e]
    · rw [e]
      have := split_of_name (d ++ ['/']) n h2 (Or.inr ⟨d, rfl⟩)
      simp only [List.append_assoc, List.singleton_append] at this
      simp only [path.Dir, this]
      exact clean_trailing_slash d hd
    · rw [e]
      have := base_of_name (d ++ ['/']) n hn (Or.inr ⟨d, rfl⟩)
      simpa using this

end Paths

namespace Paths

/-! ## The resumed walk on a finite tree: it returns -/

theorem climbReturns_root (r : recurDirReader) : ClimbReturns r r.dir := by
  refine ⟨0, fun es => ⟨es, ?_⟩⟩
  intro fuel k _ _
  have hb : r.base.dir = r.dir := rfl
  cases k <;> simp [recurDirReader.climbWith, hb]

theorem climbReturns_step (r : recurDirReader) (d : List Char) (h1 : ResumeReturns r d)
    (h2 : ClimbReturns r (path.Dir d)) : ClimbReturns r d := by
  obtain ⟨n1, h1⟩ := h1
  obtain ⟨n2, h2⟩ := h2
  refine ⟨max n1 n2 + 1, fun es => ?_⟩
  by_cases hd : d = r.dir
  · refine ⟨es, ?_⟩
    intro fuel k _ _
    have hb : r.base.dir = r.dir := rfl
    cases k <;> simp [recurDirReader.climbWith, hb, hd]
  · obtain ⟨es1, he1⟩ := h1 es
    obtain ⟨es2, he2⟩ := h2 es1
    refine ⟨es2, ?_⟩
    intro fuel k hf hk
    obtain ⟨k2, rfl⟩ : ∃ j, k = j + 1 := ⟨k - 1, by omega⟩
    have hb : r.base.dir = r.dir := rfl
    simp only [recurDirReader.climbWith, hb, hd, if_false]
    rw [he1 fuel (by omega), andThen_returned_none]
    exact he2 fuel k2 (by omega) (by omega)

theorem firstFailure_allListed (f : Forest) : ∀ (d : List Char), f.allListed = true →
    firstFailure (f.preorder d) = none := by
  induction f with
  | nil => intro d _; rfl
  | node info sub rest ihs ihr =>
    intro d h
    simp only [Forest.allListed, Bool.and_eq_true, Bool.or_eq_true, Bool.not_eq_true'] at h
    simp only [Forest.preorder, firstFailure, firstFailure_append]
    cases hd : info.isDir with
    | false => simp [firstFailure, ihr d h.2]
    | true =>
      rcases h.1 with h1 | h1
      · rw [hd] at h1; cases h1
      · simp [ihs _ h1, ihr d h.2]
  | broken info err rest ihr =>
    intro d h
    simp only [Forest.allListed, Bool.and_eq_true, Bool.not_eq_true'] at h
    simp [Forest.preorder, firstFailure, h.1, ihr d h.2]

/-- The loop of `processFileInfos` over a forest in which every listing succeeds. -/
theorem base_processFileInfos_allListed (r : recurDirReader) (f : Forest) (fuel : Nat)
    (d : List Char) (es : List dirEntry) (hl : f.listedBelow r.readDirFunc d = true)
    (ha : f.allListed = true) (hh : f.height ≤ fuel) :
    r.base.processFileInfos fuel d f.infos es
      = WalkResult.returned (es ++ (f.preorder d).map Visit.entry) none := by
  have h := base_processFileInfos_forest r f fuel d es hl hh
  rw [firstFailure_allListed f d ha, upToFailure_of_none _ (firstFailure_allListed f d ha)] at h
  exact h

/-- The node a marker name points at in a listing, and what follows it. -/
theorem forest_at_name (readDir : List Char → Except OSError (List FileInfo)) (w : Forest) :
    ∀ (d name : List Char), name ∈ w.infos.map (fun i => i.name) →
      w.listedBelow readDir d = true → w.allListed = true →
      ∃ (info : FileInfo) (sub rest : Forest),
        w.infos.get? (indexOfName w.infos name) = some info
        ∧ info.name = name
        ∧ indexOfName w.infos name + 1 ≤ w.infos.length
        ∧ w.infos.drop (indexOfName w.infos name + 1) = rest.infos
        ∧ rest.listedBelow readDir d = true ∧ rest.allListed = true ∧ rest.height ≤ w.height
        ∧ (info.isDir = true →
            readDir (path.Join [d, info.name]) = Except.ok sub.infos
            ∧ sub.listedBelow readDir (path.Join [d, info.name]) = true
            ∧ sub.allListed = true ∧ sub.height ≤ w.height) := by
  induction w with
  | nil => intro d name h; simp [Forest.infos] at h
  | node info sub rest _ ihr =>
    intro d name hmem hl ha
    simp only [Forest.listedBelow, Bool.and_eq_true, Bool.or_eq_true, Bool.not_eq_true',
      decide_eq_true_eq] at hl
    simp only [Forest.allListed, Bool.and_eq_true, Bool.or_eq_true, Bool.not_eq_true'] at ha
    by_cases hn : info.name = name
    · refine ⟨info, sub, rest, by simp [Forest.infos, indexOfName, hn], hn,
        by simp [Forest.infos, indexOfName, hn], by simp [Forest.infos, indexOfName, hn],
        hl.2, ha.2, by simp [Forest.height], ?_⟩
      intro hd
      rcases hl.1 with h | h
      · rw [hd] at h; cases h
      rcases ha.1 with h2 | h2
      · rw [hd] at h2; cases h2
      exact ⟨h.1, h.2, h2, by simp [Forest.height, hd]⟩
    · have hmem2 : name ∈ rest.infos.map (fun i => i.name) := by
        simp only [Forest.infos, List.map_cons, List.mem_cons] at hmem
        rcases hmem with h | h
        · exact absurd h.symm hn
        · exact h
      obtain ⟨info2, sub2, rest2, h1, h2, h3, h4, h5, h6, h7, h8⟩ := ihr d name hmem2 hl.2 ha.2
      refine ⟨info2, sub2, rest2, by simpa [Forest.infos, indexOfName, hn] using h1, h2,
        by simpa [Forest.infos, indexOfName, hn] using h3,
        by simpa [Forest.infos, indexOfName, hn] using h4, h5, h6,
        le_trans h7 (by simp [Forest.height]), ?_⟩
      intro hd
      obtain ⟨a, b, c, e⟩ := h8 hd
      exact ⟨a, b, c, le_trans e (by simp [Forest.height])⟩
  | broken info err rest ihr =>
    intro d name hmem hl ha
    simp only [Forest.listedBelow, Bool.and_eq_true, Bool.or_eq_true, Bool.not_eq_true',
      decide_eq_true_eq] at hl
    simp only [Forest.allListed, Bool.and_eq_true, Bool.not_eq_true'] at ha
    by_cases hn : info.name = name
    · refine ⟨info, Forest.nil, rest, by simp [Forest.infos, indexOfName, hn], hn,
        by simp [Forest.infos, indexOfName, hn], by simp [Forest.infos, indexOfName, hn],
        hl.2, ha.2, by simp [Forest.height], ?_⟩
      intro hd
      rw [hd] at ha
      cases ha.1
    · have hmem2 : name ∈ rest.infos.map (fun i => i.name) := by
        simp only [Forest.infos, List.map_cons, List.mem_cons] at hmem
        rcases hmem with h | h
        · exact absurd h.symm hn
        · exact h
      obtain ⟨info2, sub2, rest2, h1, h2, h3, h4, h5, h6, h7, h8⟩ := ihr d name hmem2 hl.2 ha.2
      refine ⟨info2, sub2, rest2, by simpa [Forest.infos, indexOfName, hn] using h1, h2,
        by simpa [Forest.infos, indexOfName, hn] using h3,
        by simpa [Forest.infos, indexOfName, hn] using h4, h5, h6,
        le_trans h7 (by simp [Forest.height]), ?_⟩
      intro hd
      obtain ⟨a, b, c, e⟩ := h8 hd
      exact ⟨a, b, c, le_trans e (by simp [Forest.height])⟩

/-- Resuming after a child of a clean directory whose listing is the forest `w`. -/
theorem resumeReturns_child (r : recurDirReader) (w : Forest) (d name : List Char)
    (hd : path.Clean d = d) (hn : validName name = true)
    (hmem : name ∈ w.infos.map (fun i => i.name))
    (hl : w.listedAt r.readDirFunc d = true) (ha : w.allListed = true)
    (hc : ClimbReturns r d) : ResumeReturns r (path.Join [d, name]) := by
  obtain ⟨nc, hc⟩ := hc
  simp only [Forest.listedAt, Bool.and_eq_true, decide_eq_true_eq] at hl
  obtain ⟨info, sub, rest, h1, h2, h3, h4, h5, h6, h7, h8⟩ :=
    forest_at_name r.readDirFunc w d name hmem hl.2 ha
  obtain ⟨_, hdir, hbase⟩ := path_child d name hd hn
  refine ⟨max w.height nc + 1, fun es => ?_⟩
  have hb1 : r.base.readDirFunc = r.readDirFunc := rfl
  have hb2 : r.base.marker = r.marker := rfl
  have hi : ¬ (indexOfName w.infos name + 1 > w.infos.length) := by omega
  -- the siblings after the marker, then the climb
  have hsib : ∀ es1, ∃ es2, ∀ fuel, max w.height nc ≤ fuel →
      (r.base.processFileInfos fuel d (w.infos.drop (indexOfName w.infos name + 1)) es1).andThen
        r.base (r.base.climbWith (r.base.appendReadDirAfterMarker fuel) fuel d)
        = WalkResult.returned es2 none := by
    intro es1
    obtain ⟨es2, he2⟩ := hc (es1 ++ (rest.preorder d).map Visit.entry)
    refine ⟨es2, fun fuel hf => ?_⟩
    rw [h4, base_processFileInfos_allListed r rest fuel d es1 h5 h6 (by omega),
      andThen_returned_none]
    exact he2 fuel fuel (by omega) (by omega)
  by_cases hm : path.Join [d, name] = r.marker ∧ info.isDir = true
  · obtain ⟨a, b, c, e⟩ := h8 hm.2
    rw [h2] at a b
    obtain ⟨es2, he2⟩ := hsib (es ++ (sub.preorder (path.Join [d, name])).map Visit.entry)
    refine ⟨es2, fun fuel hf => ?_⟩
    obtain ⟨fuel2, rfl⟩ : ∃ k, fuel = k + 1 := ⟨fuel - 1, by omega⟩
    rw [appendReadDirAfterMarker_succ]
    simp only [hdir, hbase, hb1, hb2, hl.1, h1, hi, if_false]
    rw [if_pos hm.1, if_pos hm.2, a]
    simp only
    rw [base_processFileInfos_allListed r sub fuel2 _ es b c (by omega), andThen_returned_none]
    exact he2 fuel2 (by omega)
  · obtain ⟨es2, he2⟩ := hsib es
    refine ⟨es2, fun fuel hf => ?_⟩
    obtain ⟨fuel2, rfl⟩ : ∃ k, fuel = k + 1 := ⟨fuel - 1, by omega⟩
    rw [appendReadDirAfterMarker_succ]
    simp only [hdir, hbase, hb1, hb2, hl.1, h1, hi, if_false]
    by_cases hm1 : path.Join [d, name] = r.marker
    · have hm2 : ¬ info.isDir = true := fun hx => hm ⟨hm1, hx⟩
      rw [if_pos hm1, if_neg hm2]
      exact he2 fuel2 (by omega)
    · rw [if_neg hm1]
      exact he2 fuel2 (by omega)

/-- Resuming after any node of a forest below a clean directory: `g` is a run of
siblings of the directory `d`, whose whole listing is `w`. -/
theorem resumeReturns_forest (r : recurDirReader) (g : Forest) :
    ∀ (d : List Char) (w : Forest), path.Clean d = d →
      w.listedAt r.readDirFunc d = true → w.allListed = true →
      (∀ i ∈ g.infos, i ∈ w.infos) →
      g.listedBelow r.readDirFunc d = true → g.allListed = true → g.namesValid = true →
      ClimbReturns r d →
      ∀ marker ∈ g.nodeNames d, ResumeReturns r marker := by
  induction g with
  | nil =>
    intro d w _ _ _ _ _ _ _ _ marker hm
    simp [Forest.nodeNames, Forest.preorder] at hm
  | node info sub rest ihs ihr =>
    intro d w hd hwl hwa hsubset hl ha hv hc marker hm
    simp only [Forest.listedBelow, Bool.and_eq_true, Bool.or_eq_true, Bool.not_eq_true',
      decide_eq_true_eq] at hl
    simp only [Forest.allListed, Bool.and_eq_true, Bool.or_eq_true, Bool.not_eq_true'] at ha
    simp only [Forest.namesValid, Bool.and_eq_true] at hv
    have hinfo : info.name ∈ w.infos.map (fun i => i.name) :=
      List.mem_map.mpr ⟨info, hsubset info (by simp [Forest.infos]), rfl⟩
    have hchild := resumeReturns_child r w d info.name hd hv.1.1 hinfo hwl hwa hc
    simp only [Forest.nodeNames, Forest.preorder, List.map_cons, List.map_append,
      List.mem_cons, List.mem_append] at hm
    rcases hm with hm | hm | hm
    · rw [hm]
      exact hchild
    · cases hdir : info.isDir with
      | false => simp [hdir] at hm
      | true =>
        simp only [hdir, if_true] at hm
        rcases hl.1 with h | h
        · rw [hdir] at h; cases h
        rcases ha.1 with h2 | h2
        · rw [hdir] at h2; cases h2
        obtain ⟨hcl, hdd, _⟩ := path_child d info.name hd hv.1.1
        have hsl : sub.listedAt r.readDirFunc (path.Join [d, info.name]) = true := by
          simp [Forest.listedAt, h.1, h.2]
        refine ihs (path.Join [d, info.name]) sub hcl hsl h2 (fun i hi => hi) h.2 h2 hv.1.2
          (climbReturns_step r _ hchild (by rw [hdd]; exact hc)) marker ?_
        simpa [Forest.nodeNames] using hm
    · refine ihr d w hd hwl hwa (fun i hi => hsubset i (by simp [Forest.infos, hi])) hl.2 ha.2
        hv.2 hc marker ?_
      simpa [Forest.nodeNames] using hm
  | broken info err rest ihr =>
    intro d w hd hwl hwa hsubset hl ha hv hc marker hm
    simp only [Forest.listedBelow, Bool.and_eq_true, Bool.or_eq_true, Bool.not_eq_true',
      decide_eq_true_eq] at hl
    simp only [Forest.allListed, Bool.and_eq_true, Bool.not_eq_true'] at ha
    simp only [Forest.namesValid, Bool.and_eq_true] at hv
    have hinfo : info.name ∈ w.infos.map (fun i => i.name) :=
      List.mem_map.mpr ⟨info, hsubset info (by simp [Forest.infos]), rfl⟩
    have hchild := resumeReturns_child r w d info.name hd hv.1 hinfo hwl hwa hc
    simp only [Forest.nodeNames, Forest.preorder, List.map_cons, List.mem_cons] at hm
    rcases hm with hm | hm
    · rw [hm]
      exact hchild
    · refine ihr d w hd hwl hwa (fun i hi => hsubset i (by simp [Forest.infos, hi])) hl.2 ha.2
        hv.2 hc marker ?_
      simpa [Forest.nodeNames] using hm

/-- The walk without matcher and limit returns, without error, on a tree whose
listings all succeed: unmarked, or resumed after a node below a clean root. -/
theorem base_recurReadDir_returns (r : recurDirReader) (f : Forest)
    (hl : f.listedAt r.readDirFunc r.dir = true) (ha : f.allListed = true)
    (hm : r.marker = [] ∨ (path.Clean r.dir = r.dir ∧ f.namesValid = true
      ∧ r.marker ∈ f.nodeNames r.dir)) :
    ∃ (es : List dirEntry) (n : Nat), ∀ fuel, n ≤ fuel →
      r.base.recurReadDir fuel = WalkResult.returned es none := by
  have hb1 : r.base.marker = r.marker := rfl
  have hb2 : r.base.dir = r.dir := rfl
  by_cases h0 : r.marker = []
  · refine ⟨(f.preorder r.dir).map Visit.entry, f.height + 1, fun fuel hf => ?_⟩
    have h := base_appendReadDir_forest r f fuel r.dir [] hl (by omega)
    rw [firstFailure_allListed f _ ha, upToFailure_of_none _ (firstFailure_allListed f _ ha)] at h
    simpa [recurDirReader.recurReadDir, hb1, hb2, h0] using h
  · rcases hm with hm | ⟨hc, hv, hmem⟩
    · exact absurd hm h0
    · have hlb : f.listedBelow r.readDirFunc r.dir = true := by
        simp only [Forest.listedAt, Bool.and_eq_true] at hl
        exact hl.2
      obtain ⟨n, hn⟩ := resumeReturns_forest r f r.dir f hc hl ha (fun i hi => hi) hlb ha hv
        (climbReturns_root r) r.marker hmem
      obtain ⟨es2, he2⟩ := hn []
      refine ⟨es2, n, fun fuel hf => ?_⟩
      simpa [recurDirReader.recurReadDir, hb1, hb2, h0] using he2 fuel hf

end Paths

namespace Paths

/-! ## Claims about the walker -/

theorem preorder_length (f : Forest) : ∀ (d : List Char), (f.preorder d).length = f.size := by
  induction f with
  | nil => intro d; rfl
  | node info sub rest ihs ihr =>
    intro d
    cases hd : info.isDir with
    | false => simp [Forest.preorder, Forest.size, hd, ihr d]; omega
    | true => simp [Forest.preorder, Forest.size, hd, ihs, ihr d]; omega
  | broken info err rest ihr =>
    intro d
    simp [Forest.preorder, Forest.size, ihr d]; omega

theorem preorder_isDir (f : Forest) : ∀ (d : List Char), f.modesAgree = true →
    ∀ v ∈ f.preorder d, v.entry.IsDir = v.info.isDir := by
  induction f with
  | nil => intro d _ v hv; simp [Forest.preorder] at hv
  | node info sub rest ihs ihr =>
    intro d hm v hv
    simp only [Forest.modesAgree, Bool.and_eq_true, decide_eq_true_eq] at hm
    simp only [Forest.preorder, List.mem_cons, List.mem_append] at hv
    rcases hv with rfl | hv | hv
    · simp [Visit.entry, dirEntry.IsDir, dirEntry.Mode, hm.1.1]
    · cases hd : info.isDir with
      | false => simp [hd] at hv
      | true =>
        simp only [hd, if_true] at hv
        exact ihs _ hm.1.2 v hv
    · exact ihr d hm.2 v hv
  | broken info err rest ihr =>
    intro d hm v hv
    simp only [Forest.modesAgree, Bool.and_eq_true, decide_eq_true_eq] at hm
    simp only [Forest.preorder, List.mem_cons] at hv
    rcases hv with rfl | hv
    · simp [Visit.entry, dirEntry.IsDir, dirEntry.Mode, hm.1]
    · exact ihr d hm.2 v hv

theorem recurReadDir_unmarked (r : recurDirReader) (h : r.marker = []) (fuel : Nat) :
    r.recurReadDir fuel = r.appendReadDir fuel r.dir [] := by
  simp [recurDirReader.recurReadDir, h]

/-- C4: on a finite tree whose listings all succeed, the walk of the root without
matcher, marker and limit returns the pre-order traversal of the tree: one entry
per node, each followed by all of its descendants before its next sibling, and
flagged as a directory exactly when the node is one. -/
theorem RecurReadDir_full_preorder (readDir : List Char → Except OSError (List FileInfo))
    (root : List Char) (f : Forest) (hl : f.listedAt readDir root = true)
    (ha : f.allListed = true) (hmode : f.modesAgree = true) (fuel : Nat)
    (hf : f.height < fuel) :
    RecurReadDir readDir root none [] 0 fuel
        = WalkResult.returned ((f.preorder root).map Visit.entry) none
      ∧ ((f.preorder root).map Visit.entry).length = f.size
      ∧ ∀ v ∈ f.preorder root, v.entry.IsDir = v.info.isDir := by
  refine ⟨?_, by simp [preorder_length], preorder_isDir f root hmode⟩
  have h := base_appendReadDir_forest
    { dir := root, matcher := none, marker := [], maxEntries := 0, readDirFunc := readDir }
    f fuel root [] hl hf
  rw [firstFailure_allListed f _ ha, upToFailure_of_none _ (firstFailure_allListed f _ ha)] at h
  simpa [RecurReadDir, recurDirReader.recurReadDir] using h

/-- A use of `RecurReadDir_full_preorder` on the tree `r/a/b/c`, `r/z`. -/
theorem RecurReadDir_full_preorder_witness :
    smallTree.listedAt (fakeReaderDirFunc "r".toList smallTree) "r".toList = true
    ∧ smallTree.height < 5
    ∧ RecurReadDir (fakeReaderDirFunc "r".toList smallTree) "r".toList none [] 0 5
        = WalkResult.returned ((smallTree.preorder "r".toList).map Visit.entry) none :=
  ⟨by decide, by decide,
   (RecurReadDir_full_preorder (fakeReaderDirFunc "r".toList smallTree) "r".toList smallTree
      (by decide) (by decide) (by decide) 5 (by decide)).1⟩

/-- C2 (failing input): on the tree `r/a/b/c`, `r/z`, the walk resumed after the
marker `r/a/b/c`, three levels below the root, returns `r/z` twice, although the
full walk has the single entry `r/z` after the marker. -/
theorem marker_deep_repeats_entries :
    RecurReadDir (fakeReaderDirFunc "r".toList smallTree) "r".toList none [] 0 5
        = WalkResult.returned
            [dirEntryOf "r/a", dirEntryOf "r/a/b", fileEntry "r/a/b/c", fileEntry "r/z"] none
    ∧ RecurReadDir (fakeReaderDirFunc "r".toList smallTree) "r".toList none
          "r/a/b/c".toList 0 5
        = WalkResult.returned [fileEntry "r/z", fileEntry "r/z"] none := by
  decide

/-- C3 (failing input): on the tree `r/a/b/c`, `r/z`, the first page of 3 entries
ends in `r/a/b/c`; the page of up to 5 entries resumed after it is `r/z`, `r/z`, so
the two pages together are not the first 8 entries of the full walk. -/
theorem pagination_deep_repeats_entries :
    RecurReadDir (fakeReaderDirFunc "r".toList smallTree) "r".toList none [] 3 5
        = WalkResult.returned [dirEntryOf "r/a", dirEntryOf "r/a/b", fileEntry "r/a/b/c"] none
    ∧ RecurReadDir (fakeReaderDirFunc "r".toList smallTree) "r".toList none
          "r/a/b/c".toList 5 5
        = WalkResult.returned [fileEntry "r/z", fileEntry "r/z"] none
    ∧ RecurReadDir (fakeReaderDirFunc "r".toList smallTree) "r".toList none [] 0 5
        = WalkResult.returned
            [dirEntryOf "r/a", dirEntryOf "r/a/b", fileEntry "r/a/b/c", fileEntry "r/z"] none
    ∧ [dirEntryOf "r/a", dirEntryOf "r/a/b", fileEntry "r/a/b/c"]
          ++ [fileEntry "r/z", fileEntry "r/z"]
        ≠ [dirEntryOf "r/a", dirEntryOf "r/a/b", fileEntry "r/a/b/c", fileEntry "r/z"].take 8 := by
  decide

/-- The limit below a clean root: on a finite tree whose listings all succeed, with
any matcher (or none), unmarked or resumed after a node below a clean root, the walk
without limit returns; with `maxEntries = N > 0` the walk returns the first `N`
entries of that result (all when there are fewer), at most `N` entries; with `N <= 0`
it returns the same result. -/
theorem RecurReadDir_limit (readDir : List Char → Except OSError (List FileInfo))
    (root : List Char) (f : Forest) (matcher : Option (List Char → Bool))
    (marker : List Char) (hl : f.listedAt readDir root = true) (ha : f.allListed = true)
    (hm : marker = [] ∨ (path.Clean root = root ∧ f.namesValid = true
      ∧ marker ∈ f.nodeNames root)) :
    ∃ (es : List dirEntry) (n : Nat), ∀ fuel, n ≤ fuel →
      RecurReadDir readDir root matcher marker 0 fuel = WalkResult.returned es none
      ∧ (∀ N : Int, 0 < N →
          RecurReadDir readDir root matcher marker N fuel
              = WalkResult.returned (es.take N.toNat) none
            ∧ ((es.take N.toNat).length : Int) ≤ N)
      ∧ (∀ N : Int, N ≤ 0 →
          RecurReadDir readDir root matcher marker N fuel = WalkResult.returned es none) := by
  obtain ⟨es0, n, h0⟩ := base_recurReadDir_returns
    { dir := root, matcher := matcher, marker := marker, maxEntries := 0,
      readDirFunc := readDir } f hl ha hm
  refine ⟨es0.filter (keptBy matcher), n, fun fuel hf => ?_⟩
  have key : ∀ N : Int, RecurReadDir readDir root matcher marker N fuel
      = recurDirReader.limited (recurDirReader.mk root matcher marker N readDir)
          (es0.filter (keptBy matcher)) none :=
    fun N => recurReadDir_of_base (recurDirReader.mk root matcher marker N readDir)
      fuel es0 none (h0 fuel hf)
  refine ⟨?_, ?_, ?_⟩
  · rw [key 0]
    simp [recurDirReader.limited, recurDirReader.hasReachedLimit]
  · intro N hN
    rw [key N]
    refine ⟨?_, ?_⟩
    · by_cases hr : (N : Int) ≤ ((es0.filter (keptBy matcher)).length : Int)
      · simp [recurDirReader.limited, recurDirReader.hasReachedLimit, hN, hr]
      · have hlen : (es0.filter (keptBy matcher)).length ≤ N.toNat := by omega
        simp [recurDirReader.limited, recurDirReader.hasReachedLimit, hN, hr,
          List.take_of_length_le hlen]
    · simp only [List.length_take]
      omega
  · intro N hN
    rw [key N]
    have : ¬ (0 < N) := by omega
    simp [recurDirReader.limited, recurDirReader.hasReachedLimit, this]

/-- A use of `RecurReadDir_limit` on the tree `r/a/b/c`, `r/z` with the marker `r/a/b`. -/
theorem RecurReadDir_limit_witness :
    smallTree.listedAt (fakeReaderDirFunc "r".toList smallTree) "r".toList = true
    ∧ smallTree.allListed = true
    ∧ ("r/a/b".toList = [] ∨ (path.Clean "r".toList = "r".toList ∧ smallTree.namesValid = true
        ∧ "r/a/b".toList ∈ smallTree.nodeNames "r".toList))
    ∧ ∃ (es : List dirEntry) (n : Nat), ∀ fuel, n ≤ fuel →
      RecurReadDir (fakeReaderDirFunc "r".toList smallTree) "r".toList none "r/a/b".toList 0 fuel
          = WalkResult.returned es none
      ∧ (∀ N : Int, 0 < N →
          RecurReadDir (fakeReaderDirFunc "r".toList smallTree) "r".toList none
              "r/a/b".toList N fuel = WalkResult.returned (es.take N.toNat) none
            ∧ ((es.take N.toNat).length : Int) ≤ N)
      ∧ (∀ N : Int, N ≤ 0 →
          RecurReadDir (fakeReaderDirFunc "r".toList smallTree) "r".toList none
              "r/a/b".toList N fuel = WalkResult.returned es none) :=
  ⟨by decide, by decide, by decide,
   RecurReadDir_limit (fakeReaderDirFunc "r".toList smallTree) "r".toList smallTree none
     "r/a/b".toList (by decide) (by decide) (by decide)⟩

/-- The matcher below a clean root: on a finite tree whose listings all succeed,
unmarked or resumed after a node below a clean root, the walk without limit and with
a matcher returns the entries of the walk without matcher whose path the matcher
accepts, in the same order: whether a directory is descended into does not depend on
the matcher. -/
theorem RecurReadDir_matcher_filters (readDir : List Char → Except OSError (List FileInfo))
    (root : List Char) (f : Forest) (m : List Char → Bool) (marker : List Char)
    (hl : f.listedAt readDir root = true) (ha : f.allListed = true)
    (hm : marker = [] ∨ (path.Clean root = root ∧ f.namesValid = true
      ∧ marker ∈ f.nodeNames root)) :
    ∃ (es : List dirEntry) (n : Nat), ∀ fuel, n ≤ fuel →
      RecurReadDir readDir root none marker 0 fuel = WalkResult.returned es none
      ∧ RecurReadDir readDir root (some m) marker 0 fuel
          = WalkResult.returned (es.filter (fun e => m e.Name)) none := by
  obtain ⟨es0, n, h0⟩ := base_recurReadDir_returns
    { dir := root, matcher := none, marker := marker, maxEntries := 0,
      readDirFunc := readDir } f hl ha hm
  refine ⟨es0, n, fun fuel hf => ⟨h0 fuel hf, ?_⟩⟩
  have h := recurReadDir_of_base (recurDirReader.mk root (some m) marker 0 readDir)
    fuel es0 none (h0 fuel hf)
  rw [RecurReadDir, h]
  simp only [recurDirReader.limited, recurDirReader.hasReachedLimit, lt_self_iff_false,
    gt_iff_lt, decide_False, Bool.false_and, Bool.false_eq_true, if_false]
  rfl

/-- A use of `RecurReadDir_matcher_filters` on the tree `r/a/b/c`, `r/z` with a matcher
that rejects only the path `r/a`. -/
theorem RecurReadDir_matcher_filters_witness :
    smallTree.listedAt (fakeReaderDirFunc "r".toList smallTree) "r".toList = true
    ∧ smallTree.allListed = true
    ∧ ∃ (es : List dirEntry) (n : Nat), ∀ fuel, n ≤ fuel →
      RecurReadDir (fakeReaderDirFunc "r".toList smallTree) "r".toList none [] 0 fuel
          = WalkResult.returned es none
      ∧ RecurReadDir (fakeReaderDirFunc "r".toList smallTree) "r".toList
            (some (fun p => decide (p ≠ "r/a".toList))) [] 0 fuel
          = WalkResult.returned (es.filter (fun e => decide (e.Name ≠ "r/a".toList))) none :=
  ⟨by decide, by decide,
   RecurReadDir_matcher_filters (fakeReaderDirFunc "r".toList smallTree) "r".toList smallTree
     (fun p => decide (p ≠ "r/a".toList)) [] (by decide) (by decide) (Or.inl rfl)⟩

/-- C7: when the listing of some directory fails, the unmarked walk without limit
returns the error of the first failing directory in pre-order, together with the
entries the matcher accepts among the nodes up to and including that directory;
when the listing of the root fails it returns that error and no entry. -/
theorem RecurReadDir_listing_failure
    (readDir : List Char → Except OSError (List FileInfo)) (root : List Char) (f : Forest)
    (matcher : Option (List Char → Bool)) (hl : f.listedAt readDir root = true) (fuel : Nat)
    (hf : f.height < fuel) :
    RecurReadDir readDir root matcher [] 0 fuel
        = WalkResult.returned
            (((upToFailure (f.preorder root)).map Visit.entry).filter (keptBy matcher))
            (firstFailure (f.preorder root))
    ∧ ∀ (failing : List Char → Except OSError (List FileInfo)) (e : OSError),
        failing root = Except.error e →
          RecurReadDir failing root matcher [] 0 fuel = WalkResult.returned [] (some e) := by
  refine ⟨?_, ?_⟩
  · have h0 := base_appendReadDir_forest
      { dir := root, matcher := matcher, marker := [], maxEntries := 0, readDirFunc := readDir }
      f fuel root [] hl hf
    have h := recurReadDir_of_base (recurDirReader.mk root matcher [] 0 readDir) fuel _ _
      (by simpa [recurDirReader.recurReadDir, recurDirReader.base] using h0)
    rw [RecurReadDir, h]
    simp [recurDirReader.limited, recurDirReader.hasReachedLimit]
  · intro failing e he
    obtain ⟨fuel2, rfl⟩ : ∃ k, fuel = k + 1 := ⟨fuel - 1, by omega⟩
    simp [RecurReadDir, recurDirReader.recurReadDir, recurDirReader.appendReadDir, he]

/-- A use of `RecurReadDir_listing_failure` on the tree with the file `a`, the
unlistable directory `bad` and the file `z`. -/
theorem RecurReadDir_listing_failure_witness :
    brokenTree.listedAt (fakeReaderDirFunc "r".toList brokenTree) "r".toList = true
    ∧ brokenTree.height < 3
    ∧ RecurReadDir (fakeReaderDirFunc "r".toList brokenTree) "r".toList none [] 0 3
        = WalkResult.returned
            (((upToFailure (brokenTree.preorder "r".toList)).map Visit.entry).filter (keptBy none))
            (firstFailure (brokenTree.preorder "r".toList)) :=
  ⟨by decide, by decide,
   (RecurReadDir_listing_failure (fakeReaderDirFunc "r".toList brokenTree) "r".toList brokenTree
      none (by decide) 3 (by decide)).1⟩

theorem indexOfName_not_found (infos : List FileInfo) (name : List Char)
    (h : ∀ i ∈ infos, i.name ≠ name) : indexOfName infos name = infos.length := by
  induction infos with
  | nil => rfl
  | cons i rest ih =>
    have h1 : i.name ≠ name := h i (List.mem_cons_self _ _)
    have h2 := ih (fun j hj => h j (List.mem_cons_of_mem _ hj))
    simp [indexOfName, h1, h2]

/-- C8 (counterexample): on the tree `r/a/b/c`, `r/z`, the walk resumed after the
marker `r/q`, which the listing of `r` does not contain, stops on a run-time panic;
it does not return an error. -/
theorem missing_marker_panics :
    RecurReadDir (fakeReaderDirFunc "r".toList smallTree) "r".toList none "r/q".toList 0 5
        = WalkResult.panic
    ∧ ¬ ∃ (es : List dirEntry) (err : OSError),
        RecurReadDir (fakeReaderDirFunc "r".toList smallTree) "r".toList none "r/q".toList 0 5
          = WalkResult.returned es (some err) := by
  have h1 : RecurReadDir (fakeReaderDirFunc "r".toList smallTree) "r".toList none
      "r/q".toList 0 5 = WalkResult.panic := by decide
  refine ⟨h1, ?_⟩
  rintro ⟨es, err, h⟩
  rw [h1] at h
  cases h

/-- C8 (amended): for every non-empty marker whose base name does not occur in the
successful listing of its parent directory, the walk stops on an index out of
range (a run-time panic): it returns neither entries nor an error value. -/
theorem RecurReadDir_missing_marker (readDir : List Char → Except OSError (List FileInfo))
    (dir : List Char) (matcher : Option (List Char → Bool)) (marker : List Char)
    (maxEntries : Int) (infos : List FileInfo) (hm : marker ≠ [])
    (hl : readDir (path.Dir marker) = Except.ok infos)
    (hn : ∀ i ∈ infos, i.name ≠ path.Base marker) (fuel : Nat) :
    RecurReadDir readDir dir matcher marker maxEntries (fuel + 1) = WalkResult.panic := by
  have hi := indexOfName_not_found infos (path.Base marker) hn
  simp only [RecurReadDir, recurDirReader.recurReadDir, ne_eq, hm, not_false_eq_true, if_true]
  rw [appendReadDirAfterMarker_succ]
  simp [hl, hi]

/-- A use of `RecurReadDir_missing_marker` on the tree `r/a/b/c`, `r/z` with the marker `r/q`. -/
theorem RecurReadDir_missing_marker_witness :
    "r/q".toList ≠ []
    ∧ fakeReaderDirFunc "r".toList smallTree (path.Dir "r/q".toList)
        = Except.ok [fakeDir "a", fakeFile "z"]
    ∧ (∀ i ∈ [fakeDir "a", fakeFile "z"], i.name ≠ path.Base "r/q".toList)
    ∧ RecurReadDir (fakeReaderDirFunc "r".toList smallTree) "r".toList none "r/q".toList 0 (4 + 1)
        = WalkResult.panic :=
  ⟨by decide, by decide, by decide,
   RecurReadDir_missing_marker (fakeReaderDirFunc "r".toList smallTree) "r".toList none
     "r/q".toList 0 [fakeDir "a", fakeFile "z"] (by decide) (by decide) (by decide) 4⟩

/-- C9 (failing input): the walk of the root `./archive` returns entries whose
names start with `archive/`, not with `./archive`: `path.Join` cleans the path. -/
theorem unclean_root_changes_names :
    RecurReadDir (fakeReaderDirFunc "./archive".toList smallTree) "./archive".toList none [] 0 5
        = WalkResult.returned
            [dirEntryOf "archive/a", dirEntryOf "archive/a/b", fileEntry "archive/a/b/c",
             fileEntry "archive/z"] none
    ∧ strings.HasPrefix (dirEntryOf "archive/a").Name "./archive".toList = false := by
  decide

/-- C10 (failing input): the pattern `a)b` uses no glob syntax, but `NewMatcher`
fails on it with a parse error of the regular expression, because the replacer
does not escape `)`; so no matcher accepts the path `a)b`. -/
theorem pattern_with_rightParen_fails :
    NewMatcher ["a)b".toList] [] = Except.error RegexpError.unexpectedParen
    ∧ ¬ MatchesPattern "a)b".toList "a)b".toList := by
  refine ⟨by decide, ?_⟩
  rw [matchesPattern_iff]
  simp

end Paths

namespace Paths

/-! ## The positions an expression reaches are those of its words -/

theorem starEnds_sound (f : Pos → List Pos) (A : List Char → Prop)
    (hf : ∀ p q, q ∈ f p → Pos.Reaches A p q) :
    ∀ (n : Nat) (p q : Pos), q ∈ starEnds f n p →
      ∃ ws : List (List Char), (∀ x ∈ ws, A x) ∧ p.rest = ws.flatten ++ q.rest
        ∧ q.index = p.index + ws.flatten.length := by
  intro n
  induction n with
  | zero =>
    intro p q h
    simp only [starEnds, List.mem_singleton] at h
    subst h
    exact ⟨[], by simp, by simp, by simp⟩
  | succ n ih =>
    intro p q h
    simp only [starEnds, List.mem_cons, List.mem_flatMap, List.mem_filter] at h
    rcases h with h | ⟨m, ⟨hm, _⟩, hq⟩
    · subst h
      exact ⟨[], by simp, by simp, by simp⟩
    · obtain ⟨w, hw, hr, hi⟩ := hf p m hm
      obtain ⟨ws, hws, hr2, hi2⟩ := ih m q hq
      refine ⟨w :: ws, ?_, ?_, ?_⟩
      · intro x hx
        rcases List.mem_cons.mp hx with rfl | hx
        · exact hw
        · exact hws x hx
      · simp [hr, hr2]
      · simp only [List.flatten_cons, List.length_append]
        omega

theorem starEnds_complete (f : Pos → List Pos) (A : List Char → Prop)
    (hf : ∀ p q, Pos.Reaches A p q → q ∈ f p) :
    ∀ (ws : List (List Char)), (∀ x ∈ ws, A x) → ∀ (n : Nat) (p q : Pos),
      p.rest.length ≤ n → p.rest = ws.flatten ++ q.rest → q.index = p.index + ws.flatten.length →
      q ∈ starEnds f n p := by
  intro ws
  induction ws with
  | nil =>
    intro _ n p q _ hr hi
    have e : q = p := by
      obtain ⟨qi, qr⟩ := q
      obtain ⟨i, r⟩ := p
      simp only [List.flatten_nil, List.nil_append, List.length_nil, Nat.add_zero] at hr hi
      subst hr
      subst hi
      rfl
    subst e
    cases n <;> simp [starEnds]
  | cons w ws ih =>
    intro hA n p q hn hr hi
    have hA2 : ∀ x ∈ ws, A x := fun x hx => hA x (List.mem_cons_of_mem _ hx)
    by_cases hw : w = []
    · subst hw
      exact ih hA2 n p q hn (by simpa using hr) (by simpa using hi)
    · have hwl : 0 < w.length := List.length_pos.mpr hw
      have hlen : p.rest.length = w.length + (ws.flatten ++ q.rest).length := by
        rw [hr]
        simp [List.length_append, Nat.add_assoc]
      cases n with
      | zero => omega
      | succ n =>
        simp only [starEnds, List.mem_cons, List.mem_flatMap, List.mem_filter]
        right
        refine ⟨{ index := p.index + w.length, rest := ws.flatten ++ q.rest }, ⟨?_, ?_⟩, ?_⟩
        · exact hf p _ ⟨w, hA w (List.mem_cons_self _ _), by simp [hr], rfl⟩
        · simp only [decide_eq_true_eq]
          omega
        · apply ih hA2 n _ q
          · simp only
            omega
          · rfl
          · simp only [List.flatten_cons, List.length_append] at hi
            simp only
            omega

theorem ends_iff (r : Regexp) : r.noAnchors = true → ∀ (p q : Pos),
    q ∈ r.ends p ↔ Pos.Reaches r.Accepts p q := by
  induction r with
  | emptyMatch =>
    intro _ p q
    simp only [Regexp.ends, List.mem_singleton, Pos.Reaches, Regexp.Accepts]
    obtain ⟨qi, qr⟩ := q
    obtain ⟨i, r⟩ := p
    constructor
    · intro h
      cases h
      exact ⟨[], rfl, rfl, rfl⟩
    · rintro ⟨w, rfl, h1, h2⟩
      simp only [List.nil_append, List.length_nil, Nat.add_zero] at h1 h2
      subst h1
      subst h2
      rfl
  | literal c =>
    intro _ p q
    obtain ⟨qi, qr⟩ := q
    obtain ⟨i, r⟩ := p
    simp only [Regexp.ends, Pos.Reaches, Regexp.Accepts]
    cases r with
    | nil => simp
    | cons x xs =>
      by_cases hx : x = c
      · subst hx
        simp only [if_true, List.mem_singleton, Pos.mk.injEq]
        constructor
        · rintro ⟨rfl, rfl⟩
          exact ⟨[x], rfl, rfl, rfl⟩
        · rintro ⟨w, rfl, h1, h2⟩
          simp only [List.singleton_append, List.cons.injEq, true_and] at h1
          exact ⟨h2, h1.symm⟩
      · simp only [hx, if_false, List.not_mem_nil, false_iff]
        rintro ⟨w, rfl, h1, _⟩
        simp only [List.singleton_append, List.cons.injEq] at h1
        exact hx h1.1
  | anyCharNotNL =>
    intro _ p q
    obtain ⟨qi, qr⟩ := q
    obtain ⟨i, r⟩ := p
    simp only [Regexp.ends, Pos.Reaches, Regexp.Accepts]
    cases r with
    | nil =>
      simp only [List.not_mem_nil, false_iff]
      rintro ⟨w, ⟨y, _, rfl⟩, h1, _⟩
      simp at h1
    | cons x xs =>
      by_cases hx : x = '\n'
      · simp only [hx, if_true, List.not_mem_nil, false_iff]
        rintro ⟨w, ⟨y, hy, rfl⟩, h1, _⟩
        simp only [List.singleton_append, List.cons.injEq] at h1
        exact hy h1.1.symm
      · simp only [hx, if_false, List.mem_singleton, Pos.mk.injEq]
        constructor
        · rintro ⟨rfl, rfl⟩
          exact ⟨[x], ⟨x, hx, rfl⟩, rfl, rfl⟩
        · rintro ⟨w, ⟨y, _, rfl⟩, h1, h2⟩
          simp only [List.singleton_append, List.cons.injEq] at h1
          exact ⟨h2, h1.2.symm⟩
  | notChar c =>
    intro _ p q
    obtain ⟨qi, qr⟩ := q
    obtain ⟨i, r⟩ := p
    simp only [Regexp.ends, Pos.Reaches, Regexp.Accepts]
    cases r with
    | nil =>
      simp only [List.not_mem_nil, false_iff]
      rintro ⟨w, ⟨y, _, rfl⟩, h1, _⟩
      simp at h1
    | cons x xs =>
      by_cases hx : x = c
      · simp only [hx, if_true, List.not_mem_nil, false_iff]
        rintro ⟨w, ⟨y, hy, rfl⟩, h1, _⟩
        simp only [List.singleton_append, List.cons.injEq] at h1
        exact hy h1.1.symm
      · simp only [hx, if_false, List.mem_singleton, Pos.mk.injEq]
        constructor
        · rintro ⟨rfl, rfl⟩
          exact ⟨[x], ⟨x, hx, rfl⟩, rfl, rfl⟩
        · rintro ⟨w, ⟨y, _, rfl⟩, h1, h2⟩
          simp only [List.singleton_append, List.cons.injEq] at h1
          exact ⟨h2, h1.2.symm⟩
  | beginText => intro h; simp [Regexp.noAnchors] at h
  | endText => intro h; simp [Regexp.noAnchors] at h
  | capture r ih =>
    intro h p q
    simp only [Regexp.ends, Regexp.Accepts]
    exact ih h p q
  | star r ih =>
    intro h p q
    have ih2 := ih h
    simp only [Regexp.ends]
    constructor
    · intro hq
      obtain ⟨ws, h1, h2, h3⟩ :=
        starEnds_sound r.ends r.Accepts (fun a b hb => (ih2 a b).mp hb) _ p q hq
      exact ⟨ws.flatten, ⟨ws, h1, rfl⟩, h2, h3⟩
    · rintro ⟨w, ⟨ws, h1, rfl⟩, h2, h3⟩
      exact starEnds_complete r.ends r.Accepts (fun a b hb => (ih2 a b).mpr hb) ws h1 _ p q
        (Nat.le_refl _) h2 h3
  | plus r ih =>
    intro h p q
    have ih2 := ih h
    simp only [Regexp.ends, List.mem_flatMap]
    constructor
    · rintro ⟨m, hm, hq⟩
      obtain ⟨u, hu, hr, hi⟩ := (ih2 p m).mp hm
      obtain ⟨ws, h1, h2, h3⟩ :=
        starEnds_sound r.ends r.Accepts (fun a b hb => (ih2 a b).mp hb) _ m q hq
      refine ⟨u ++ ws.flatten, ⟨u, ws, hu, h1, rfl⟩, ?_, ?_⟩
      · simp [hr, h2]
      · simp only [List.length_append]
        omega
    · rintro ⟨w, ⟨u, ws, hu, h1, rfl⟩, h2, h3⟩
      refine ⟨{ index := p.index + u.length, rest := ws.flatten ++ q.rest }, ?_, ?_⟩
      · exact (ih2 p _).mpr ⟨u, hu, by simp [h2], rfl⟩
      · apply starEnds_complete r.ends r.Accepts (fun a b hb => (ih2 a b).mpr hb) ws h1 _ _ q
          (Nat.le_refl _) rfl
        simp only [List.length_append] at h3
        simp only
        omega
  | quest r ih =>
    intro h p q
    have ih2 := ih h
    simp only [Regexp.ends, List.mem_cons, Regexp.Accepts, Pos.Reaches]
    constructor
    · rintro (rfl | hq)
      · exact ⟨[], Or.inl rfl, rfl, rfl⟩
      · obtain ⟨w, hw, h2, h3⟩ := (ih2 p q).mp hq
        exact ⟨w, Or.inr hw, h2, h3⟩
    · rintro ⟨w, hw | hw, h2, h3⟩
      · left
        subst hw
        obtain ⟨qi, qr⟩ := q
        obtain ⟨i, r⟩ := p
        simp only [List.nil_append, List.length_nil, Nat.add_zero] at h2 h3
        subst h2
        subst h3
        rfl
      · right
        exact (ih2 p q).mpr ⟨w, hw, h2, h3⟩
  | concat a b iha ihb =>
    intro h p q
    simp only [Regexp.noAnchors, Bool.and_eq_true] at h
    have ia := iha h.1
    have ib := ihb h.2
    simp only [Regexp.ends, List.mem_flatMap]
    constructor
    · rintro ⟨m, hm, hq⟩
      obtain ⟨u, hu, h2, h3⟩ := (ia p m).mp hm
      obtain ⟨v, hv, h4, h5⟩ := (ib m q).mp hq
      refine ⟨u ++ v, ⟨u, v, hu, hv, rfl⟩, ?_, ?_⟩
      · simp [h2, h4]
      · simp only [List.length_append]
        omega
    · rintro ⟨w, ⟨u, v, hu, hv, rfl⟩, h2, h3⟩
      refine ⟨{ index := p.index + u.length, rest := v ++ q.rest }, ?_, ?_⟩
      · exact (ia p _).mpr ⟨u, hu, by simp [h2], rfl⟩
      · refine (ib _ q).mpr ⟨v, hv, rfl, ?_⟩
        simp only [List.length_append] at h3
        simp only
        omega
  | alternate a b iha ihb =>
    intro h p q
    simp only [Regexp.noAnchors, Bool.and_eq_true] at h
    simp only [Regexp.ends, List.mem_append, iha h.1 p q, ihb h.2 p q, Pos.Reaches,
      Regexp.Accepts]
    constructor
    · rintro (⟨w, hw, h2, h3⟩ | ⟨w, hw, h2, h3⟩)
      · exact ⟨w, Or.inl hw, h2, h3⟩
      · exact ⟨w, Or.inr hw, h2, h3⟩
    · rintro ⟨w, hw | hw, h2, h3⟩
      · exact Or.inl ⟨w, hw, h2, h3⟩
      · exact Or.inr ⟨w, hw, h2, h3⟩

theorem fullMatch_iff (r : Regexp) (h : r.noAnchors = true) (s : List Char) :
    r.fullMatch s = true ↔ r.Accepts s := by
  simp only [Regexp.fullMatch, List.any_eq_true, List.isEmpty_eq_true]
  constructor
  · rintro ⟨q, hq, hr⟩
    obtain ⟨w, hw, h2, _⟩ := (ends_iff r h _ q).mp hq
    simp only [hr, List.append_nil] at h2
    subst h2
    exact hw
  · intro hs
    exact ⟨{ index := s.length, rest := [] },
      (ends_iff r h _ _).mpr ⟨s, hs, by simp, by simp⟩, rfl⟩

end Paths

namespace Paths

/-! ## The words of the items of a pattern -/

theorem words_nil (w : List Char) : Words [] w ↔ w = [] := by
  simp [Words, Regexp.concatOf, Regexp.Accepts]

theorem words_cons (r : Regexp) (rs : List Regexp) (w : List Char) :
    Words (r :: rs) w ↔ ∃ u v, r.Accepts u ∧ Words rs v ∧ w = u ++ v := by
  cases rs with
  | nil =>
    simp only [Words, Regexp.concatOf, Regexp.Accepts]
    constructor
    · intro h
      exact ⟨w, [], h, rfl, by simp⟩
    · rintro ⟨u, v, hu, rfl, rfl⟩
      simpa using hu
  | cons r2 rs => simp only [Words, Regexp.concatOf, Regexp.Accepts]

theorem words_append (a b : List Regexp) : ∀ (w : List Char),
    Words (a ++ b) w ↔ ∃ u v, Words a u ∧ Words b v ∧ w = u ++ v := by
  induction a with
  | nil =>
    intro w
    simp only [List.nil_append, words_nil]
    constructor
    · intro h
      exact ⟨[], w, rfl, h, rfl⟩
    · rintro ⟨u, v, rfl, hv, rfl⟩
      simpa using hv
  | cons r rs ih =>
    intro w
    simp only [List.cons_append, words_cons, ih]
    constructor
    · rintro ⟨u, v, hu, ⟨u2, v2, h1, h2, rfl⟩, rfl⟩
      exact ⟨u ++ u2, v2, ⟨u, u2, hu, h1, rfl⟩, h2, by simp⟩
    · rintro ⟨u, v, ⟨u1, u2, h1, h2, rfl⟩, hv, rfl⟩
      exact ⟨u1, u2 ++ v, h1, ⟨u2, v, h2, hv, rfl⟩, by simp⟩

theorem words_singleton (r : Regexp) (w : List Char) : Words [r] w ↔ r.Accepts w := by
  simp [Words, Regexp.concatOf]

theorem words_literals (p : List Char) : ∀ (w : List Char),
    Words (p.map Regexp.literal) w ↔ w = p := by
  induction p with
  | nil => intro w; simp [words_nil]
  | cons c t ih =>
    intro w
    simp only [List.map_cons, words_cons, ih, Regexp.Accepts]
    constructor
    · rintro ⟨u, v, rfl, rfl, rfl⟩
      rfl
    · rintro rfl
      exact ⟨[c], t, rfl, rfl, rfl⟩

theorem noAnchors_concatOf (rs : List Regexp) (h : ∀ r ∈ rs, r.noAnchors = true) :
    (Regexp.concatOf rs).noAnchors = true := by
  induction rs with
  | nil => rfl
  | cons r rs ih =>
    cases rs with
    | nil => exact h r (List.mem_cons_self _ _)
    | cons r2 rs =>
      simp only [Regexp.concatOf, Regexp.noAnchors, Bool.and_eq_true]
      exact ⟨h r (List.mem_cons_self _ _), ih (fun x hx => h x (List.mem_cons_of_mem _ hx))⟩

theorem noAnchors_replacedItems : ∀ (n : Nat) (skip : Nat) (p : List Char), p.length ≤ n →
    ∀ r ∈ replacedItems skip p, r.noAnchors = true := by
  intro n
  induction n with
  | zero =>
    intro skip p hp r hr
    have : p = [] := List.length_eq_zero.mp (by omega)
    subst this
    simp [replacedItems] at hr
  | succ n ih =>
    intro skip p hp r hr
    cases p with
    | nil => simp [replacedItems] at hr
    | cons c t =>
      have ht : t.length ≤ n := by simpa using hp
      cases skip with
      | succ k =>
        rw [replacedItems] at hr
        exact ih k t ht r hr
      | zero =>
        rw [replacedItems] at hr
        split_ifs at hr
        · simp only [List.cons_append, List.nil_append, List.mem_cons] at hr
          rcases hr with rfl | rfl | hr
          · rfl
          · rfl
          · exact ih 3 t ht r hr
        · rcases List.mem_cons.mp hr with rfl | hr
          · rfl
          · exact ih 0 t ht r hr
        · rcases List.mem_cons.mp hr with rfl | hr
          · rfl
          · exact ih 0 t ht r hr
        · rcases List.mem_cons.mp hr with rfl | hr
          · rfl
          · exact ih 0 t ht r hr

theorem noAnchors_globItems (p : List Char) : ∀ r ∈ globItems p, r.noAnchors = true := by
  intro r hr
  simp only [globItems, List.mem_append] at hr
  rcases hr with (hr | hr) | hr
  · split_ifs at hr
    · rw [List.mem_singleton] at hr
      subst hr
      rfl
    · simp at hr
  · exact noAnchors_replacedItems _ 0 _ (Nat.le_refl _) r hr
  · split_ifs at hr
    · rw [List.mem_singleton] at hr
      subst hr
      rfl
    · simp at hr

theorem globMatch_iff (pattern s : List Char) :
    globMatch pattern s = true ↔ Words (globItems pattern) s :=
  fullMatch_iff _ (noAnchors_concatOf _ (noAnchors_globItems pattern)) s

theorem accepts_star_class (A : List Char → Prop) (ok : Char → Prop)
    (hA : ∀ w, A w ↔ ∃ x, ok x ∧ w = [x]) (w : List Char) :
    (∃ ws : List (List Char), (∀ x ∈ ws, A x) ∧ w = ws.flatten) ↔ ∀ x ∈ w, ok x := by
  constructor
  · rintro ⟨ws, hws, rfl⟩
    intro x hx
    obtain ⟨l, hl, hxl⟩ := List.mem_flatten.mp hx
    obtain ⟨y, hy, rfl⟩ := (hA l).mp (hws l hl)
    rw [List.mem_singleton] at hxl
    subst hxl
    exact hy
  · intro h
    refine ⟨w.map (fun x => [x]), ?_, ?_⟩
    · intro l hl
      obtain ⟨x, hx, rfl⟩ := List.mem_map.mp hl
      exact (hA [x]).mpr ⟨x, h x hx, rfl⟩
    · induction w with
      | nil => rfl
      | cons c t ih =>
        simp only [List.map_cons, List.flatten_cons, List.singleton_append, List.cons.injEq,
          true_and]
        exact ih (fun x hx => h x (List.mem_cons_of_mem _ hx))

theorem accepts_star_notChar (c : Char) (w : List Char) :
    (Regexp.star (Regexp.notChar c)).Accepts w ↔ c ∉ w := by
  simp only [Regexp.Accepts]
  rw [accepts_star_class (fun w => ∃ x, x ≠ c ∧ w = [x]) (fun x => x ≠ c) (fun _ => Iff.rfl)]
  constructor
  · intro h hc
    exact h c hc rfl
  · intro h x hx hxc
    exact h (hxc ▸ hx)

theorem accepts_plus_any (w : List Char) :
    (Regexp.plus Regexp.anyCharNotNL).Accepts w ↔ w ≠ [] ∧ '\n' ∉ w := by
  simp only [Regexp.Accepts]
  constructor
  · rintro ⟨u, ws, ⟨x, hx, rfl⟩, hws, rfl⟩
    have h2 := (accepts_star_class (fun w => ∃ x, x ≠ '\n' ∧ w = [x]) (fun x => x ≠ '\n')
      (fun _ => Iff.rfl) ws.flatten).mp ⟨ws, hws, rfl⟩
    refine ⟨by simp, ?_⟩
    intro hn
    simp only [List.singleton_append, List.mem_cons] at hn
    rcases hn with hn | hn
    · exact hx hn.symm
    · exact h2 _ hn rfl
  · rintro ⟨hne, hn⟩
    cases w with
    | nil => exact absurd rfl hne
    | cons x t =>
      simp only [List.mem_cons, not_or] at hn
      obtain ⟨ws, hws, ht⟩ := (accepts_star_class (fun w => ∃ x, x ≠ '\n' ∧ w = [x])
        (fun x => x ≠ '\n') (fun _ => Iff.rfl) t).mpr
          (fun y hy hyn => hn.2 (hyn ▸ hy))
      exact ⟨[x], ws, ⟨x, fun h => hn.1 h.symm, rfl⟩, hws, by simp [ht]⟩

theorem accepts_dirsItem (w : List Char) :
    dirsItem.Accepts w ↔ w = [] ∨ ∃ d, d ≠ [] ∧ '\n' ∉ d ∧ w = d ++ ['/'] := by
  have hp := accepts_plus_any
  simp only [Regexp.Accepts] at hp
  simp only [dirsItem, Regexp.Accepts, hp]
  constructor
  · rintro (h | ⟨u, v, ⟨h1, h2⟩, rfl, rfl⟩)
    · exact Or.inl h
    · exact Or.inr ⟨u, h1, h2, rfl⟩
  · rintro (h | ⟨d, h1, h2, rfl⟩)
    · exact Or.inl h
    · exact Or.inr ⟨d, ['/'], ⟨h1, h2⟩, rfl, rfl⟩

theorem accepts_belowItem (w : List Char) :
    belowItem.Accepts w ↔ w = [] ∨ ∃ r, r ≠ [] ∧ '\n' ∉ r ∧ w = '/' :: r := by
  have hp := accepts_plus_any
  simp only [Regexp.Accepts] at hp
  simp only [belowItem, Regexp.Accepts, hp]
  constructor
  · rintro (h | ⟨u, v, rfl, ⟨h1, h2⟩, rfl⟩)
    · exact Or.inl h
    · exact Or.inr ⟨v, h1, h2, rfl⟩
  · rintro (h | ⟨d, h1, h2, rfl⟩)
    · exact Or.inl h
    · exact Or.inr ⟨['/'], d, rfl, ⟨h1, h2⟩, rfl⟩

end Paths

namespace Paths

/-! ## The items of patterns of a given shape -/

theorem globItems_eq (p : List Char) :
    globItems p = (if strings.HasPrefix p "**/".toList then [dirsItem] else [])
      ++ tailItems (globTail p) := by
  simp only [globItems, globHasDirs, globCore, globHasBelow, tailItems, List.append_assoc]

theorem globItems_dirs (t : List Char) :
    globItems ("**/".toList ++ t) = dirsItem :: tailItems t := by
  have h : strings.HasPrefix ("**/".toList ++ t) "**/".toList = true := by
    simp [strings.HasPrefix]
  rw [globItems_eq, globTail, if_pos h, if_pos h]
  simp

theorem globItems_nodirs (p : List Char) (h : strings.HasPrefix p "**/".toList = false) :
    globItems p = tailItems p := by
  have h2 : ¬ strings.HasPrefix p "**/".toList = true := by
    rw [h]
    exact Bool.false_ne_true
  rw [globItems_eq, globTail, if_neg h2, if_neg h2]
  rfl

theorem hasPrefix_stars_false (p : List Char) (h : ∀ c, p.head? = some c → c ≠ '*') :
    strings.HasPrefix p "**/".toList = false := by
  cases p with
  | nil => rfl
  | cons c t =>
    have hc := h c rfl
    have hc2 : ¬ '*' = c := fun e => hc e.symm
    simp [strings.HasPrefix, List.isPrefixOf, hc2]

theorem hasSuffix_iff (t s : List Char) :
    strings.HasSuffix t s = (s.reverse).isPrefixOf t.reverse := rfl

theorem hasSuffix_slash_false (t : List Char) (h : ∀ c, t.getLast? = some c → c ≠ '/') :
    strings.HasSuffix t "/".toList = false := by
  rw [hasSuffix_iff]
  rcases List.eq_nil_or_concat t with rfl | ⟨L, b, rfl⟩
  · rfl
  · have hb := h b (by simp)
    have hb2 : ¬ '/' = b := fun e => hb e.symm
    simp [List.isPrefixOf, hb2]

theorem hasSuffix_below_false (t : List Char) (h : ∀ c, t.getLast? = some c → c ≠ '*') :
    strings.HasSuffix t "/**".toList = false := by
  rw [hasSuffix_iff]
  rcases List.eq_nil_or_concat t with rfl | ⟨L, b, rfl⟩
  · rfl
  · have hb := h b (by simp)
    have hb2 : ¬ '*' = b := fun e => hb e.symm
    simp [List.isPrefixOf, hb2]

theorem tailItems_plain (t : List Char) (h1 : strings.HasSuffix t "/".toList = false)
    (h2 : strings.HasSuffix t "/**".toList = false) : tailItems t = replacedItems 0 t := by
  have h3 : strings.HasSuffix t ['/'] = false := h1
  have h4 : strings.HasSuffix t ['/', '*', '*'] = false := h2
  simp [tailItems, h3, h4]

theorem tailItems_slash (b : List Char) :
    tailItems (b ++ "/".toList) = replacedItems 0 b ++ [belowItem] := by
  have h : strings.HasSuffix (b ++ ['/']) ['/'] = true := by
    simp [hasSuffix_iff, List.isPrefixOf]
  simp [tailItems, h]

theorem tailItems_below (b : List Char) :
    tailItems (b ++ "/**".toList) = replacedItems 0 b ++ [belowItem] := by
  have h1 : strings.HasSuffix (b ++ ['/', '*', '*']) ['/'] = false := by
    simp [hasSuffix_iff, List.isPrefixOf]
  have h2 : strings.HasSuffix (b ++ ['/', '*', '*']) ['/', '*', '*'] = true := by
    simp [hasSuffix_iff, List.isPrefixOf]
  simp [tailItems, h1, h2]

theorem replacedItems_append (u rest : List Char) (h1 : '*' ∉ u) (h2 : '?' ∉ u)
    (h3 : ("**/".toList).isPrefixOf rest = false) :
    replacedItems 0 (u ++ rest) = u.map Regexp.literal ++ replacedItems 0 rest := by
  induction u with
  | nil => rfl
  | cons c t ih =>
    simp only [List.mem_cons, not_or] at h1 h2
    have hpre : ¬ (c = '/' ∧ ("**/".toList).isPrefixOf (t ++ rest) = true) := by
      rintro ⟨_, h⟩
      cases t with
      | nil =>
        rw [List.nil_append, h3] at h
        exact Bool.false_ne_true h
      | cons c2 t2 =>
        obtain ⟨t3, ht3⟩ := isPrefixOf_stars _ h
        simp only [List.cons_append, List.cons.injEq] at ht3
        exact h1.2 (ht3.1 ▸ List.mem_cons_self _ _)
    rw [List.cons_append, replacedItems, if_neg hpre, if_neg (fun h => h1.1 h.symm),
      if_neg (fun h => h2.1 h.symm), ih h1.2 h2.2]
    rfl

theorem replacedItems_star (v : List Char) :
    replacedItems 0 ('*' :: v) = Regexp.star (Regexp.notChar '/') :: replacedItems 0 v := by
  rw [replacedItems, if_neg (fun h => absurd h.1 (by decide)), if_pos rfl]

theorem replacedItems_quest (v : List Char) :
    replacedItems 0 ('?' :: v) = Regexp.notChar '/' :: replacedItems 0 v := by
  rw [replacedItems, if_neg (fun h => absurd h.1 (by decide)), if_neg (by decide), if_pos rfl]

theorem replacedItems_dirs (b : List Char) :
    replacedItems 0 ("/**/".toList ++ b)
      = Regexp.literal '/' :: dirsItem :: replacedItems 0 b := by
  have h : '/' = '/' ∧ ("**/".toList).isPrefixOf ("**/".toList ++ b) = true := by
    simp
  show replacedItems 0 ('/' :: ("**/".toList ++ b)) = _
  rw [replacedItems, if_pos h]
  simp [replacedItems]

/-! ## Plain strings -/

theorem isPlain_mem (s : List Char) (h : isPlain s = true) (c : Char) (hc : c ∈ s) :
    isPlainChar c = true := by
  simp only [isPlain, List.all_eq_true] at h
  exact h c hc

theorem isPlain_free (s : List Char) (h : isPlain s = true) :
    '*' ∉ s ∧ '?' ∉ s ∧ ')' ∉ s ∧ '\n' ∉ s :=
  ⟨fun hc => absurd (isPlain_mem s h _ hc) (by decide),
   fun hc => absurd (isPlain_mem s h _ hc) (by decide),
   fun hc => absurd (isPlain_mem s h _ hc) (by decide),
   fun hc => absurd (isPlain_mem s h _ hc) (by decide)⟩

theorem isPlainName_plain (s : List Char) (h : isPlainName s = true) :
    isPlain s = true ∧ '/' ∉ s := by
  simp only [isPlainName, List.all_eq_true] at h
  refine ⟨?_, fun hc => absurd (h _ hc) (by decide)⟩
  simp only [isPlain, List.all_eq_true]
  intro c hc
  simp [isPlainChar, h c hc]

end Paths

namespace Paths

/-! ## Patterns with one `*` or `?`, with `**/`, `/`, `/**` and `/**/` -/

theorem stars_prefix_count (l : List Char) (h : ("**/".toList).isPrefixOf l = true) :
    2 ≤ l.count '*' := by
  obtain ⟨t, rfl⟩ := isPrefixOf_stars l h
  simp [List.count_cons]

theorem count_star_zero (u : List Char) (h : '*' ∉ u) : u.count '*' = 0 :=
  List.count_eq_zero.mpr h

theorem hasPrefix_stars_count (p : List Char) (h : p.count '*' < 2) :
    strings.HasPrefix p "**/".toList = false := by
  cases hp : strings.HasPrefix p "**/".toList with
  | false => rfl
  | true =>
    have := stars_prefix_count p hp
    omega

theorem last_ne_slash (v : List Char) (hs : strings.HasSuffix v "/".toList = false) :
    ∀ c, v.getLast? = some c → c ≠ '/' := by
  intro c hc e
  subst e
  rcases List.eq_nil_or_concat v with rfl | ⟨L, b, rfl⟩
  · simp at hc
  · simp only [List.concat_eq_append, List.getLast?_concat, Option.some.injEq] at hc
    subst hc
    simp [hasSuffix_iff, List.isPrefixOf] at hs

theorem last_of_mem (v : List Char) (c : Char) (h : v.getLast? = some c) : c ∈ v :=
  List.mem_of_getLast?_eq_some h

theorem getLast_append_cons (u v : List Char) (x c : Char)
    (h : (u ++ x :: v).getLast? = some c) : (v = [] ∧ c = x) ∨ v.getLast? = some c := by
  by_cases hv : v = []
  · left
    subst hv
    rw [List.getLast?_concat, Option.some.injEq] at h
    exact ⟨rfl, h.symm⟩
  · right
    rw [List.getLast?_append_of_ne_nil u (List.cons_ne_nil x v), List.getLast?_cons] at h
    cases hl : v.getLast? with
    | none => exact absurd (List.getLast?_eq_none_iff.mp hl) hv
    | some y =>
      rw [hl] at h
      simpa using h

theorem items_one (u v : List Char) (x : Char) (item : Regexp) (hx : x = '*' ∨ x = '?')
    (hi : replacedItems 0 (x :: v) = item :: replacedItems 0 v)
    (hu : isPlain u = true) (hv : isPlain v = true)
    (hs : strings.HasSuffix v "/".toList = false) :
    globItems (u ++ x :: v) = u.map Regexp.literal ++ item :: v.map Regexp.literal := by
  obtain ⟨hu1, hu2, _, _⟩ := isPlain_free u hu
  obtain ⟨hv1, hv2, _, _⟩ := isPlain_free v hv
  have hcount : (u ++ x :: v).count '*' < 2 := by
    rw [List.count_append, List.count_cons, count_star_zero u hu1, count_star_zero v hv1]
    split_ifs <;> omega
  have hcount2 : (x :: v).count '*' < 2 := by
    rw [List.count_cons, count_star_zero v hv1]
    split_ifs <;> omega
  have hx2 : x ≠ '/' := by
    rcases hx with rfl | rfl <;> decide
  have h1 : strings.HasSuffix (u ++ x :: v) "/".toList = false := by
    apply hasSuffix_slash_false
    intro c hc
    rcases getLast_append_cons u v x c hc with ⟨_, rfl⟩ | h
    · exact hx2
    · exact last_ne_slash v hs c h
  have h2 : strings.HasSuffix (u ++ x :: v) "/**".toList = false := by
    cases hp : strings.HasSuffix (u ++ x :: v) "/**".toList with
    | false => rfl
    | true =>
      simp only [strings.HasSuffix, List.isSuffixOf_iff_suffix] at hp
      obtain ⟨t, ht⟩ := hp
      have : (t ++ "/**".toList).count '*' < 2 := ht ▸ hcount
      simp [List.count_append, List.count_cons] at this
  have h3 : ("**/".toList).isPrefixOf (x :: v) = false := by
    cases hp : ("**/".toList).isPrefixOf (x :: v) with
    | false => rfl
    | true =>
      have := stars_prefix_count _ hp
      omega
  rw [globItems_nodirs _ (hasPrefix_stars_count _ hcount), tailItems_plain _ h1 h2,
    replacedItems_append u _ hu1 hu2 h3, hi, replacedItems_literal v hv1 hv2]

theorem not_mem_append_cons (u v : List Char) (x c : Char) (hu : c ∉ u) (hv : c ∉ v)
    (hx : c ≠ x) : c ∉ u ++ x :: v := by
  simp only [List.mem_append, List.mem_cons, not_or]
  exact ⟨hu, hx, hv⟩

theorem matches_one (u v : List Char) (x : Char) (item : Regexp) (hx : x = '*' ∨ x = '?')
    (hi : replacedItems 0 (x :: v) = item :: replacedItems 0 v)
    (hu : isPlain u = true) (hv : isPlain v = true)
    (hs : strings.HasSuffix v "/".toList = false) (p : List Char) :
    MatchesPattern (u ++ x :: v) p ↔ ∃ w, item.Accepts w ∧ p = u ++ w ++ v := by
  have hparen : ')' ∉ u ++ x :: v := by
    apply not_mem_append_cons u v x ')' (isPlain_free u hu).2.2.1 (isPlain_free v hv).2.2.1
    rcases hx with rfl | rfl <;> decide
  rw [matchesPattern_iff, globMatch_iff, items_one u v x item hx hi hu hv hs]
  simp only [words_append, words_cons, words_literals]
  constructor
  · rintro ⟨_, a, b, rfl, ⟨w, c, hw, rfl, rfl⟩, rfl⟩
    exact ⟨w, hw, by simp⟩
  · rintro ⟨w, hw, rfl⟩
    exact ⟨hparen, u, w ++ v, rfl, ⟨w, v, hw, rfl, rfl⟩, by simp⟩

theorem items_dirs_name (s : List Char) (hs : isPlainName s = true) :
    globItems ("**/".toList ++ s) = dirsItem :: s.map Regexp.literal := by
  obtain ⟨hp, hsl⟩ := isPlainName_plain s hs
  obtain ⟨h1, h2, _, _⟩ := isPlain_free s hp
  rw [globItems_dirs, tailItems_plain s
      (hasSuffix_slash_false s (fun c hc e => hsl (e ▸ last_of_mem s c hc)))
      (hasSuffix_below_false s (fun c hc e => h1 (e ▸ last_of_mem s c hc))),
    replacedItems_literal s h1 h2]

theorem head_plain (d : List Char) (hd : isPlain d = true) (t : List Char) :
    ∀ c, (d ++ '/' :: t).head? = some c → c ≠ '*' := by
  intro c hc e
  subst e
  cases d with
  | nil => simp at hc
  | cons x xs =>
    simp only [List.cons_append, List.head?_cons, Option.some.injEq] at hc
    subst hc
    exact (isPlain_free _ hd).1 (List.mem_cons_self _ _)

theorem items_slash (d : List Char) (hd : isPlain d = true) :
    globItems (d ++ "/".toList) = d.map Regexp.literal ++ [belowItem] := by
  obtain ⟨h1, h2, _, _⟩ := isPlain_free d hd
  rw [globItems_nodirs (d ++ "/".toList) (hasPrefix_stars_false _ (head_plain d hd [])),
    tailItems_slash, replacedItems_literal d h1 h2]

theorem items_below (d : List Char) (hd : isPlain d = true) :
    globItems (d ++ "/**".toList) = d.map Regexp.literal ++ [belowItem] := by
  obtain ⟨h1, h2, _, _⟩ := isPlain_free d hd
  rw [globItems_nodirs (d ++ "/**".toList)
      (hasPrefix_stars_false _ (head_plain d hd ['*', '*'])),
    tailItems_below, replacedItems_literal d h1 h2]

theorem words_literals_below (d p : List Char) (hp : '\n' ∉ p) :
    Words (d.map Regexp.literal ++ [belowItem]) p
      ↔ p = d ∨ ∃ r, r ≠ [] ∧ p = d ++ "/".toList ++ r := by
  simp only [words_append, words_literals, words_singleton, accepts_belowItem]
  constructor
  · rintro ⟨a, b, rfl, rfl | ⟨r, hr, _, rfl⟩, rfl⟩
    · left
      simp
    · right
      exact ⟨r, hr, by simp⟩
  · rintro (rfl | ⟨r, hr, rfl⟩)
    · exact ⟨p, [], rfl, Or.inl rfl, by simp⟩
    · refine ⟨d, '/' :: r, rfl, Or.inr ⟨r, hr, ?_, rfl⟩, by simp⟩
      intro hn
      exact hp (by simp [hn])

theorem items_infix (a b : List Char) (ha : isPlain a = true) (hb : isPlain b = true)
    (hne : b ≠ []) (hs : strings.HasSuffix b "/".toList = false) :
    globItems (a ++ "/**/".toList ++ b)
      = a.map Regexp.literal ++ Regexp.literal '/' :: dirsItem :: b.map Regexp.literal := by
  obtain ⟨ha1, ha2, _, _⟩ := isPlain_free a ha
  obtain ⟨hb1, hb2, _, _⟩ := isPlain_free b hb
  have e : a ++ "/**/".toList ++ b = a ++ '/' :: ("**/".toList ++ b) := by simp
  have hlast : ∀ c, (a ++ "/**/".toList ++ b).getLast? = some c → b.getLast? = some c := by
    intro c hc
    rw [List.getLast?_append_of_ne_nil _ hne] at hc
    exact hc
  have h1 : strings.HasSuffix (a ++ "/**/".toList ++ b) "/".toList = false :=
    hasSuffix_slash_false _ (fun c hc => last_ne_slash b hs c (hlast c hc))
  have h2 : strings.HasSuffix (a ++ "/**/".toList ++ b) "/**".toList = false :=
    hasSuffix_below_false _ (fun c hc e => hb1 (e ▸ last_of_mem b c (hlast c hc)))
  have h3 : ("**/".toList).isPrefixOf ("/**/".toList ++ b) = false := by
    simp [List.isPrefixOf]
  rw [globItems_nodirs _ (e ▸ hasPrefix_stars_false _ (head_plain a ha _)),
    tailItems_plain _ h1 h2, List.append_assoc, replacedItems_append a _ ha1 ha2 h3,
    replacedItems_dirs, replacedItems_literal b hb1 hb2]

theorem items_infix_segment (a b : List Char) (ha : isPlain a = true) (hb : isPlain b = true) :
    globItems (a ++ "/**/".toList ++ b ++ "/*".toList)
      = a.map Regexp.literal ++ Regexp.literal '/' :: dirsItem ::
          (b.map Regexp.literal ++ [Regexp.literal '/', Regexp.star (Regexp.notChar '/')]) := by
  obtain ⟨ha1, ha2, _, _⟩ := isPlain_free a ha
  obtain ⟨hb1, hb2, _, _⟩ := isPlain_free b hb
  have e : a ++ "/**/".toList ++ b ++ "/*".toList
      = a ++ '/' :: ("**/".toList ++ b ++ "/*".toList) := by simp
  have e2 : a ++ "/**/".toList ++ b ++ "/*".toList
      = a ++ ("/**/".toList ++ (b ++ "/*".toList)) := by simp
  have h1 : strings.HasSuffix (a ++ "/**/".toList ++ b ++ "/*".toList) "/".toList = false := by
    simp [hasSuffix_iff, List.isPrefixOf]
  have h2 : strings.HasSuffix (a ++ "/**/".toList ++ b ++ "/*".toList) "/**".toList = false := by
    simp [hasSuffix_iff, List.isPrefixOf]
  have h3 : ("**/".toList).isPrefixOf ("/**/".toList ++ (b ++ "/*".toList)) = false := by
    simp [List.isPrefixOf]
  have h4 : ("**/".toList).isPrefixOf "/*".toList = false := by decide
  have h5 : replacedItems 0 "/*".toList
      = [Regexp.literal '/', Regexp.star (Regexp.notChar '/')] := by decide
  rw [globItems_nodirs _ (e ▸ hasPrefix_stars_false _ (head_plain a ha _)),
    tailItems_plain _ h1 h2, e2, replacedItems_append a _ ha1 ha2 h3,
    replacedItems_dirs, replacedItems_append b _ hb1 hb2 h4, h5]

end Paths

namespace Paths

/-! ## Claims about single patterns -/

/-- C11: for each of the characters `|`, `+`, `[`, `\x7b`, `(`, `^`, `$` and backslash,
the matcher built from the include pattern `a`, that character, `b` and no exclude
pattern is built, and it accepts a path exactly when the path is that three-character
string; in particular it accepts neither `a` nor `b`. -/
theorem escaped_meta_matches_itself (c : Char) (hc : c ∈ metaChars) :
    ∃ m : matcherRegexp, NewMatcher [['a', c, 'b']] [] = Except.ok m
      ∧ (∀ path : List Char, m.Match path = true ↔ path = ['a', c, 'b'])
      ∧ m.Match ['a'] = false ∧ m.Match ['b'] = false := by
  have h : '*' ∉ ['a', c, 'b'] ∧ '?' ∉ ['a', c, 'b'] ∧ ')' ∉ ['a', c, 'b']
      ∧ strings.HasSuffix ['a', c, 'b'] "/".toList = false := by
    simp only [metaChars, List.mem_cons, List.mem_singleton, List.not_mem_nil, or_false] at hc
    rcases hc with rfl | rfl | rfl | rfl | rfl | rfl | rfl | rfl <;> decide
  obtain ⟨m, hm, hiff⟩ := literal_pattern_matches ['a', c, 'b'] h.1 h.2.1 h.2.2.1 h.2.2.2
  refine ⟨m, hm, hiff, ?_, ?_⟩
  · cases hx : m.Match ['a'] with
    | false => rfl
    | true => exact absurd ((hiff _).mp hx) (by simp)
  · cases hx : m.Match ['b'] with
    | false => rfl
    | true => exact absurd ((hiff _).mp hx) (by simp)

/-- A use of `escaped_meta_matches_itself` on the pattern `a|b`. -/
theorem escaped_meta_matches_itself_witness :
    '|' ∈ metaChars ∧ ∃ m : matcherRegexp, NewMatcher [['a', '|', 'b']] [] = Except.ok m
      ∧ (∀ path : List Char, m.Match path = true ↔ path = ['a', '|', 'b'])
      ∧ m.Match ['a'] = false ∧ m.Match ['b'] = false :=
  ⟨by decide, escaped_meta_matches_itself '|' (by decide)⟩

/-- C12: for plain strings `u` and `v` (letters, digits, `.`, `_`, `-`, `/`), `v` not
ending in `/`, the pattern `u*v` matches `p` exactly when `p` is `u`, a run `w` without
`/` (possibly empty), `v`; and the pattern `u?v` matches `p` exactly when `p` is `u`,
one character other than `/`, `v`. -/
theorem star_quest_stay_in_segment (u v p : List Char) (hu : isPlain u = true)
    (hv : isPlain v = true) (hs : strings.HasSuffix v "/".toList = false) :
    (MatchesPattern (u ++ "*".toList ++ v) p ↔ ∃ w, '/' ∉ w ∧ p = u ++ w ++ v)
    ∧ (MatchesPattern (u ++ "?".toList ++ v) p ↔ ∃ c, c ≠ '/' ∧ p = u ++ [c] ++ v) := by
  have e1 : u ++ "*".toList ++ v = u ++ '*' :: v := by simp
  have e2 : u ++ "?".toList ++ v = u ++ '?' :: v := by simp
  rw [e1, e2, matches_one u v '*' _ (Or.inl rfl) (replacedItems_star v) hu hv hs,
    matches_one u v '?' _ (Or.inr rfl) (replacedItems_quest v) hu hv hs]
  refine ⟨?_, ?_⟩
  · simp only [accepts_star_notChar]
  · simp only [Regexp.Accepts]
    constructor
    · rintro ⟨w, ⟨c, hc, rfl⟩, rfl⟩
      exact ⟨c, hc, rfl⟩
    · rintro ⟨c, hc, rfl⟩
      exact ⟨[c], ⟨c, hc, rfl⟩, rfl⟩

/-- A use of `star_quest_stay_in_segment` on the patterns `src/*.go` and `src/?.go`. -/
theorem star_quest_stay_in_segment_witness :
    isPlain "src/".toList = true ∧ isPlain ".go".toList = true
    ∧ strings.HasSuffix ".go".toList "/".toList = false
    ∧ (MatchesPattern ("src/".toList ++ "*".toList ++ ".go".toList) "src/a/b.go".toList
        ↔ ∃ w, '/' ∉ w ∧ "src/a/b.go".toList = "src/".toList ++ w ++ ".go".toList)
    ∧ (MatchesPattern ("src/".toList ++ "?".toList ++ ".go".toList) "src/a/b.go".toList
        ↔ ∃ c, c ≠ '/' ∧ "src/a/b.go".toList = "src/".toList ++ [c] ++ ".go".toList) :=
  ⟨by decide, by decide, by decide,
   star_quest_stay_in_segment "src/".toList ".go".toList "src/a/b.go".toList
     (by decide) (by decide) (by decide)⟩

/-- C13: for a plain name `s` (letters, digits, `.`, `_`, `-`) and a path `p` without
line break, the pattern `**/s` matches `p` exactly when `p` is `s` or `p` is `d/s` for
a non-empty directory prefix `d` of any depth. -/
theorem leading_dirs_pattern (s p : List Char) (hs : isPlainName s = true) (hp : '\n' ∉ p) :
    MatchesPattern ("**/".toList ++ s) p
      ↔ p = s ∨ ∃ d, d ≠ [] ∧ p = d ++ "/".toList ++ s := by
  have hparen : ')' ∉ "**/".toList ++ s := by
    have := (isPlain_free s (isPlainName_plain s hs).1).2.2.1
    simp [this]
  rw [matchesPattern_iff, globMatch_iff, items_dirs_name s hs]
  simp only [words_cons, words_literals, accepts_dirsItem]
  constructor
  · rintro ⟨_, a, b, rfl | ⟨d, hd, _, rfl⟩, rfl, rfl⟩
    · left
      simp
    · right
      exact ⟨d, hd, rfl⟩
  · rintro (rfl | ⟨d, hd, rfl⟩)
    · exact ⟨hparen, [], p, Or.inl rfl, rfl, rfl⟩
    · refine ⟨hparen, d ++ ['/'], s, Or.inr ⟨d, hd, ?_, rfl⟩, rfl, rfl⟩
      intro hn
      exact hp (by simp [hn])

/-- A use of `leading_dirs_pattern` on the pattern `**/Makefile`. -/
theorem leading_dirs_pattern_witness :
    isPlainName "Makefile".toList = true ∧ '\n' ∉ "a/b/Makefile".toList
    ∧ (MatchesPattern ("**/".toList ++ "Makefile".toList) "a/b/Makefile".toList
        ↔ "a/b/Makefile".toList = "Makefile".toList
          ∨ ∃ d, d ≠ [] ∧ "a/b/Makefile".toList = d ++ "/".toList ++ "Makefile".toList) :=
  ⟨by decide, by decide,
   leading_dirs_pattern "Makefile".toList "a/b/Makefile".toList (by decide) (by decide)⟩

/-- C14: for a plain directory path `d` (letters, digits, `.`, `_`, `-`, `/`; whether
or not it ends in `/`) and a path `p` without line break, the patterns `d/` and `d/**`
both match `p` exactly when `p` is `d` or `p` is `d/r` for a non-empty `r`. -/
theorem trailing_slash_pattern (d p : List Char) (hd : isPlain d = true) (hp : '\n' ∉ p) :
    (MatchesPattern (d ++ "/".toList) p ↔ p = d ∨ ∃ r, r ≠ [] ∧ p = d ++ "/".toList ++ r)
    ∧ (MatchesPattern (d ++ "/**".toList) p
        ↔ p = d ∨ ∃ r, r ≠ [] ∧ p = d ++ "/".toList ++ r) := by
  have hparen := (isPlain_free d hd).2.2.1
  have h1 : ')' ∉ d ++ "/".toList := by simp [hparen]
  have h2 : ')' ∉ d ++ "/**".toList := by simp [hparen]
  rw [matchesPattern_iff, globMatch_iff, items_slash d hd, matchesPattern_iff, globMatch_iff,
    items_below d hd, words_literals_below d p hp]
  exact ⟨and_iff_right h1, and_iff_right h2⟩

/-- A use of `trailing_slash_pattern` on the patterns `src/lib/` and `src/lib/**`. -/
theorem trailing_slash_pattern_witness :
    isPlain "src/lib".toList = true ∧ '\n' ∉ "src/lib/a/b.c".toList
    ∧ (MatchesPattern ("src/lib".toList ++ "/".toList) "src/lib/a/b.c".toList
        ↔ "src/lib/a/b.c".toList = "src/lib".toList
          ∨ ∃ r, r ≠ [] ∧ "src/lib/a/b.c".toList = "src/lib".toList ++ "/".toList ++ r)
    ∧ (MatchesPattern ("src/lib".toList ++ "/**".toList) "src/lib/a/b.c".toList
        ↔ "src/lib/a/b.c".toList = "src/lib".toList
          ∨ ∃ r, r ≠ [] ∧ "src/lib/a/b.c".toList = "src/lib".toList ++ "/".toList ++ r) :=
  ⟨by decide, by decide,
   trailing_slash_pattern "src/lib".toList "src/lib/a/b.c".toList (by decide) (by decide)⟩

end Paths

namespace Paths

/-! ## The infix `/**/` -/

theorem accepts_literal (c : Char) (w : List Char) : (Regexp.literal c).Accepts w ↔ w = [c] :=
  Iff.rfl

/-- C15: for plain paths `a` and `b` (letters, digits, `.`, `_`, `-`, `/`), `b` a
path, so not empty, and not ending in `/`, and a path `p` without line break, the
pattern `a/**/b` matches `p` exactly when `p` is `a/b` or `a/m/b` for a non-empty `m`;
and the pattern `a/**/b/*` matches `p` exactly when `p` is such a path followed by `/`
and one further segment `w`, which has no `/`. -/
theorem infix_dirs_pattern (a b p : List Char) (ha : isPlain a = true) (hb : isPlain b = true)
    (hne : b ≠ []) (hs : strings.HasSuffix b "/".toList = false) (hp : '\n' ∉ p) :
    (MatchesPattern (a ++ "/**/".toList ++ b) p
      ↔ p = a ++ "/".toList ++ b
        ∨ ∃ m, m ≠ [] ∧ p = a ++ "/".toList ++ m ++ "/".toList ++ b)
    ∧ (MatchesPattern (a ++ "/**/".toList ++ b ++ "/*".toList) p
      ↔ ∃ q w, (q = a ++ "/".toList ++ b
            ∨ ∃ m, m ≠ [] ∧ q = a ++ "/".toList ++ m ++ "/".toList ++ b)
          ∧ '/' ∉ w ∧ p = q ++ "/".toList ++ w) := by
  have pa := (isPlain_free a ha).2.2.1
  have pb := (isPlain_free b hb).2.2.1
  have h1 : ')' ∉ a ++ "/**/".toList ++ b := by simp [pa, pb]
  have h2 : ')' ∉ a ++ "/**/".toList ++ b ++ "/*".toList := by simp [pa, pb]
  rw [matchesPattern_iff, globMatch_iff, items_infix a b ha hb hne hs, matchesPattern_iff,
    globMatch_iff, items_infix_segment a b ha hb]
  simp only [words_append, words_cons, words_literals, words_nil, accepts_dirsItem,
    accepts_star_notChar, accepts_literal]
  refine ⟨?_, ?_⟩
  · constructor
    · rintro ⟨_, u, v, rfl, ⟨x, y, rfl, ⟨z, t, hz, rfl, rfl⟩, rfl⟩, rfl⟩
      rcases hz with rfl | ⟨m, hm, _, rfl⟩
      · left
        simp
      · right
        exact ⟨m, hm, by simp⟩
    · rintro (rfl | ⟨m, hm, rfl⟩)
      · exact ⟨h1, a, _, rfl, ⟨['/'], b, rfl, ⟨[], b, Or.inl rfl, rfl, rfl⟩, rfl⟩, by simp⟩
      · refine ⟨h1, a, _, rfl, ⟨['/'], _, rfl, ⟨m ++ ['/'], b, Or.inr ⟨m, hm, ?_, rfl⟩,
          rfl, rfl⟩, rfl⟩, by simp⟩
        intro hn
        exact hp (by simp [hn])
  · constructor
    · rintro ⟨_, u, v, rfl, ⟨x, y, rfl, ⟨z, t, hz, ⟨b2, t2, rfl, ⟨s1, s2, rfl,
        ⟨w, e, hw, rfl, rfl⟩, rfl⟩, rfl⟩, rfl⟩, rfl⟩, rfl⟩
      rcases hz with rfl | ⟨m, hm, _, rfl⟩
      · exact ⟨_, w, Or.inl rfl, hw, by simp⟩
      · exact ⟨_, w, Or.inr ⟨m, hm, rfl⟩, hw, by simp⟩
    · rintro ⟨q, w, hq, hw, rfl⟩
      rcases hq with rfl | ⟨m, hm, rfl⟩
      · exact ⟨h2, a, _, rfl, ⟨['/'], _, rfl, ⟨[], _, Or.inl rfl, ⟨b, _, rfl, ⟨['/'], _, rfl,
          ⟨w, [], hw, rfl, rfl⟩, rfl⟩, rfl⟩, rfl⟩, rfl⟩, by simp⟩
      · refine ⟨h2, a, _, rfl, ⟨['/'], _, rfl, ⟨m ++ ['/'], _, Or.inr ⟨m, hm, ?_, rfl⟩,
          ⟨b, _, rfl, ⟨['/'], _, rfl, ⟨w, [], hw, rfl, rfl⟩, rfl⟩, rfl⟩, rfl⟩, rfl⟩, by simp⟩
        intro hn
        exact hp (by simp [hn])

/-- A use of `infix_dirs_pattern` on the patterns `org/apache/**/CVS` and
`org/apache/**/CVS/*`. -/
theorem infix_dirs_pattern_witness :
    isPlain "org/apache".toList = true ∧ isPlain "CVS".toList = true ∧ "CVS".toList ≠ []
    ∧ strings.HasSuffix "CVS".toList "/".toList = false
    ∧ '\n' ∉ "org/apache/CVS/foo/bar/Entries".toList
    ∧ (MatchesPattern ("org/apache".toList ++ "/**/".toList ++ "CVS".toList)
          "org/apache/CVS/foo/bar/Entries".toList
        ↔ "org/apache/CVS/foo/bar/Entries".toList = "org/apache".toList ++ "/".toList ++ "CVS".toList
          ∨ ∃ m, m ≠ [] ∧ "org/apache/CVS/foo/bar/Entries".toList
              = "org/apache".toList ++ "/".toList ++ m ++ "/".toList ++ "CVS".toList)
    ∧ (MatchesPattern ("org/apache".toList ++ "/**/".toList ++ "CVS".toList ++ "/*".toList)
          "org/apache/CVS/foo/bar/Entries".toList
        ↔ ∃ q w, (q = "org/apache".toList ++ "/".toList ++ "CVS".toList
              ∨ ∃ m, m ≠ [] ∧ q = "org/apache".toList ++ "/".toList ++ m ++ "/".toList
                  ++ "CVS".toList)
            ∧ '/' ∉ w ∧ "org/apache/CVS/foo/bar/Entries".toList = q ++ "/".toList ++ w) :=
  ⟨by decide, by decide, by decide, by decide, by decide,
   infix_dirs_pattern "org/apache".toList "CVS".toList "org/apache/CVS/foo/bar/Entries".toList
     (by decide) (by decide) (by decide) (by decide) (by decide)⟩

end Paths

namespace Paths

/-! ## The default excludes -/

theorem defaultExcludes_built : NewMatcher [] DefaultExcludes = Except.ok defaultMatcher := by
  have e : convertGlobs DefaultExcludes
      = Except.ok (some (anchored (globsBody DefaultExcludes))) :=
    convertGlobs_ok DefaultExcludes (by decide) (by decide)
  simp [NewMatcher, e, convertGlobs_nil, defaultMatcher]

theorem defaultMatcher_match (p : List Char) :
    defaultMatcher.Match p = !(DefaultExcludes.any (fun pat => globMatch pat p)) := by
  simp only [defaultMatcher, matcherRegexp.Match, Bool.true_and, matchString_anchored,
    fullMatch_globsBody DefaultExcludes (by decide)]

theorem excluded_of (pat p : List Char) (hm : pat ∈ DefaultExcludes)
    (hw : Words (globItems pat) p) : defaultMatcher.Match p = false := by
  rw [defaultMatcher_match, Bool.not_eq_false', List.any_eq_true]
  exact ⟨pat, hm, (globMatch_iff pat p).mpr hw⟩

theorem words_dirs_noslash (X : List Regexp) (n : List Char) (hn : '/' ∉ n) :
    Words (dirsItem :: X) n ↔ Words X n := by
  simp only [words_cons, accepts_dirsItem]
  constructor
  · rintro ⟨u, v, rfl | ⟨d, _, _, rfl⟩, hv, rfl⟩
    · simpa using hv
    · exact absurd (by simp) hn
  · intro h
    exact ⟨[], n, Or.inl rfl, h, rfl⟩

theorem words_below_noslash (X : List Regexp) (n : List Char) (hn : '/' ∉ n) :
    Words (X ++ [belowItem]) n ↔ Words X n := by
  simp only [words_append, words_singleton, accepts_belowItem]
  constructor
  · rintro ⟨u, v, hu, rfl | ⟨d, _, _, rfl⟩, rfl⟩
    · simpa using hu
    · exact absurd (by simp) hn
  · intro h
    exact ⟨n, [], h, Or.inl rfl, by simp⟩

theorem noMatch_lit (pat s n : List Char)
    (hi : globItems pat = dirsItem :: s.map Regexp.literal) (hn : '/' ∉ n) (hne : n ≠ s) :
    globMatch pat n = false := by
  rw [← Bool.not_eq_true, globMatch_iff, hi, words_dirs_noslash _ n hn, words_literals]
  exact hne

theorem noMatch_dir (pat s n : List Char)
    (hi : globItems pat = dirsItem :: (s.map Regexp.literal ++ [belowItem])) (hn : '/' ∉ n)
    (hne : n ≠ s) : globMatch pat n = false := by
  rw [← Bool.not_eq_true, globMatch_iff, hi, words_dirs_noslash _ n hn,
    words_below_noslash _ n hn, words_literals]
  exact hne

theorem noMatch_star (pat u v n : List Char)
    (hi : globItems pat = dirsItem :: (u.map Regexp.literal
      ++ Regexp.star (Regexp.notChar '/') :: v.map Regexp.literal))
    (hn : '/' ∉ n) (hne : ∀ x, n ≠ u ++ x ++ v) : globMatch pat n = false := by
  rw [← Bool.not_eq_true, globMatch_iff, hi, words_dirs_noslash _ n hn]
  simp only [words_append, words_cons, words_literals]
  rintro ⟨a, b, rfl, ⟨x, y, _, rfl, rfl⟩, rfl⟩
  exact hne x (by simp)

/-! ### Names of Go source files -/

theorem goName_noslash (w : List Char) (hw : w.all Char.isAlphanum = true) :
    '/' ∉ w ++ ".go".toList := by
  simp only [List.all_eq_true] at hw
  intro h
  rcases List.mem_append.mp h with h | h
  · exact absurd (hw _ h) (by decide)
  · exact absurd h (by decide)

theorem goName_ne (w s : List Char) (h : (".go".toList).isSuffixOf s = false) :
    w ++ ".go".toList ≠ s := by
  intro e
  subst e
  have : (".go".toList).isSuffixOf (w ++ ".go".toList) = true :=
    List.isSuffixOf_iff_suffix.mpr (List.suffix_append _ _)
  rw [this] at h
  exact Bool.noConfusion h

theorem goName_last (w u x L : List Char) (c : Char) (hc : c ≠ 'o') :
    w ++ ".go".toList ≠ u ++ x ++ (L ++ [c]) := by
  intro e
  have h1 : (w ++ ".go".toList).getLast? = some 'o' := by
    rw [List.getLast?_append_of_ne_nil _ (by decide)]
    rfl
  have h2 : (u ++ x ++ (L ++ [c])).getLast? = some c := by
    rw [← List.append_assoc, List.getLast?_concat]
  rw [e, h2, Option.some.injEq] at h1
  exact hc h1

theorem goName_first (w x : List Char) (c : Char) (hw : w.all Char.isAlphanum = true)
    (hc : c ≠ 'g') : w ++ ".go".toList ≠ '.' :: c :: x := by
  intro e
  cases w with
  | nil =>
    simp only [List.nil_append] at e
    have : 'g' = c := by
      have e2 : ".go".toList = ['.', 'g', 'o'] := rfl
      rw [e2] at e
      simp only [List.cons.injEq, true_and] at e
      exact e.1
    exact hc this.symm
  | cons y ys =>
    simp only [List.all_cons, Bool.and_eq_true] at hw
    simp only [List.cons_append, List.cons.injEq] at e
    rw [e.1] at hw
    exact absurd hw.1 (by decide)

theorem goName_accepted (w : List Char) (hw : w.all Char.isAlphanum = true) :
    defaultMatcher.Match (w ++ ".go".toList) = true := by
  have hn := goName_noslash w hw
  have h1 := noMatch_star "**/*~".toList [] ['~'] _ (by decide) hn
    (fun x => goName_last w [] x [] '~' (by decide))
  have h2 := noMatch_star "**/#*#".toList ['#'] ['#'] _ (by decide) hn
    (fun x => goName_last w ['#'] x [] '#' (by decide))
  have h3 := noMatch_star "**/.#*".toList ['.', '#'] [] _ (by decide) hn
    (fun x => by simpa using goName_first w x '#' hw (by decide))
  have h4 := noMatch_star "**/%*%".toList ['%'] ['%'] _ (by decide) hn
    (fun x => goName_last w ['%'] x [] '%' (by decide))
  have h5 := noMatch_star "**/._*".toList ['.', '_'] [] _ (by decide) hn
    (fun x => by simpa using goName_first w x '_' hw (by decide))
  have h6 := noMatch_dir "**/CVS/**".toList "CVS".toList _ (by decide) hn
    (goName_ne w _ (by decide))
  have h7 := noMatch_lit "**/.cvsignore".toList ".cvsignore".toList _ (by decide) hn
    (goName_ne w _ (by decide))
  have h8 := noMatch_dir "**/SCCS/**".toList "SCCS".toList _ (by decide) hn
    (goName_ne w _ (by decide))
  have h9 := noMatch_lit "**/vssver.scc".toList "vssver.scc".toList _ (by decide) hn
    (goName_ne w _ (by decide))
  have h10 := noMatch_dir "**/.svn/**".toList ".svn".toList _ (by decide) hn
    (goName_ne w _ (by decide))
  have h11 := noMatch_lit "**/.DS_Store".toList ".DS_Store".toList _ (by decide) hn
    (goName_ne w _ (by decide))
  have h12 := noMatch_dir "**/.git/**".toList ".git".toList _ (by decide) hn
    (goName_ne w _ (by decide))
  have h13 := noMatch_lit "**/.gitattributes".toList ".gitattributes".toList _ (by decide) hn
    (goName_ne w _ (by decide))
  have h14 := noMatch_lit "**/.gitignore".toList ".gitignore".toList _ (by decide) hn
    (goName_ne w _ (by decide))
  have h15 := noMatch_lit "**/.gitmodules".toList ".gitmodules".toList _ (by decide) hn
    (goName_ne w _ (by decide))
  have h16 := noMatch_dir "**/.hg/**".toList ".hg".toList _ (by decide) hn
    (goName_ne w _ (by decide))
  have h17 := noMatch_lit "**/.hgignore".toList ".hgignore".toList _ (by decide) hn
    (goName_ne w _ (by decide))
  have h18 := noMatch_lit "**/.hgsub".toList ".hgsub".toList _ (by decide) hn
    (goName_ne w _ (by decide))
  have h19 := noMatch_lit "**/.hgsubstate".toList ".hgsubstate".toList _ (by decide) hn
    (goName_ne w _ (by decide))
  have h20 := noMatch_lit "**/.hgtags".toList ".hgtags".toList _ (by decide) hn
    (goName_ne w _ (by decide))
  have h21 := noMatch_dir "**/.bzr/**".toList ".bzr".toList _ (by decide) hn
    (goName_ne w _ (by decide))
  have h22 := noMatch_lit "**/.bzrignore".toList ".bzrignore".toList _ (by decide) hn
    (goName_ne w _ (by decide))
  rw [defaultMatcher_match]
  simp only [DefaultExcludes, List.map_cons, List.map_nil, List.any_cons, List.any_nil, h1, h2,
    h3, h4, h5, h6, h7, h8, h9, h10, h11, h12, h13, h14, h15, h16, h17, h18, h19, h20, h21, h22,
    Bool.or_false, Bool.not_false]

theorem words_tilde (pre seg : List Char) (hpre : dirsItem.Accepts pre) (hseg : '/' ∉ seg) :
    Words (globItems "**/*~".toList) (pre ++ seg ++ "~".toList) := by
  have hi : globItems "**/*~".toList
      = [dirsItem, Regexp.star (Regexp.notChar '/'), Regexp.literal '~'] := by decide
  rw [hi]
  simp only [words_cons, words_nil, accepts_star_notChar, accepts_literal]
  exact ⟨pre, seg ++ ['~'], hpre, ⟨seg, ['~'], hseg, ⟨['~'], [], rfl, rfl, rfl⟩, rfl⟩, by simp⟩

theorem words_svn (pre post : List Char) (hpre : dirsItem.Accepts pre)
    (hpost : belowItem.Accepts post) :
    Words (globItems "**/.svn/**".toList) (pre ++ ".svn".toList ++ post) := by
  have hi : globItems "**/.svn/**".toList
      = dirsItem :: (".svn".toList.map Regexp.literal ++ [belowItem]) := by decide
  rw [hi]
  simp only [words_cons, words_append, words_literals, words_nil]
  exact ⟨pre, ".svn".toList ++ post, hpre,
    ⟨".svn".toList, post, rfl, ⟨post, [], hpost, rfl, by simp⟩, rfl⟩, by simp⟩

/-- C16 (counterexample): the last segment of the path `/x~` is `x~`, which ends in
`~`, and the path `/.svn/format` lies under a directory named `.svn`; the matcher built
from no include pattern and `DefaultExcludes` accepts both, because the `**/` of a
pattern stands for nothing or for a non-empty prefix followed by `/`. It also accepts
`a/x~` when a line break stands in the directory name, here between `a` and `b`. -/
theorem default_excludes_accept_root_backup :
    lastSegment "/x~".toList = "x~".toList
    ∧ strings.HasSuffix "x~".toList "~".toList = true
    ∧ ∃ m : matcherRegexp, NewMatcher [] DefaultExcludes = Except.ok m
        ∧ m.Match "/x~".toList = true
        ∧ m.Match "/.svn/format".toList = true
        ∧ m.Match "a\nb/x~".toList = true := by
  refine ⟨by decide, by decide, defaultMatcher, defaultExcludes_built, ?_, ?_, ?_⟩
  · rw [defaultMatcher_match]
    decide
  · rw [defaultMatcher_match]
    decide
  · rw [defaultMatcher_match]
    decide

/-- C16, for paths whose directory part is empty or a non-empty prefix without line
break: the matcher of no include pattern and `DefaultExcludes` is built; it rejects
`seg~` and `d/seg~` for every segment `seg`; it rejects `.svn`, `d/.svn`, `.svn/r` and
`d/.svn/r` for every non-empty `r` without line break; and it accepts every name made
of letters and digits followed by `.go`. -/
theorem default_excludes_decide (d seg r w : List Char) (hseg : '/' ∉ seg) (hd : d ≠ [])
    (hdn : '\n' ∉ d) (hr : r ≠ []) (hrn : '\n' ∉ r) (hw : w.all Char.isAlphanum = true) :
    ∃ m : matcherRegexp, NewMatcher [] DefaultExcludes = Except.ok m
      ∧ m.Match (seg ++ "~".toList) = false
      ∧ m.Match (d ++ "/".toList ++ seg ++ "~".toList) = false
      ∧ m.Match ".svn".toList = false
      ∧ m.Match (d ++ "/".toList ++ ".svn".toList) = false
      ∧ m.Match (".svn".toList ++ "/".toList ++ r) = false
      ∧ m.Match (d ++ "/".toList ++ ".svn".toList ++ "/".toList ++ r) = false
      ∧ m.Match (w ++ ".go".toList) = true := by
  have hpre : dirsItem.Accepts (d ++ ['/']) :=
    (accepts_dirsItem _).mpr (Or.inr ⟨d, hd, hdn, rfl⟩)
  have hpre0 : dirsItem.Accepts [] := (accepts_dirsItem _).mpr (Or.inl rfl)
  have hpost : belowItem.Accepts ('/' :: r) :=
    (accepts_belowItem _).mpr (Or.inr ⟨r, hr, hrn, rfl⟩)
  have hpost0 : belowItem.Accepts [] := (accepts_belowItem _).mpr (Or.inl rfl)
  have m1 : "**/*~".toList ∈ DefaultExcludes := by decide
  have m2 : "**/.svn/**".toList ∈ DefaultExcludes := by decide
  refine ⟨defaultMatcher, defaultExcludes_built, ?_, ?_, ?_, ?_, ?_, ?_, goName_accepted w hw⟩
  · have := excluded_of _ _ m1 (words_tilde [] seg hpre0 hseg)
    simpa using this
  · have := excluded_of _ _ m1 (words_tilde (d ++ ['/']) seg hpre hseg)
    simpa using this
  · have := excluded_of _ _ m2 (words_svn [] [] hpre0 hpost0)
    simpa using this
  · have := excluded_of _ _ m2 (words_svn (d ++ ['/']) [] hpre hpost0)
    simpa using this
  · have := excluded_of _ _ m2 (words_svn [] ('/' :: r) hpre0 hpost)
    simpa using this
  · have := excluded_of _ _ m2 (words_svn (d ++ ['/']) ('/' :: r) hpre hpost)
    simpa using this

/-- A use of `default_excludes_decide` on the paths of `TestDefaultExcludes`. -/
theorem default_excludes_decide_witness :
    '/' ∉ "bar.go".toList ∧ "foo".toList ≠ [] ∧ '\n' ∉ "foo".toList ∧ "format".toList ≠ []
    ∧ '\n' ∉ "format".toList ∧ "foo".toList.all Char.isAlphanum = true
    ∧ ∃ m : matcherRegexp, NewMatcher [] DefaultExcludes = Except.ok m
      ∧ m.Match ("bar.go".toList ++ "~".toList) = false
      ∧ m.Match ("foo".toList ++ "/".toList ++ "bar.go".toList ++ "~".toList) = false
      ∧ m.Match ".svn".toList = false
      ∧ m.Match ("foo".toList ++ "/".toList ++ ".svn".toList) = false
      ∧ m.Match (".svn".toList ++ "/".toList ++ "format".toList) = false
      ∧ m.Match ("foo".toList ++ "/".toList ++ ".svn".toList ++ "/".toList ++ "format".toList)
          = false
      ∧ m.Match ("foo".toList ++ ".go".toList) = true :=
  ⟨by decide, by decide, by decide, by decide, by decide, by decide,
   default_excludes_decide "foo".toList "bar.go".toList "format".toList "foo".toList
     (by decide) (by decide) (by decide) (by decide) (by decide) (by decide)⟩

end Paths

namespace Paths

/-! ## Every entry comes from a listing -/

theorem keeps_return (r : recurDirReader) (e : Option OSError) :
    KeepsListed r (fun es => WalkResult.returned es e) := by
  intro es es1 err h hes
  simp only [WalkResult.returned.injEq] at h
  rw [← h.1]
  exact hes

theorem keeps_panic (r : recurDirReader) : KeepsListed r (fun _ => WalkResult.panic) := by
  intro es es1 err h
  cases h

theorem keeps_outOfFuel (r : recurDirReader) :
    KeepsListed r (fun _ => WalkResult.outOfFuel) := by
  intro es es1 err h
  cases h

theorem keeps_andThen (r : recurDirReader) (x k : List dirEntry → WalkResult)
    (hx : KeepsListed r x) (hk : KeepsListed r k) :
    KeepsListed r (fun es => (x es).andThen r k) := by
  intro es es1 err h hes
  simp only at h
  cases hxe : x es with
  | panic => simp [hxe, WalkResult.andThen] at h
  | outOfFuel => simp [hxe, WalkResult.andThen] at h
  | returned es2 err2 =>
    have h2 := hx es es2 err2 hxe hes
    simp only [hxe, WalkResult.andThen] at h
    split_ifs at h
    · simp only [WalkResult.returned.injEq] at h
      rw [← h.1]
      exact h2
    · exact hk es2 es1 err h h2

theorem keeps_processFileInfosWith (r : recurDirReader)
    (sub : List Char → List dirEntry → WalkResult) (hsub : ∀ d, KeepsListed r (sub d))
    (dirname : List Char) (whole : List FileInfo)
    (hw : r.readDirFunc dirname = Except.ok whole) :
    ∀ (infos : List FileInfo), (∀ i ∈ infos, i ∈ whole) →
      KeepsListed r (r.processFileInfosWith sub dirname infos) := by
  intro infos
  induction infos with
  | nil =>
    intro _
    exact keeps_return r none
  | cons info infos ih =>
    intro hin
    have ih2 := ih (fun i hi => hin i (List.mem_cons_of_mem _ hi))
    have hloop : KeepsListed r
        (if info.isDir then
          (fun es2 => (sub (path.Join [dirname, info.name]) es2).andThen r
            (r.processFileInfosWith sub dirname infos))
         else r.processFileInfosWith sub dirname infos) := by
      by_cases hd : info.isDir = true
      · simp only [hd, if_true]
        exact keeps_andThen r _ _ (hsub _) ih2
      · simp only [hd, if_false]
        exact ih2
    have hnew : FromListing r.readDirFunc (entryFor dirname info) :=
      ⟨dirname, whole, info, hw, hin info (List.mem_cons_self _ _), rfl⟩
    intro es es1 err h hes
    have hes2 : ∀ e ∈ es ++ [entryFor dirname info], FromListing r.readDirFunc e := by
      intro e he
      rcases List.mem_append.mp he with he | he
      · exact hes e he
      · rw [List.mem_singleton] at he
        rw [he]
        exact hnew
    rw [processFileInfosWith_cons] at h
    by_cases hk : keptBy r.matcher (entryFor dirname info) = true
    · rw [if_pos hk] at h
      by_cases hr : r.hasReachedLimit (es ++ [entryFor dirname info]) = true
      · rw [if_pos hr] at h
        simp only [WalkResult.returned.injEq] at h
        rw [← h.1]
        exact hes2
      · rw [if_neg hr] at h
        exact hloop _ es1 err h hes2
    · rw [if_neg hk] at h
      exact hloop _ es1 err h hes

theorem keeps_appendReadDir (r : recurDirReader) (fuel : Nat) : ∀ (dirname : List Char),
    KeepsListed r (r.appendReadDir fuel dirname) := by
  induction fuel with
  | zero =>
    intro dirname
    exact keeps_outOfFuel r
  | succ fuel ih =>
    intro dirname
    have er : r.appendReadDir (fuel + 1) dirname = fun entries =>
        match r.readDirFunc dirname with
        | Except.error e => WalkResult.returned entries (some e)
        | Except.ok infos =>
          r.processFileInfosWith (r.appendReadDir fuel) dirname infos entries := rfl
    rw [er]
    cases hrd : r.readDirFunc dirname with
    | error e => exact keeps_return r (some e)
    | ok infos =>
      exact keeps_processFileInfosWith r _ ih dirname infos hrd infos (fun _ hi => hi)

theorem keeps_processFileInfos (r : recurDirReader) (fuel : Nat) (dirname : List Char)
    (whole : List FileInfo) (hw : r.readDirFunc dirname = Except.ok whole)
    (infos : List FileInfo) (hin : ∀ i ∈ infos, i ∈ whole) :
    KeepsListed r (r.processFileInfos fuel dirname infos) :=
  keeps_processFileInfosWith r _ (keeps_appendReadDir r fuel) dirname whole hw infos hin

theorem keeps_climbWith (r : recurDirReader)
    (sub : List Char → List dirEntry → WalkResult) (hsub : ∀ m, KeepsListed r (sub m))
    (n : Nat) : ∀ (markerDir : List Char), KeepsListed r (r.climbWith sub n markerDir) := by
  induction n with
  | zero =>
    intro markerDir
    have er : r.climbWith sub 0 markerDir = fun entries =>
        if markerDir = r.dir then WalkResult.returned entries none
        else WalkResult.outOfFuel := rfl
    rw [er]
    by_cases h : markerDir = r.dir
    · simpa [h] using keeps_return r none
    · simpa [h] using keeps_outOfFuel r
  | succ n ih =>
    intro markerDir
    have er : r.climbWith sub (n + 1) markerDir = fun entries =>
        if markerDir = r.dir then WalkResult.returned entries none
        else (sub markerDir entries).andThen r
          (r.climbWith sub n (path.Dir markerDir)) := rfl
    rw [er]
    by_cases h : markerDir = r.dir
    · simpa [h] using keeps_return r none
    · simpa [h] using keeps_andThen r _ _ (hsub markerDir) (ih (path.Dir markerDir))

theorem keeps_appendReadDirAfterMarker (r : recurDirReader) (fuel : Nat) :
    ∀ (marker : List Char), KeepsListed r (r.appendReadDirAfterMarker fuel marker) := by
  induction fuel with
  | zero =>
    intro marker
    exact keeps_outOfFuel r
  | succ fuel ih =>
    intro marker
    rw [appendReadDirAfterMarker_succ]
    cases hrd : r.readDirFunc (path.Dir marker) with
    | error e => exact keeps_return r (some e)
    | ok infos =>
      have hsib : KeepsListed r
          (fun entries1 =>
            if indexOfName infos (path.Base marker) + 1 > infos.length then WalkResult.panic
            else (r.processFileInfos fuel (path.Dir marker)
                (infos.drop (indexOfName infos (path.Base marker) + 1)) entries1).andThen r
              (r.climbWith (r.appendReadDirAfterMarker fuel) fuel (path.Dir marker))) := by
        by_cases hi : indexOfName infos (path.Base marker) + 1 > infos.length
        · simpa [hi] using keeps_panic r
        · simpa [hi] using keeps_andThen r _ _
            (keeps_processFileInfos r fuel (path.Dir marker) infos hrd
              (infos.drop (indexOfName infos (path.Base marker) + 1))
              (fun i hi => List.mem_of_mem_drop hi))
            (keeps_climbWith r _ ih fuel (path.Dir marker))
      by_cases hm : marker = r.marker
      · simp only [hm, if_true]
        rw [hm] at hsib
        cases infos.get? (indexOfName infos (path.Base r.marker)) with
        | none => exact keeps_panic r
        | some info =>
          by_cases hd : info.isDir = true
          · simp only [hd, if_true]
            cases hrd2 : r.readDirFunc r.marker with
            | error e => exact keeps_return r (some e)
            | ok subinfos =>
              exact keeps_andThen r _ _
                (keeps_processFileInfos r fuel r.marker subinfos hrd2 subinfos (fun _ hi => hi))
                hsib
          · simp only [hd, if_false]
            exact hsib
      · simpa [hm] using hsib

/-- C17: every entry a walk returns (with any matcher, marker and limit, and also
next to an error) is built from one entry of a listing: some directory path was
listed successfully, one entry of that listing has the base name, and the returned
entry has the name `path.Join(that directory, that base name)` and the size, mode,
modification time and `Sys()` of the listing entry; its `IsDir()` is the directory
bit of that mode. -/
theorem entries_built_from_listings
    (readDir : List Char → Except OSError (List FileInfo)) (dir : List Char)
    (matcher : Option (List Char → Bool)) (marker : List Char) (maxEntries : Int) (fuel : Nat)
    (es : List dirEntry) (err : Option OSError)
    (h : RecurReadDir readDir dir matcher marker maxEntries fuel = WalkResult.returned es err)
    (e : dirEntry) (he : e ∈ es) :
    ∃ (dirname : List Char) (infos : List FileInfo) (info : FileInfo),
      readDir dirname = Except.ok infos ∧ info ∈ infos
      ∧ e.Name = path.Join [dirname, info.name] ∧ e.Size = info.size ∧ e.Mode = info.mode
      ∧ e.ModTime = info.modTime ∧ e.Sys = info.sys
      ∧ (e.IsDir = true ↔ info.mode &&& os.ModeDir ≠ 0) := by
  have key : ∀ x ∈ es, FromListing readDir x := by
    unfold RecurReadDir recurDirReader.recurReadDir at h
    simp only at h
    split_ifs at h
    · exact keeps_appendReadDirAfterMarker _ fuel marker [] es err h (by simp)
    · exact keeps_appendReadDir _ fuel dir [] es err h (by simp)
  obtain ⟨dirname, infos, info, h1, h2, rfl⟩ := key e he
  exact ⟨dirname, infos, info, h1, h2, rfl, rfl, rfl, rfl, rfl,
    by simp [dirEntry.IsDir, dirEntry.Mode, entryFor, os.FileMode.IsDir]⟩

/-- A use of `entries_built_from_listings` on the walk of the tree `r/a/b/c`, `r/z`
resumed after `r/a` with at most two entries. -/
theorem entries_built_from_listings_witness :
    RecurReadDir (fakeReaderDirFunc "r".toList smallTree) "r".toList none "r/a".toList 2 5
        = WalkResult.returned [dirEntryOf "r/a/b", fileEntry "r/a/b/c"] none
    ∧ dirEntryOf "r/a/b" ∈ [dirEntryOf "r/a/b", fileEntry "r/a/b/c"]
    ∧ ∃ (dirname : List Char) (infos : List FileInfo) (info : FileInfo),
        fakeReaderDirFunc "r".toList smallTree dirname = Except.ok infos ∧ info ∈ infos
        ∧ (dirEntryOf "r/a/b").Name = path.Join [dirname, info.name]
        ∧ (dirEntryOf "r/a/b").Size = info.size ∧ (dirEntryOf "r/a/b").Mode = info.mode
        ∧ (dirEntryOf "r/a/b").ModTime = info.modTime ∧ (dirEntryOf "r/a/b").Sys = info.sys
        ∧ ((dirEntryOf "r/a/b").IsDir = true ↔ info.mode &&& os.ModeDir ≠ 0) :=
  ⟨by decide, by decide,
   entries_built_from_listings (fakeReaderDirFunc "r".toList smallTree) "r".toList none
     "r/a".toList 2 5 [dirEntryOf "r/a/b", fileEntry "r/a/b/c"] none (by decide)
     (dirEntryOf "r/a/b") (by decide)⟩

/-! ## A limit and a later failure -/

/-- C20: on a tree (some of whose directories may fail to be listed), for `N > 0`
and any matcher: if the walk of the root without marker and without limit returns an
error next to a partial result of at least `N` entries, the walk with
`maxEntries = N` returns the first `N` of these entries and no error.  With `N` the
length of the partial result this is the case where the `N`-th entry is the
directory whose listing fails: its error is not returned. -/
theorem limit_hides_later_failure (readDir : List Char → Except OSError (List FileInfo))
    (root : List Char) (f : Forest) (matcher : Option (List Char → Bool)) (N fuel : Nat)
    (es : List dirEntry) (e : OSError) (hl : f.listedAt readDir root = true)
    (hf : f.height < fuel) (hN : 0 < N)
    (h0 : RecurReadDir readDir root matcher [] 0 fuel = WalkResult.returned es (some e))
    (hlen : N ≤ es.length) :
    RecurReadDir readDir root matcher [] (N : Int) fuel
      = WalkResult.returned (es.take N) none := by
  have hb := base_appendReadDir_forest
    { dir := root, matcher := matcher, marker := [], maxEntries := 0, readDirFunc := readDir }
    f fuel root [] hl hf
  have hb2 : (recurDirReader.mk root matcher [] 0 readDir).base.recurReadDir fuel
      = WalkResult.returned ([] ++ (upToFailure (f.preorder root)).map Visit.entry)
          (firstFailure (f.preorder root)) := by
    rw [recurReadDir_unmarked _ rfl]
    exact hb
  have k0 := recurReadDir_of_base (recurDirReader.mk root matcher [] 0 readDir) fuel _ _ hb2
  have kN := recurReadDir_of_base (recurDirReader.mk root matcher [] (N : Int) readDir) fuel
    _ _ hb2
  have e0 : RecurReadDir readDir root matcher [] 0 fuel
      = (recurDirReader.mk root matcher [] 0 readDir).recurReadDir fuel := rfl
  have eN : RecurReadDir readDir root matcher [] (N : Int) fuel
      = (recurDirReader.mk root matcher [] (N : Int) readDir).recurReadDir fuel := rfl
  rw [e0, k0] at h0
  simp only [recurDirReader.limited, recurDirReader.hasReachedLimit, Int.lt_irrefl,
    gt_iff_lt, decide_False, Bool.false_and, Bool.false_eq_true, if_false,
    WalkResult.returned.injEq] at h0
  rw [eN, kN, h0.1]
  have h1 : ((N : Int) > 0) := by omega
  have h2 : ((es.length : Int) ≥ (N : Int)) := by omega
  simp [recurDirReader.limited, recurDirReader.hasReachedLimit, h1, h2]

/-- A use of `limit_hides_later_failure` on the tree with the files `a` and `z` and
the directory `bad`, which cannot be listed and is the second entry. -/
theorem limit_hides_later_failure_witness :
    brokenTree.listedAt (fakeReaderDirFunc "r".toList brokenTree) "r".toList = true
    ∧ brokenTree.height < 3 ∧ 0 < 2
    ∧ RecurReadDir (fakeReaderDirFunc "r".toList brokenTree) "r".toList none [] 0 3
        = WalkResult.returned [fileEntry "r/a", dirEntryOf "r/bad"] (some { code := 13 })
    ∧ 2 ≤ [fileEntry "r/a", dirEntryOf "r/bad"].length
    ∧ RecurReadDir (fakeReaderDirFunc "r".toList brokenTree) "r".toList none [] ((2 : Nat) : Int) 3
        = WalkResult.returned ([fileEntry "r/a", dirEntryOf "r/bad"].take 2) none :=
  ⟨by decide, by decide, by decide, by decide, by decide,
   limit_hides_later_failure (fakeReaderDirFunc "r".toList brokenTree) "r".toList brokenTree
     none 2 3 [fileEntry "r/a", dirEntryOf "r/bad"] { code := 13 } (by decide) (by decide)
     (by decide) (by decide) (by decide)⟩

end Paths

namespace Paths

/-! ## The resumed walk on a finite tree: what it returns -/

theorem deeper_ne (root d : List Char) (h : Deeper root d) : d ≠ root := by
  obtain ⟨h1, h2, h3⟩ := h
  intro e
  subst e
  by_cases a : d = ['.']
  · exact h1 a
  · by_cases b : d = ['/']
    · exact h2 b
    · exact absurd (h3 a b) (Nat.lt_irrefl _)

theorem deeper_child (root d n : List Char) (hd : path.Clean d = d)
    (hn : validName n = true) (h : d = root ∨ Deeper root d) :
    Deeper root (path.Join [d, n]) := by
  obtain ⟨n1, n2, n3, n4⟩ := (validName_iff n).mp hn
  have hdne := clean_eq_ne_nil d hd
  have hnl : 0 < n.length := List.length_pos.mpr n1
  have hdl : 0 < d.length := List.length_pos.mpr hdne
  rcases (join_child d n hd hn).2 with ⟨e1, e2⟩ | ⟨e1, e2⟩ | e2
  · rw [e2]
    refine ⟨n3, ?_, ?_⟩
    · intro e
      exact n2 (by simp [e])
    · intro a b
      rcases h with h | h
      · exact absurd (h ▸ e1) a
      · exact absurd e1 h.1
  · rw [e2]
    refine ⟨by simp, ?_, ?_⟩
    · intro e
      simp only [List.cons.injEq, true_and] at e
      exact n1 e
    · intro a b
      rcases h with h | h
      · exact absurd (h ▸ e1) b
      · exact absurd e1 h.2.1
  · rw [e2]
    refine ⟨?_, ?_, ?_⟩
    · intro e
      have := congrArg List.length e
      simp at this
      omega
    · intro e
      have := congrArg List.length e
      simp at this
      omega
    · intro a b
      simp only [List.length_append, List.length_cons]
      rcases h with h | h
      · rw [h]
        omega
      · have := h.2.2 a b
        omega

theorem climbAppends_root (r : recurDirReader) : ClimbAppends r r.dir [] := by
  refine ⟨0, fun es fuel k _ _ => ?_⟩
  have hb : r.base.dir = r.dir := rfl
  cases k <;> simp [recurDirReader.climbWith, hb]

theorem climbAppends_step (r : recurDirReader) (d : List Char) (X L : List dirEntry)
    (hd : d ≠ r.dir) (h1 : ResumeAppends r d X) (h2 : ClimbAppends r (path.Dir d) L) :
    ClimbAppends r d (X ++ L) := by
  obtain ⟨n1, h1⟩ := h1
  obtain ⟨n2, h2⟩ := h2
  refine ⟨max n1 n2 + 1, fun es fuel k hf hk => ?_⟩
  obtain ⟨k2, rfl⟩ : ∃ j, k = j + 1 := ⟨k - 1, by omega⟩
  have hb : r.base.dir = r.dir := rfl
  simp only [recurDirReader.climbWith, hb, hd, if_false]
  rw [h1 es fuel (by omega), andThen_returned_none, h2 _ fuel k2 (by omega) (by omega),
    List.append_assoc]

theorem indexOfName_append (pre : List FileInfo) (info : FileInfo) (rest : List FileInfo)
    (h : ∀ i ∈ pre, i.name ≠ info.name) :
    indexOfName (pre ++ info :: rest) info.name = pre.length := by
  induction pre with
  | nil => simp [indexOfName]
  | cons i t ih =>
    have h1 : i.name ≠ info.name := h i (List.mem_cons_self _ _)
    have e : indexOfName (i :: (t ++ info :: rest)) info.name
        = indexOfName (t ++ info :: rest) info.name + 1 := by
      simp [indexOfName, h1]
    rw [List.cons_append, e, ih (fun j hj => h j (List.mem_cons_of_mem _ hj))]
    rfl

/-- Resuming after a child of a clean directory: its content when it is the marker
and a directory, then the siblings after it, then what the climb appends. -/
theorem resumeAppends_child (r : recurDirReader) (d : List Char) (pre : List FileInfo)
    (info : FileInfo) (sub rest : Forest) (L : List dirEntry)
    (hd : path.Clean d = d) (hn : validName info.name = true)
    (hw : r.readDirFunc d = Except.ok (pre ++ info :: rest.infos))
    (hpre : ∀ i ∈ pre, i.name ≠ info.name)
    (hlr : rest.listedBelow r.readDirFunc d = true) (har : rest.allListed = true)
    (hsub : info.isDir = true →
      r.readDirFunc (path.Join [d, info.name]) = Except.ok sub.infos
      ∧ sub.listedBelow r.readDirFunc (path.Join [d, info.name]) = true
      ∧ sub.allListed = true)
    (hc : ClimbAppends r d L) :
    ResumeAppends r (path.Join [d, info.name])
      ((if path.Join [d, info.name] = r.marker ∧ info.isDir = true then
          (sub.preorder (path.Join [d, info.name])).map Visit.entry else [])
        ++ (rest.preorder d).map Visit.entry ++ L) := by
  obtain ⟨nc, hc⟩ := hc
  obtain ⟨_, hdir, hbase⟩ := path_child d info.name hd hn
  have hidx := indexOfName_append pre info rest.infos hpre
  have hget : (pre ++ info :: rest.infos).get? (indexOfName (pre ++ info :: rest.infos) info.name)
      = some info := by
    rw [hidx, List.get?_eq_getElem?, List.getElem?_append_right (Nat.le_refl _)]
    simp
  have hdrop : (pre ++ info :: rest.infos).drop
      (indexOfName (pre ++ info :: rest.infos) info.name + 1) = rest.infos := by
    rw [hidx]
    simp
  have hi : ¬ (indexOfName (pre ++ info :: rest.infos) info.name + 1
      > (pre ++ info :: rest.infos).length) := by
    rw [hidx]
    simp
  have hb1 : r.base.readDirFunc = r.readDirFunc := rfl
  have hb2 : r.base.marker = r.marker := rfl
  refine ⟨max (max sub.height rest.height) nc + 1, fun es fuel hf => ?_⟩
  have hsib : ∀ es1 fuel, max (max sub.height rest.height) nc ≤ fuel →
      (r.base.processFileInfos fuel d rest.infos es1).andThen
        r.base (r.base.climbWith (r.base.appendReadDirAfterMarker fuel) fuel d)
        = WalkResult.returned (es1 ++ (rest.preorder d).map Visit.entry ++ L) none := by
    intro es1 fuel hf
    rw [base_processFileInfos_allListed r rest fuel d es1 hlr har (by omega),
      andThen_returned_none]
    exact hc _ fuel fuel (by omega) (by omega)
  obtain ⟨fuel2, rfl⟩ : ∃ k, fuel = k + 1 := ⟨fuel - 1, by omega⟩
  rw [appendReadDirAfterMarker_succ]
  simp only [hdir, hbase, hb1, hb2, hw, hget, hi, if_false, hdrop]
  by_cases hm : path.Join [d, info.name] = r.marker ∧ info.isDir = true
  · obtain ⟨a, b, c⟩ := hsub hm.2
    rw [if_pos hm.1, if_pos hm.2, a, if_pos hm]
    simp only
    rw [base_processFileInfos_allListed r sub fuel2 _ es b c (by omega), andThen_returned_none,
      hsib _ fuel2 (by omega)]
    simp [List.append_assoc]
  · rw [if_neg hm]
    by_cases hm1 : path.Join [d, info.name] = r.marker
    · have hm2 : ¬ info.isDir = true := fun hx => hm ⟨hm1, hx⟩
      rw [if_pos hm1, if_neg hm2, hsib _ fuel2 (by omega)]
      simp [List.append_assoc]
    · rw [if_neg hm1, hsib _ fuel2 (by omega)]
      simp [List.append_assoc]

theorem visitsAfter_append (marker : List Char) (a b : List Visit) :
    visitsAfter marker (a ++ b)
      = match visitsAfter marker a with
        | some x => some (x ++ b)
        | none => visitsAfter marker b := by
  induction a with
  | nil => rfl
  | cons v vs ih =>
    simp only [List.cons_append, visitsAfter]
    by_cases h : v.entry.Name = marker
    · simp [h]
    · simp only [h, if_false]
      exact ih

theorem visitsAfter_split (marker : List Char) : ∀ (l after : List Visit),
    visitsAfter marker l = some after →
    ∃ before v, l = before ++ v :: after ∧ v.entry.Name = marker
      ∧ ∀ u ∈ before, u.entry.Name ≠ marker := by
  intro l
  induction l with
  | nil => intro after h; simp [visitsAfter] at h
  | cons v vs ih =>
    intro after h
    simp only [visitsAfter] at h
    by_cases hv : v.entry.Name = marker
    · simp only [hv, if_true, Option.some.injEq] at h
      subst h
      exact ⟨[], v, rfl, hv, by simp⟩
    · simp only [hv, if_false] at h
      obtain ⟨before, u, e, hu, hb⟩ := ih after h
      refine ⟨v :: before, u, by simp [e], hu, ?_⟩
      intro x hx
      rcases List.mem_cons.mp hx with rfl | hx
      · exact hv
      · exact hb x hx

theorem visitsAfter_of_mem (marker : List Char) : ∀ (l : List Visit),
    marker ∈ l.map (fun v => v.entry.Name) → ∃ after, visitsAfter marker l = some after := by
  intro l
  induction l with
  | nil => intro h; simp at h
  | cons v vs ih =>
    intro h
    simp only [visitsAfter]
    by_cases hv : v.entry.Name = marker
    · exact ⟨vs, by simp [hv]⟩
    · simp only [hv, if_false]
      apply ih
      simp only [List.map_cons, List.mem_cons] at h
      rcases h with h | h
      · exact absurd h.symm hv
      · exact h

theorem nodeNames_node (d : List Char) (info : FileInfo) (sub rest : Forest) :
    (Forest.node info sub rest).nodeNames d
      = path.Join [d, info.name]
        :: ((if info.isDir then sub.nodeNames (path.Join [d, info.name]) else [])
            ++ rest.nodeNames d) := by
  cases h : info.isDir <;>
    simp [Forest.nodeNames, Forest.preorder, Visit.entry, dirEntry.Name, h]

theorem nodeNames_broken (d : List Char) (info : FileInfo) (err : OSError) (rest : Forest) :
    (Forest.broken info err rest).nodeNames d
      = path.Join [d, info.name] :: rest.nodeNames d := by
  simp [Forest.nodeNames, Forest.preorder, Visit.entry, dirEntry.Name]

theorem infos_mem_nodeNames (g : Forest) : ∀ (d : List Char) (j : FileInfo), j ∈ g.infos →
    path.Join [d, j.name] ∈ g.nodeNames d := by
  induction g with
  | nil => intro d j h; simp [Forest.infos] at h
  | node info sub rest _ ihr =>
    intro d j h
    rw [nodeNames_node]
    simp only [Forest.infos, List.mem_cons] at h
    rcases h with rfl | h
    · exact List.mem_cons_self _ _
    · exact List.mem_cons_of_mem _ (List.mem_append_right _ (ihr d j h))
  | broken info err rest ihr =>
    intro d j h
    rw [nodeNames_broken]
    simp only [Forest.infos, List.mem_cons] at h
    rcases h with rfl | h
    · exact List.mem_cons_self _ _
    · exact List.mem_cons_of_mem _ (ihr d j h)

/-- The names of the later siblings differ from the name of the first node, when the
paths of the nodes are pairwise distinct. -/
theorem later_names_differ (d : List Char) (info : FileInfo) (rest : Forest)
    (h : path.Join [d, info.name] ∉ rest.nodeNames d) :
    ∀ j ∈ rest.infos, info.name ≠ j.name := by
  intro j hj e
  apply h
  rw [e]
  exact infos_mem_nodeNames rest d j hj

end Paths

namespace Paths

/-! ## The resumed walk on a finite tree: the induction over the tree -/

/-- Resuming after the first node with the path of the marker in the run of siblings
`g` of the clean directory `d`: the walk appends `X`, which has the members of what
follows the marker in `g` and of `E`, the entries expected from the climb, and is equal
to it when the parent of the marker is the root or a child of the root; the marker is
not the empty path.  The listing
of `d` is `pre` followed by `g`; the climb from `d` appends `L`. -/
theorem resume_forest (r : recurDirReader) (g : Forest) :
    ∀ (d : List Char) (pre : List FileInfo) (L E : List dirEntry),
      path.Clean d = d → (d = r.dir ∨ Deeper r.dir d) →
      r.readDirFunc d = Except.ok (pre ++ g.infos) →
      (∀ i ∈ pre, ∀ j ∈ g.infos, i.name ≠ j.name) →
      g.listedBelow r.readDirFunc d = true → g.allListed = true → g.namesValid = true →
      (g.nodeNames d).Nodup →
      ClimbAppends r d L → (∀ e, e ∈ L ↔ e ∈ E) → (d = r.dir → L = [] ∧ E = []) →
      (path.Dir d = r.dir → L = E) →
      ∀ after, visitsAfter r.marker (g.preorder d) = some after →
        ∃ X, ResumeAppends r r.marker X
          ∧ (∀ e, e ∈ X ↔ e ∈ after.map Visit.entry ++ E)
          ∧ ((path.Dir r.marker = r.dir ∨ path.Dir (path.Dir r.marker) = r.dir) →
              X = after.map Visit.entry ++ E)
          ∧ r.marker ≠ [] := by
  induction g with
  | nil =>
    intro d pre L E _ _ _ _ _ _ _ _ _ _ _ _ after h
    simp [Forest.preorder, visitsAfter] at h
  | node info sub rest ihs ihr =>
    intro d pre L E hd hdeep hw hpre hl ha hv hnd hc hLE h0 h1 after hafter
    simp only [Forest.listedBelow, Bool.and_eq_true, Bool.or_eq_true, Bool.not_eq_true',
      decide_eq_true_eq] at hl
    simp only [Forest.allListed, Bool.and_eq_true, Bool.or_eq_true, Bool.not_eq_true'] at ha
    simp only [Forest.namesValid, Bool.and_eq_true] at hv
    rw [nodeNames_node] at hnd
    obtain ⟨hnotin, hnd2⟩ := List.nodup_cons.mp hnd
    obtain ⟨hcl, hdd, _⟩ := path_child d info.name hd hv.1.1
    have hw2 : r.readDirFunc d = Except.ok (pre ++ info :: rest.infos) := by
      simpa [Forest.infos] using hw
    have hpre1 : ∀ i ∈ pre, i.name ≠ info.name :=
      fun i hi => hpre i hi info (by simp [Forest.infos])
    have hsubl : info.isDir = true →
        r.readDirFunc (path.Join [d, info.name]) = Except.ok sub.infos
        ∧ sub.listedBelow r.readDirFunc (path.Join [d, info.name]) = true
        ∧ sub.allListed = true := by
      intro hdir
      rcases hl.1 with h | h
      · rw [hdir] at h; cases h
      rcases ha.1 with h2 | h2
      · rw [hdir] at h2; cases h2
      exact ⟨h.1, h.2, h2⟩
    have hchild := resumeAppends_child r d pre info sub rest L hd hv.1.1 hw2 hpre1 hl.2 ha.2
      hsubl hc
    have hname : (Visit.mk d info none).entry.Name = path.Join [d, info.name] := rfl
    simp only [Forest.preorder, visitsAfter, hname] at hafter
    by_cases hm : path.Join [d, info.name] = r.marker
    · rw [if_pos hm, Option.some.injEq] at hafter
      subst hafter
      have hLeq : (path.Dir r.marker = r.dir ∨ path.Dir (path.Dir r.marker) = r.dir) → L = E := by
        rw [← hm, hdd]
        rintro (e | e)
        · obtain ⟨a, b⟩ := h0 e
          rw [a, b]
        · exact h1 e
      by_cases hdir : info.isDir = true
      · have hX : ResumeAppends r r.marker
            ((sub.preorder (path.Join [d, info.name])).map Visit.entry
              ++ (rest.preorder d).map Visit.entry ++ L) := by
          have h := hchild
          rw [if_pos ⟨hm, hdir⟩] at h
          exact hm ▸ h
        refine ⟨_, hX, ?_, ?_, hm ▸ clean_eq_ne_nil _ hcl⟩
        · intro e
          simp only [hdir, if_true, List.map_append, List.mem_append, hLE e]
        · intro hcnd
          simp only [hdir, if_true, List.map_append, hLeq hcnd]
      · have hX : ResumeAppends r r.marker ([] ++ (rest.preorder d).map Visit.entry ++ L) := by
          have h := hchild
          rw [if_neg (fun hx => hdir hx.2)] at h
          exact hm ▸ h
        refine ⟨_, hX, ?_, ?_, hm ▸ clean_eq_ne_nil _ hcl⟩
        · intro e
          simp only [hdir, Bool.false_eq_true, if_false, List.nil_append, List.mem_append,
            hLE e]
        · intro hcnd
          simp only [hdir, Bool.false_eq_true, if_false, List.nil_append, hLeq hcnd]
    · rw [if_neg hm] at hafter
      have hnotin2 : path.Join [d, info.name] ∉ rest.nodeNames d :=
        fun hx => hnotin (List.mem_append_right _ hx)
      have hw3 : r.readDirFunc d = Except.ok ((pre ++ [info]) ++ rest.infos) := by
        rw [List.append_assoc]
        exact hw2
      have hpre3 : ∀ i ∈ pre ++ [info], ∀ j ∈ rest.infos, i.name ≠ j.name := by
        intro i hi j hj
        rcases List.mem_append.mp hi with hi | hi
        · exact hpre i hi j (by simp [Forest.infos, hj])
        · rw [List.mem_singleton] at hi
          rw [hi]
          exact later_names_differ d info rest hnotin2 j hj
      have hrest := ihr d (pre ++ [info]) L E hd hdeep hw3 hpre3 hl.2 ha.2 hv.2
        (List.Nodup.of_append_right hnd2) hc hLE h0 h1
      by_cases hdir : info.isDir = true
      · rw [if_pos hdir] at hafter hnd2
        rw [visitsAfter_append] at hafter
        cases hsv : visitsAfter r.marker (sub.preorder (path.Join [d, info.name])) with
        | some x =>
          rw [hsv] at hafter
          have hafter2 : x ++ rest.preorder d = after := Option.some.inj hafter
          obtain ⟨a, b, c⟩ := hsubl hdir
          have hdeep2 := deeper_child r.dir d info.name hd hv.1.1 hdeep
          have hne := deeper_ne _ _ hdeep2
          have hchild2 : ResumeAppends r (path.Join [d, info.name])
              ((rest.preorder d).map Visit.entry ++ L) := by
            have h := hchild
            rw [if_neg (fun hx => hm hx.1), List.nil_append] at h
            exact h
          have hc2 : ClimbAppends r (path.Dir (path.Join [d, info.name])) L := by
            rw [hdd]
            exact hc
          have hclimb2 : ClimbAppends r (path.Join [d, info.name])
              (((rest.preorder d).map Visit.entry ++ L) ++ L) :=
            climbAppends_step r _ _ L hne hchild2 hc2
          have hmem2 : ∀ e, e ∈ ((rest.preorder d).map Visit.entry ++ L) ++ L
              ↔ e ∈ (rest.preorder d).map Visit.entry ++ E := by
            intro e
            rw [List.mem_append, List.mem_append, List.mem_append, hLE e]
            constructor
            · rintro ((h | h) | h)
              · exact Or.inl h
              · exact Or.inr h
              · exact Or.inr h
            · rintro (h | h)
              · exact Or.inl (Or.inl h)
              · exact Or.inr h
          have h02 : path.Join [d, info.name] = r.dir →
              ((rest.preorder d).map Visit.entry ++ L) ++ L = []
                ∧ (rest.preorder d).map Visit.entry ++ E = [] :=
            fun e => absurd e hne
          have h12 : path.Dir (path.Join [d, info.name]) = r.dir →
              ((rest.preorder d).map Visit.entry ++ L) ++ L
                = (rest.preorder d).map Visit.entry ++ E := by
            intro e
            rw [hdd] at e
            obtain ⟨l0, e0⟩ := h0 e
            rw [l0, e0, List.append_nil]
          have hw4 : r.readDirFunc (path.Join [d, info.name]) = Except.ok ([] ++ sub.infos) := a
          have hpre4 : ∀ i ∈ ([] : List FileInfo), ∀ j ∈ sub.infos, i.name ≠ j.name :=
            fun i hi => absurd hi (List.not_mem_nil i)
          obtain ⟨X, hX, hmem, hex, hne0⟩ := ihs (path.Join [d, info.name]) []
            (((rest.preorder d).map Visit.entry ++ L) ++ L)
            ((rest.preorder d).map Visit.entry ++ E) hcl (Or.inr hdeep2) hw4 hpre4 b c hv.1.2
            (List.Nodup.of_append_left hnd2) hclimb2 hmem2 h02 h12 x hsv
          refine ⟨X, hX, ?_, ?_, hne0⟩
          · intro e
            rw [hmem e, ← hafter2, List.map_append, List.append_assoc]
          · intro hcnd
            rw [hex hcnd, ← hafter2, List.map_append, List.append_assoc]
        | none =>
          rw [hsv] at hafter
          exact hrest after hafter
      · rw [if_neg hdir, List.nil_append] at hafter
        exact hrest after hafter
  | broken info err rest ihr =>
    intro d pre L E hd hdeep hw hpre hl ha hv hnd hc hLE h0 h1 after hafter
    simp only [Forest.listedBelow, Bool.and_eq_true, Bool.or_eq_true, Bool.not_eq_true',
      decide_eq_true_eq] at hl
    simp only [Forest.allListed, Bool.and_eq_true, Bool.not_eq_true'] at ha
    simp only [Forest.namesValid, Bool.and_eq_true] at hv
    rw [nodeNames_broken] at hnd
    obtain ⟨hnotin, hnd2⟩ := List.nodup_cons.mp hnd
    obtain ⟨hcl, hdd, _⟩ := path_child d info.name hd hv.1
    have hw2 : r.readDirFunc d = Except.ok (pre ++ info :: rest.infos) := by
      simpa [Forest.infos] using hw
    have hpre1 : ∀ i ∈ pre, i.name ≠ info.name :=
      fun i hi => hpre i hi info (by simp [Forest.infos])
    have hdir : ¬ info.isDir = true := by
      rw [ha.1]
      exact Bool.false_ne_true
    have hchild := resumeAppends_child r d pre info Forest.nil rest L hd hv.1 hw2 hpre1 hl.2 ha.2
      (fun hx => absurd hx hdir) hc
    have hname : (Visit.mk d info (if info.isDir = true then some err else none)).entry.Name
        = path.Join [d, info.name] := rfl
    simp only [Forest.preorder, visitsAfter, hname] at hafter
    by_cases hm : path.Join [d, info.name] = r.marker
    · rw [if_pos hm, Option.some.injEq] at hafter
      subst hafter
      have hLeq : (path.Dir r.marker = r.dir ∨ path.Dir (path.Dir r.marker) = r.dir) → L = E := by
        rw [← hm, hdd]
        rintro (e | e)
        · obtain ⟨a, b⟩ := h0 e
          rw [a, b]
        · exact h1 e
      have hX : ResumeAppends r r.marker ([] ++ (rest.preorder d).map Visit.entry ++ L) := by
        have h := hchild
        rw [if_neg (fun hx => hdir hx.2)] at h
        exact hm ▸ h
      refine ⟨_, hX, ?_, ?_, hm ▸ clean_eq_ne_nil _ hcl⟩
      · intro e
        simp only [List.nil_append, List.mem_append, hLE e]
      · intro hcnd
        simp only [List.nil_append, hLeq hcnd]
    · rw [if_neg hm] at hafter
      have hw3 : r.readDirFunc d = Except.ok ((pre ++ [info]) ++ rest.infos) := by
        rw [List.append_assoc]
        exact hw2
      have hpre3 : ∀ i ∈ pre ++ [info], ∀ j ∈ rest.infos, i.name ≠ j.name := by
        intro i hi j hj
        rcases List.mem_append.mp hi with hi | hi
        · exact hpre i hi j (by simp [Forest.infos, hj])
        · rw [List.mem_singleton] at hi
          rw [hi]
          exact later_names_differ d info rest hnotin j hj
      exact ihr d (pre ++ [info]) L E hd hdeep hw3 hpre3 hl.2 ha.2 hv.2
        hnd2 hc hLE h0 h1 after hafter

end Paths

namespace Paths

/-! ## Claims about the resumed walk -/

/-- The walk resumed after a node of a finite tree, without matcher and limit: it
returns, its entries are those of the part of the pre-order walk after the marker,
and it is that part itself when the parent of the marker is the root or a child of
the root. -/
theorem resumed_walk (readDir : List Char → Except OSError (List FileInfo))
    (root : List Char) (f : Forest) (marker : List Char)
    (hl : f.listedAt readDir root = true) (ha : f.allListed = true)
    (hc : path.Clean root = root) (hv : f.namesValid = true)
    (hnd : (f.nodeNames root).Nodup) (hm : marker ∈ f.nodeNames root) :
    ∃ (after : List Visit) (es : List dirEntry) (n : Nat),
      visitsAfter marker (f.preorder root) = some after
      ∧ (∀ fuel, n ≤ fuel →
          RecurReadDir readDir root none marker 0 fuel = WalkResult.returned es none)
      ∧ (∀ e, e ∈ es ↔ e ∈ after.map Visit.entry)
      ∧ ((path.Dir marker = root ∨ path.Dir (path.Dir marker) = root) →
          es = after.map Visit.entry) := by
  obtain ⟨after, hafter⟩ := visitsAfter_of_mem marker (f.preorder root) hm
  simp only [Forest.listedAt, Bool.and_eq_true, decide_eq_true_eq] at hl
  have hw : (recurDirReader.mk root none marker 0 readDir).readDirFunc root
      = Except.ok ([] ++ f.infos) := hl.1
  obtain ⟨X, ⟨n, hX⟩, hmem, hex, hne⟩ := resume_forest
    (recurDirReader.mk root none marker 0 readDir) f root [] [] [] hc (Or.inl rfl) hw
    (fun i hi => absurd hi (List.not_mem_nil i)) hl.2 ha hv hnd
    (climbAppends_root (recurDirReader.mk root none marker 0 readDir))
    (fun _ => Iff.rfl) (fun _ => ⟨rfl, rfl⟩) (fun _ => rfl) after hafter
  refine ⟨after, X, n, hafter, ?_, ?_, ?_⟩
  · intro fuel hf
    have h := hX [] fuel hf
    have hne2 : marker ≠ [] := hne
    rw [List.nil_append] at h
    unfold RecurReadDir recurDirReader.recurReadDir
    rw [if_pos hne2]
    exact h
  · intro e
    rw [hmem e, List.append_nil]
  · intro hd
    rw [hex hd, List.append_nil]

theorem entry_name_injective (l : List Visit) (h : (l.map (fun v => v.entry.Name)).Nodup) :
    (l.map Visit.entry).Nodup := by
  have e : l.map (fun v => v.entry.Name) = (l.map Visit.entry).map dirEntry.Name := by
    rw [List.map_map]
    rfl
  rw [e] at h
  exact List.Nodup.of_map _ h

/-- C18: on a finite tree whose listings all succeed and in which every node has a
path of its own, below a clean root, for a marker that is the path of a node at any
depth: the walk resumed after the marker, without matcher and limit, returns; each
entry it returns is an entry of the part of the pre-order walk that follows the
marker, each entry of that part is returned at least once, and neither the entry of
the marker nor an entry that comes before it is returned. -/
theorem resumed_walk_returns_what_follows
    (readDir : List Char → Except OSError (List FileInfo))
    (root : List Char) (f : Forest) (marker : List Char)
    (hl : f.listedAt readDir root = true) (ha : f.allListed = true)
    (hc : path.Clean root = root) (hv : f.namesValid = true)
    (hnd : (f.nodeNames root).Nodup) (hm : marker ∈ f.nodeNames root) :
    ∃ (before : List Visit) (m : Visit) (after : List Visit) (es : List dirEntry) (n : Nat),
      f.preorder root = before ++ m :: after ∧ m.entry.Name = marker
      ∧ (∀ fuel, n ≤ fuel →
          RecurReadDir readDir root none marker 0 fuel = WalkResult.returned es none)
      ∧ (∀ e ∈ es, e ∈ after.map Visit.entry)
      ∧ (∀ e ∈ after.map Visit.entry, e ∈ es)
      ∧ m.entry ∉ es ∧ (∀ v ∈ before, v.entry ∉ es) := by
  obtain ⟨after, es, n, hafter, hwalk, hmem, _⟩ :=
    resumed_walk readDir root f marker hl ha hc hv hnd hm
  obtain ⟨before, m, hsplit, hname, _⟩ := visitsAfter_split marker _ after hafter
  have hnd2 : ((before ++ m :: after).map Visit.entry).Nodup := by
    rw [← hsplit]
    exact entry_name_injective _ hnd
  rw [List.map_append, List.map_cons] at hnd2
  obtain ⟨_, hnd3, hdisj⟩ := List.nodup_append.mp hnd2
  obtain ⟨hnotin, _⟩ := List.nodup_cons.mp hnd3
  refine ⟨before, m, after, es, n, hsplit, hname, hwalk, fun e he => (hmem e).mp he,
    fun e he => (hmem e).mpr he, ?_, ?_⟩
  · intro he
    exact hnotin ((hmem _).mp he)
  · intro v hv2 he
    exact hdisj (List.mem_map_of_mem _ hv2) (List.mem_cons_of_mem _ ((hmem _).mp he))

/-- A use of `resumed_walk_returns_what_follows` on the tree `r/a/b/c`, `r/z` with
the marker `r/a/b/c`, three levels below the root. -/
theorem resumed_walk_returns_what_follows_witness :
    smallTree.listedAt (fakeReaderDirFunc "r".toList smallTree) "r".toList = true
    ∧ smallTree.allListed = true ∧ path.Clean "r".toList = "r".toList
    ∧ smallTree.namesValid = true ∧ (smallTree.nodeNames "r".toList).Nodup
    ∧ "r/a/b/c".toList ∈ smallTree.nodeNames "r".toList
    ∧ ∃ (before : List Visit) (m : Visit) (after : List Visit) (es : List dirEntry) (n : Nat),
      smallTree.preorder "r".toList = before ++ m :: after ∧ m.entry.Name = "r/a/b/c".toList
      ∧ (∀ fuel, n ≤ fuel →
          RecurReadDir (fakeReaderDirFunc "r".toList smallTree) "r".toList none
            "r/a/b/c".toList 0 fuel = WalkResult.returned es none)
      ∧ (∀ e ∈ es, e ∈ after.map Visit.entry)
      ∧ (∀ e ∈ after.map Visit.entry, e ∈ es)
      ∧ m.entry ∉ es ∧ (∀ v ∈ before, v.entry ∉ es) :=
  ⟨by decide, by decide, by decide, by decide, by decide, by decide,
   resumed_walk_returns_what_follows (fakeReaderDirFunc "r".toList smallTree) "r".toList
     smallTree "r/a/b/c".toList (by decide) (by decide) (by decide) (by decide) (by decide)
     (by decide)⟩

/-- C19: on a finite tree whose listings all succeed and in which every node has a
path of its own, below a clean root, for a marker that is the path of a node whose
parent is the root or a child of the root: the walk resumed after the marker, without
matcher and limit, returns without error exactly the part of the pre-order walk that
follows the marker (the content of a directory marker first; nothing after the last
node), and no entry twice. -/
theorem resumed_walk_shallow_marker_exact
    (readDir : List Char → Except OSError (List FileInfo))
    (root : List Char) (f : Forest) (marker : List Char)
    (hl : f.listedAt readDir root = true) (ha : f.allListed = true)
    (hc : path.Clean root = root) (hv : f.namesValid = true)
    (hnd : (f.nodeNames root).Nodup) (hm : marker ∈ f.nodeNames root)
    (hdepth : path.Dir marker = root ∨ path.Dir (path.Dir marker) = root) :
    ∃ (before : List Visit) (m : Visit) (after : List Visit) (n : Nat),
      f.preorder root = before ++ m :: after ∧ m.entry.Name = marker
      ∧ (∀ fuel, n ≤ fuel →
          RecurReadDir readDir root none marker 0 fuel
            = WalkResult.returned (after.map Visit.entry) none)
      ∧ (after.map Visit.entry).Nodup := by
  obtain ⟨after, es, n, hafter, hwalk, _, hex⟩ :=
    resumed_walk readDir root f marker hl ha hc hv hnd hm
  obtain ⟨before, m, hsplit, hname, _⟩ := visitsAfter_split marker _ after hafter
  have hnd2 : ((before ++ m :: after).map Visit.entry).Nodup := by
    rw [← hsplit]
    exact entry_name_injective _ hnd
  rw [List.map_append, List.map_cons] at hnd2
  have hnd3 := (List.nodup_cons.mp (List.nodup_append.mp hnd2).2.1).2
  refine ⟨before, m, after, n, hsplit, hname, ?_, hnd3⟩
  intro fuel hf
  rw [hwalk fuel hf, hex hdepth]

/-- A use of `resumed_walk_shallow_marker_exact` on the tree `r/a/b/c`, `r/z` with
the directory `r/a/b` as the marker, a child of a child of the root. -/
theorem resumed_walk_shallow_marker_exact_witness :
    smallTree.listedAt (fakeReaderDirFunc "r".toList smallTree) "r".toList = true
    ∧ smallTree.allListed = true ∧ path.Clean "r".toList = "r".toList
    ∧ smallTree.namesValid = true ∧ (smallTree.nodeNames "r".toList).Nodup
    ∧ "r/a/b".toList ∈ smallTree.nodeNames "r".toList
    ∧ (path.Dir "r/a/b".toList = "r".toList
        ∨ path.Dir (path.Dir "r/a/b".toList) = "r".toList)
    ∧ ∃ (before : List Visit) (m : Visit) (after : List Visit) (n : Nat),
      smallTree.preorder "r".toList = before ++ m :: after ∧ m.entry.Name = "r/a/b".toList
      ∧ (∀ fuel, n ≤ fuel →
          RecurReadDir (fakeReaderDirFunc "r".toList smallTree) "r".toList none
            "r/a/b".toList 0 fuel = WalkResult.returned (after.map Visit.entry) none)
      ∧ (after.map Visit.entry).Nodup :=
  ⟨by decide, by decide, by decide, by decide, by decide, by decide, by decide,
   resumed_walk_shallow_marker_exact (fakeReaderDirFunc "r".toList smallTree) "r".toList
     smallTree "r/a/b".toList (by decide) (by decide) (by decide) (by decide) (by decide)
     (by decide) (by decide)⟩

end Paths

namespace Paths

/-! ## The pattern `**` alone -/

theorem items_one_star : globItems "*".toList = [Regexp.star (Regexp.notChar '/')] := by
  decide

theorem items_two_stars :
    globItems "**".toList
      = [Regexp.star (Regexp.notChar '/'), Regexp.star (Regexp.notChar '/')] := by
  decide

theorem words_one_star (p : List Char) :
    Words [Regexp.star (Regexp.notChar '/')] p ↔ '/' ∉ p := by
  rw [words_singleton, accepts_star_notChar]

theorem words_two_stars (p : List Char) :
    Words [Regexp.star (Regexp.notChar '/'), Regexp.star (Regexp.notChar '/')] p
      ↔ '/' ∉ p := by
  simp only [words_cons, words_nil, accepts_star_notChar]
  constructor
  · rintro ⟨u, v, hu, ⟨x, y, hx, rfl, rfl⟩, rfl⟩
    simp only [List.append_nil, List.mem_append, not_or]
    exact ⟨hu, hx⟩
  · intro h
    exact ⟨p, [], h, ⟨[], [], by simp, rfl, rfl⟩, by simp⟩

/-- C21: the matcher built from the include pattern `**` alone and no exclude pattern
is built, and so is the one of the pattern `*`; the matcher of `**` accepts a path
exactly when the path contains no `/`, and it accepts exactly the paths the matcher
of `*` accepts. -/
theorem two_stars_alone_stay_in_segment :
    ∃ m s : matcherRegexp, NewMatcher ["**".toList] [] = Except.ok m
      ∧ NewMatcher ["*".toList] [] = Except.ok s
      ∧ (∀ path : List Char, m.Match path = true ↔ '/' ∉ path)
      ∧ (∀ path : List Char, m.Match path = s.Match path) := by
  have e2 : convertGlobs ["**".toList]
      = Except.ok (some (anchored (globsBody ["**".toList]))) :=
    convertGlobs_ok ["**".toList] (List.cons_ne_nil _ _) (by decide)
  have e1 : convertGlobs ["*".toList]
      = Except.ok (some (anchored (globsBody ["*".toList]))) :=
    convertGlobs_ok ["*".toList] (List.cons_ne_nil _ _) (by decide)
  have h2 : ∀ path : List Char,
      (matcherRegexp.mk (some (anchored (globsBody ["**".toList]))) none).Match path = true
        ↔ '/' ∉ path := by
    intro path
    simp only [matcherRegexp.Match, Bool.and_true, matchString_anchored,
      fullMatch_globsBody ["**".toList] (List.cons_ne_nil _ _), List.any_cons, List.any_nil,
      Bool.or_false]
    rw [globMatch_iff, items_two_stars, words_two_stars]
  have h1 : ∀ path : List Char,
      (matcherRegexp.mk (some (anchored (globsBody ["*".toList]))) none).Match path = true
        ↔ '/' ∉ path := by
    intro path
    simp only [matcherRegexp.Match, Bool.and_true, matchString_anchored,
      fullMatch_globsBody ["*".toList] (List.cons_ne_nil _ _), List.any_cons, List.any_nil,
      Bool.or_false]
    rw [globMatch_iff, items_one_star, words_one_star]
  refine ⟨matcherRegexp.mk (some (anchored (globsBody ["**".toList]))) none,
    matcherRegexp.mk (some (anchored (globsBody ["*".toList]))) none, ?_, ?_, h2, ?_⟩
  · unfold NewMatcher
    rw [e2, convertGlobs_nil]
  · unfold NewMatcher
    rw [e1, convertGlobs_nil]
  · intro path
    rw [Bool.eq_iff_iff, h2 path, h1 path]

end Paths

namespace Paths

/-! ## A root that is not a clean path, with a marker -/

/-- C5 (failing input): the current directory holds the directory `r` with `a/b/c`
and `z`, and `r` is walked under the name `./r`.  The first page of one entry is
`r/a`.  Resumed after the marker `r/a`, the walk without limit stops on a run-time
panic, while the walk with `maxEntries = 1` returns `r/a/b`: the loop that climbs
from the marker compares the cleaned directory `r` with the root `./r`, climbs past
the root and slices the listing of `.` out of range. -/
theorem unclean_root_marker_limit :
    smallTree.listedAt (cleanedReaderDirFunc ".".toList nestedTree) "./r".toList = true
    ∧ smallTree.allListed = true
    ∧ RecurReadDir (cleanedReaderDirFunc ".".toList nestedTree) "./r".toList none [] 1 8
        = WalkResult.returned [dirEntryOf "r/a"] none
    ∧ RecurReadDir (cleanedReaderDirFunc ".".toList nestedTree) "./r".toList none
        "r/a".toList 0 8 = WalkResult.panic
    ∧ RecurReadDir (cleanedReaderDirFunc ".".toList nestedTree) "./r".toList none
        "r/a".toList 0 20 = WalkResult.panic
    ∧ RecurReadDir (cleanedReaderDirFunc ".".toList nestedTree) "./r".toList none
        "r/a".toList 1 8 = WalkResult.returned [dirEntryOf "r/a/b"] none := by
  decide

/-- C6 (failing input): the current directory holds the directory `r` with `a/b/c`
and `z`, `r` is walked under the name `./r`, and the matcher rejects only the path
`r/a/b`.  The walk without marker returns `r/a`, `r/a/b/c` and `r/z`.  Resumed after
the marker `r/a`, the walk with the matcher and without limit stops on a run-time
panic, and so does the walk without matcher: neither returns the entries `r/a/b/c`
and `r/z`, which follow the marker and which the matcher accepts. -/
theorem unclean_root_marker_matcher :
    smallTree.listedAt (cleanedReaderDirFunc ".".toList nestedTree) "./r".toList = true
    ∧ smallTree.allListed = true
    ∧ RecurReadDir (cleanedReaderDirFunc ".".toList nestedTree) "./r".toList
        (some (fun p => p != "r/a/b".toList)) [] 0 8
        = WalkResult.returned [dirEntryOf "r/a", fileEntry "r/a/b/c", fileEntry "r/z"] none
    ∧ RecurReadDir (cleanedReaderDirFunc ".".toList nestedTree) "./r".toList
        (some (fun p => p != "r/a/b".toList)) "r/a".toList 0 8 = WalkResult.panic
    ∧ RecurReadDir (cleanedReaderDirFunc ".".toList nestedTree) "./r".toList
        (some (fun p => p != "r/a/b".toList)) "r/a".toList 0 20 = WalkResult.panic
    ∧ RecurReadDir (cleanedReaderDirFunc ".".toList nestedTree) "./r".toList none
        "r/a".toList 0 8 = WalkResult.panic := by
  decide

end Paths
